import Mathlib

/-!
Verification development for the time-tracking script
`src/resources/default_scripts/python/time_tracker.py`.

Modelling conventions (shallow embedding):
* Python `str` values are modelled as `Str := List Char` (Python strings are
  sequences of code points; comparisons and slicing below mirror CPython's
  behaviour on code points).
* Python `float` values appear in two models.  The text-level pipeline uses
  exact decimal rationals carried as a canonical mantissa/exponent pair
  (`PyFloat`/`DQ`): this is an idealisation of binary64 arithmetic that is
  exact for the quantities those theorems depend on (minute durations are
  integers, rendering and re-parsing are value-determined), but it is *not*
  faithful for accumulated sums such as `total_expected`, where CPython's
  IEEE-754 additions round (e.g. ten additions of `0.025 * 4` give
  `0.9999999999999999`, not `1.0`).  The expected-hours accumulation is
  therefore modelled separately with genuine binary64 semantics (`Fp`,
  `fpAdd`, `fpOfDec`: round-to-nearest, ties-to-even at 53 significant bits,
  with unbounded exponent range, i.e. no overflow/underflow — faithful for
  every magnitude these documents can reach).  Exponent notation, `inf`/`nan`
  and shortest-repr corner cases of `repr(float)` are outside the fragment
  exercised by the script and are not modelled.
* Code that can raise a Python exception is modelled in `Except Unit`.
* The wall-clock timestamp that `process_event` stamps into its metadata is
  nondeterministic and is omitted from the modelled result record.
-/

set_option maxRecDepth 40000
set_option maxHeartbeats 1600000

abbrev Str := List Char

instance instDecEqExcept {ε α : Type} [DecidableEq ε] [DecidableEq α] :
    DecidableEq (Except ε α) := fun x y =>
  match x, y with
  | .ok a, .ok b =>
    if h : a = b then .isTrue (congrArg Except.ok h)
    else .isFalse (fun hh => h (Except.ok.inj hh))
  | .error a, .error b =>
    if h : a = b then .isTrue (congrArg Except.error h)
    else .isFalse (fun hh => h (Except.error.inj hh))
  | .ok _, .error _ => .isFalse (fun hh => Except.noConfusion hh)
  | .error _, .ok _ => .isFalse (fun hh => Except.noConfusion hh)

def str (s : String) : Str := s.toList

/-- Python `str.strip()` whitespace predicate (ASCII fragment). -/
def isPySpace (c : Char) : Bool :=
  c = ' ' || c = '\t' || c = '\n' || c = '\r' || c = '\x0b' || c = '\x0c'

/-- Python `s.strip()`. -/
def pyStrip (s : Str) : Str :=
  ((s.dropWhile isPySpace).reverse.dropWhile isPySpace).reverse

/-- Python `s.split(sep)` for a one-character separator: keeps empty pieces,
never returns an empty list. -/
def pySplitCh (c : Char) : Str → List Str
  | [] => [[]]
  | a :: t =>
    if a = c then [] :: pySplitCh c t
    else
      match pySplitCh c t with
      | [] => [[a]]
      | h :: r => (a :: h) :: r

/-- Python `sep.join(pieces)`. -/
def pyJoin (sep : Str) : List Str → Str
  | [] => []
  | [x] => x
  | x :: y :: ys => x ++ sep ++ pyJoin sep (y :: ys)

/-- Python `p.startswith(q)` as `startsWith q p`. -/
def startsWith (p s : Str) : Bool := p.isPrefixOf s

/-- Decimal digit value of a digit character. -/
def digitVal (c : Char) : Nat := c.toNat - 48

/-- `datetime.strptime(s.strip(), "%H:%M")`, returning minutes since midnight.
`%H` accepts one digit or two digits up to 23, `%M` one digit or two digits up
to 59, and the whole string must be consumed. -/
def parse_time (s : Str) : Option Nat :=
  match pySplitCh ':' (pyStrip s) with
  | [h, m] =>
    let hv : Option Nat :=
      match h with
      | [c] => if c.isDigit then some (digitVal c) else none
      | [c1, c2] =>
        if c1.isDigit && c2.isDigit && decide (digitVal c1 * 10 + digitVal c2 ≤ 23) then
          some (digitVal c1 * 10 + digitVal c2)
        else none
      | _ => none
    let mv : Option Nat :=
      match m with
      | [c] => if c.isDigit then some (digitVal c) else none
      | [c1, c2] =>
        if c1.isDigit && c2.isDigit && decide (digitVal c1 ≤ 5) then
          some (digitVal c1 * 10 + digitVal c2)
        else none
      | _ => none
    match hv, mv with
    | some a, some b => some (a * 60 + b)
    | _, _ => none
  | _ => none

/-- An exact decimal number `m / 10^e`.  Every float the script computes with
is such a decimal (durations are integer minutes and `round(_, 2)` produces
hundredths), so this represents the values exactly while keeping all
arithmetic in kernel-reducible integer operations.  The representation is not
canonical; everything the script observes (formatted digits, sign tests) is a
function of the value alone. -/
structure DQ where
  m : Int
  e : Nat
deriving DecidableEq, Repr

def DQ.q (x : DQ) : ℚ := (x.m : ℚ) / ((10 : ℚ) ^ x.e)

def DQ.add (x y : DQ) : DQ :=
  ⟨x.m * (10 : Int) ^ (max x.e y.e - x.e) + y.m * (10 : Int) ^ (max x.e y.e - y.e),
   max x.e y.e⟩

def DQ.sub (x y : DQ) : DQ :=
  ⟨x.m * (10 : Int) ^ (max x.e y.e - x.e) - y.m * (10 : Int) ^ (max x.e y.e - y.e),
   max x.e y.e⟩

/-- Multiplication by an integer constant. -/
def DQ.mulI (x : DQ) (k : Int) : DQ := ⟨x.m * k, x.e⟩

def DQ.zero : DQ := ⟨0, 0⟩

/-- Round to the nearest integer, half to even (the rounding of Python's
`round` and of `format` on the decimals the script produces): `a / b` for
`b > 0`. -/
def halfEvenDiv (a b : Int) : Int :=
  let q := Int.fdiv a b
  let r := a - q * b
  if 2 * r < b then q else if b < 2 * r then q + 1 else if q % 2 = 0 then q else q + 1

structure TimeBlock where
  start : Str
  «end» : Str
deriving DecidableEq, Repr

/-- `TimeBlock.duration_minutes`: `(end − start).total_seconds() / 60` when both
boundaries parse as `HH:MM` (both datetimes share the default date, so the
Python float is exactly the integer minute difference, possibly negative),
else `0.0`. -/
def TimeBlock.duration_minutes (b : TimeBlock) : Int :=
  match parse_time b.start, parse_time b.«end» with
  | some s, some e => (e : Int) - (s : Int)
  | _, _ => 0

/-- The loop body of `TimeBlock.parse`: a comma segment containing `-` is
unpacked with `start, end = part.strip().split('-')`, which raises (modelled as
`.error ()`) unless the split yields exactly two pieces; segments without `-`
are skipped. -/
def parseBlockParts : List Str → Except Unit (List TimeBlock)
  | [] => .ok []
  | part :: rest =>
    if part.contains '-' then
      match pySplitCh '-' (pyStrip part) with
      | [s, e] =>
        match parseBlockParts rest with
        | .error u => .error u
        | .ok bs => .ok (⟨pyStrip s, pyStrip e⟩ :: bs)
      | _ => .error ()
    else parseBlockParts rest

/-- `TimeBlock.parse`: `''`, `'-'` and `'N/A'` yield no blocks; otherwise the
string is split on `,` and each dash-containing segment is unpacked. -/
def TimeBlock.parse (time_str : Str) : Except Unit (List TimeBlock) :=
  if time_str = [] || pyStrip time_str = str "-" || pyStrip time_str = str "N/A" then
    .ok []
  else
    parseBlockParts (pySplitCh ',' time_str)

structure TimeEntry where
  date : Str
  type : Str
  work_times : List TimeBlock
  break_times : List TimeBlock
  notes : Str
deriving DecidableEq, Repr

/-- Row handling inside `parse_entries`: split on `|`, strip the parts, accept
the row when there are at least 6 parts and the date part is nonempty. -/
def parseEntryRow (line : Str) : Except Unit (Option TimeEntry) :=
  let parts := (pySplitCh '|' line).map pyStrip
  if decide (parts.length ≥ 6) && parts[1]! ≠ [] then
    match TimeBlock.parse parts[3]! with
    | .error u => .error u
    | .ok wt =>
      match TimeBlock.parse parts[4]! with
      | .error u => .error u
      | .ok bt => .ok (some ⟨parts[1]!, parts[2]!, wt, bt, parts[5]!⟩)
  else
    .ok none

/-- The line scan of `parse_entries` with its `in_entries` / `header_seen`
state. -/
def parseEntriesGo : Bool → Bool → List Str → Except Unit (List TimeEntry)
  | _, _, [] => .ok []
  | in_entries, header_seen, line :: rest =>
    if startsWith (str "## Time Entries") line then
      parseEntriesGo true header_seen rest
    else if in_entries && startsWith (str "|") line then
      if !header_seen then parseEntriesGo in_entries true rest
      else if startsWith (str "|--") line then parseEntriesGo in_entries header_seen rest
      else if !(line.contains '|') then parseEntriesGo in_entries header_seen rest
      else
        match parseEntryRow line with
        | .error u => .error u
        | .ok e? =>
          match parseEntriesGo in_entries header_seen rest with
          | .error u => .error u
          | .ok es => .ok (match e? with | some e => e :: es | none => es)
    else parseEntriesGo in_entries header_seen rest

/-- `parse_entries(content)`. -/
def parse_entries (content : Str) : Except Unit (List TimeEntry) :=
  parseEntriesGo false false (pySplitCh '\n' content)

/-- Little-endian decimal digits of `n`, with explicit fuel so that the
recursion is structural (any `fuel ≥ n` gives the digits of `n`). -/
def natDigitsRev : Nat → Nat → List Nat
  | 0, _ => []
  | Nat.succ fuel, n => if n = 0 then [] else n % 10 :: natDigitsRev fuel (n / 10)

/-- Decimal digit string of a natural number (`str(n)` for `n ≥ 0`). -/
def natStr (n : Nat) : Str :=
  if n = 0 then str "0"
  else ((natDigitsRev n n).map (fun d => Char.ofNat (48 + d))).reverse

/-- Python `str(i)` for an int. -/
def intStr (i : Int) : Str :=
  if i < 0 then '-' :: natStr i.natAbs else natStr i.natAbs

/-- Value of a digit string (most significant first). -/
def digitsToNat (s : Str) : Nat := s.foldl (fun a c => a * 10 + digitVal c) 0

/-- Python `int(s)` on the fragment used by the script: optional sign and a
nonempty run of decimal digits after stripping (underscore separators are not
modelled). -/
def intParse (s : Str) : Option Int :=
  match pyStrip s with
  | '-' :: r => if r ≠ [] && r.all Char.isDigit then some (-(digitsToNat r : Int)) else none
  | '+' :: r => if r ≠ [] && r.all Char.isDigit then some ((digitsToNat r : Int)) else none
  | r => if r ≠ [] && r.all Char.isDigit then some ((digitsToNat r : Int)) else none

/-- A Python float, kept as an exact decimal `m / 10^e`.  The representation
produced by `floatParse` is canonical: `e = 0` or `10 ∤ m`. -/
structure PyFloat where
  m : Int
  e : Nat
deriving DecidableEq, Repr

/-- Canonicalize a mantissa/exponent pair by stripping factors of ten. -/
def canonF : Int → Nat → PyFloat
  | m, 0 => ⟨m, 0⟩
  | m, Nat.succ e => if m % 10 = 0 then canonF (m / 10) e else ⟨m, Nat.succ e⟩

def PyFloat.q (f : PyFloat) : ℚ := (f.m : ℚ) / ((10 : ℚ) ^ f.e)

/-- Unsigned part of `float(s)`: digits with at most one decimal point and at
least one digit overall. -/
def floatParseCore (t : Str) : Option PyFloat :=
  match pySplitCh '.' t with
  | [d] => if d ≠ [] && d.all Char.isDigit then some (canonF (digitsToNat d) 0) else none
  | [a, b] =>
    if (a ++ b) ≠ [] && a.all Char.isDigit && b.all Char.isDigit then
      some (canonF (digitsToNat (a ++ b)) b.length)
    else none
  | _ => none

/-- Python `float(s)` on the decimal fragment the script feeds it (no exponent
notation, `inf` or `nan`). -/
def floatParse (s : Str) : Option PyFloat :=
  match pyStrip s with
  | '-' :: r => (floatParseCore r).map (fun f => ⟨-f.m, f.e⟩)
  | '+' :: r => floatParseCore r
  | r => floatParseCore r

/-- The digit block of `pyFloatStr`: the decimal digits of `n`, left-padded
with zeros so that at least one digit sits before the point. -/
def padDigits (n e : Nat) : Str :=
  if (natStr n).length ≤ e then
    List.replicate (e + 1 - (natStr n).length) '0' ++ natStr n
  else natStr n

/-- Python `repr`/`str` of a float in canonical decimal form: the mantissa
digits with the point inserted, at least one digit on each side. -/
def pyFloatStr (f : PyFloat) : Str :=
  let sign : Str := if f.m < 0 then ['-'] else []
  let ds0 := natStr f.m.natAbs
  let ds := if ds0.length ≤ f.e then List.replicate (f.e + 1 - ds0.length) '0' ++ ds0 else ds0
  if f.e = 0 then sign ++ ds ++ str ".0"
  else sign ++ ds.take (ds.length - f.e) ++ '.' :: ds.drop (ds.length - f.e)

/-- A Python number as stored in the config dict: the default is the int `40`,
a parsed value is a float.  `str()` of the two renders differently, which is
observable in the generated document. -/
inductive PyNum where
  | int : Int → PyNum
  | float : PyFloat → PyNum
deriving DecidableEq, Repr

def PyNum.strRepr : PyNum → Str
  | .int n => intStr n
  | .float f => pyFloatStr f

def PyNum.q : PyNum → ℚ
  | .int n => (n : ℚ)
  | .float f => f.q

/-- The exact decimal value of a config number. -/
def PyNum.dq : PyNum → DQ
  | .int n => ⟨n, 0⟩
  | .float f => ⟨f.m, f.e⟩

structure Config where
  expected_hours_per_week : PyNum
  workdays : List Str
  vacation_days_per_year : Int
deriving DecidableEq, Repr

def DEFAULT_CONFIG : Config :=
  ⟨.int 40,
   [str "Monday", str "Tuesday", str "Wednesday", str "Thursday", str "Friday"],
   30⟩

/-- Capture of `(.*?)\n\n` with DOTALL: the text up to the first `"\n\n"`, or
`none` when no `"\n\n"` follows. -/
def takeUntilNlNl : Str → Option Str
  | [] => none
  | c :: t =>
    if c = '\n' ∧ t.head? = some '\n' then some []
    else (takeUntilNlNl t).map (fun r => c :: r)

/-- `re.search(r'## Configuration\n(.*?)\n\n', content, re.DOTALL)`: leftmost
position where the literal matches and a `"\n\n"` follows; the capture is the
shortest, i.e. up to the first `"\n\n"`. -/
def searchConfigGo : Str → Option Str
  | [] => none
  | s@(_ :: t) =>
    if startsWith (str "## Configuration\n") s then
      match takeUntilNlNl (s.drop (str "## Configuration\n").length) with
      | some cap => some cap
      | none => searchConfigGo t
    else searchConfigGo t

/-- Python `s.splitlines()` restricted to `\n` separators (the captured config
text contains no other line breaks). -/
def pySplitlines (s : Str) : List Str :=
  if s = [] then []
  else
    let p := pySplitCh '\n' s
    if s.getLast? = some '\n' then p.dropLast else p

/-- Python `s.split(c, 1)` when `c ∈ s`: the pieces before and after the first
occurrence. -/
def splitFirst (c : Char) : Str → Str × Str
  | [] => ([], [])
  | a :: t =>
    if a = c then ([], t)
    else
      let p := splitFirst c t
      (a :: p.1, p.2)

/-- `key.lower().replace(' ', '_')` of a config line's key part. -/
def configKeyOf (line : Str) : Str :=
  ((pyStrip (splitFirst ':' (pyStrip line)).1).map Char.toLower).map
    (fun c => if c = ' ' then '_' else c)

/-- The stripped value part of a config line. -/
def configValOf (line : Str) : Str := pyStrip (splitFirst ':' (pyStrip line)).2

/-- One iteration of the `parse_config` line loop.  `float(value)` and
`int(value)` raise (`.error ()`) on malformed values; there is no handler
inside `parse_config`. -/
def applyConfigLine (cfg : Config) (line : Str) : Except Unit Config :=
  if (pyStrip line).contains ':' then
    let key := configKeyOf line
    let value := configValOf line
    if key = str "expected_hours_per_week" then
      match floatParse value with
      | some f => .ok { cfg with expected_hours_per_week := .float f }
      | none => .error ()
    else if key = str "workdays" then
      .ok { cfg with workdays := (pySplitCh ',' value).map pyStrip }
    else if key = str "vacation_days_per_year" then
      match intParse value with
      | some n => .ok { cfg with vacation_days_per_year := n }
      | none => .error ()
    else .ok cfg
  else .ok cfg

def applyConfigLines : Config → List Str → Except Unit Config
  | cfg, [] => .ok cfg
  | cfg, l :: ls =>
    match applyConfigLine cfg l with
    | .error u => .error u
    | .ok cfg' => applyConfigLines cfg' ls

/-- `parse_config(content)`. -/
def parse_config (content : Str) : Except Unit Config :=
  match searchConfigGo content with
  | none => .ok DEFAULT_CONFIG
  | some sect => applyConfigLines DEFAULT_CONFIG (pySplitlines sect)

structure PyDate where
  year : Nat
  month : Nat
  day : Nat
deriving DecidableEq, Repr

def isLeap (y : Nat) : Bool := (y % 4 = 0 && y % 100 ≠ 0) || y % 400 = 0

def daysInMonth (y m : Nat) : Nat :=
  if m = 2 then (if isLeap y then 29 else 28)
  else if m = 4 || m = 6 || m = 9 || m = 11 then 30
  else 31

/-- `datetime.strptime(s, "%Y-%m-%d")`: four-digit year (years below 1 are
rejected by the datetime range), one- or two-digit month and day, whole string
consumed, and the day must exist in the month. -/
def parseDate (s : Str) : Option PyDate :=
  match pySplitCh '-' s with
  | [ys, ms, ds] =>
    if ys.length = 4 && ys.all Char.isDigit
        && decide (1 ≤ ms.length) && decide (ms.length ≤ 2) && ms.all Char.isDigit
        && decide (1 ≤ ds.length) && decide (ds.length ≤ 2) && ds.all Char.isDigit then
      let y := digitsToNat ys
      let m := digitsToNat ms
      let d := digitsToNat ds
      if decide (1 ≤ y) && decide (1 ≤ m) && decide (m ≤ 12)
          && decide (1 ≤ d) && decide (d ≤ daysInMonth y m) then
        some ⟨y, m, d⟩
      else none
    else none
  | _ => none

def pad2 (n : Nat) : Str := if n < 10 then '0' :: natStr n else natStr n

def pad4 (n : Nat) : Str := List.replicate (4 - (natStr n).length) '0' ++ natStr n

/-- One-based day of the year. -/
def dayOfYear (dt : PyDate) : Nat :=
  (List.range (dt.month - 1)).foldl (fun a i => a + daysInMonth dt.year (i + 1)) 0 + dt.day

/-- `date.toordinal()`: day count from 0001-01-01 = 1, proleptic Gregorian. -/
def toOrdinal (dt : PyDate) : Nat :=
  365 * (dt.year - 1) + (dt.year - 1) / 4 - (dt.year - 1) / 100 + (dt.year - 1) / 400
    + dayOfYear dt

/-- `date.weekday()`: Monday = 0. -/
def weekdayOf (dt : PyDate) : Nat := (toOrdinal dt + 6) % 7

/-- `strftime("%Y-%m")`. -/
def monthKeyOf (dt : PyDate) : Str := pad4 dt.year ++ '-' :: pad2 dt.month

/-- `strftime("%Y-W%W")`: `%W` is the Monday-based week of the year, days
before the first Monday belonging to week 00. -/
def weekKeyOf (dt : PyDate) : Str :=
  pad4 dt.year ++ '-' :: 'W' :: pad2 ((dayOfYear dt + 6 - weekdayOf dt) / 7)

def predDay (d : PyDate) : PyDate :=
  if 1 < d.day then ⟨d.year, d.month, d.day - 1⟩
  else if 1 < d.month then ⟨d.year, d.month - 1, daysInMonth d.year (d.month - 1)⟩
  else ⟨d.year - 1, 12, 31⟩

def succDay (d : PyDate) : PyDate :=
  if d.day < daysInMonth d.year d.month then ⟨d.year, d.month, d.day + 1⟩
  else if d.month < 12 then ⟨d.year, d.month + 1, 1⟩
  else ⟨d.year + 1, 1, 1⟩

/-- `d - timedelta(days=k)` for the small `k` the script uses. -/
def subDays : Nat → PyDate → PyDate
  | 0, d => d
  | k + 1, d => subDays k (predDay d)

/-- `d + timedelta(days=k)` for the small `k` the script uses. -/
def addDays : Nat → PyDate → PyDate
  | 0, d => d
  | k + 1, d => addDays k (succDay d)

/-- `strftime("%Y-%m-%d")`. -/
def dateStr (d : PyDate) : Str := pad4 d.year ++ '-' :: (pad2 d.month ++ '-' :: pad2 d.day)

/-- The hundredths integer of `x` rounded at two decimals,
`roundHalfEven(x·100)`. -/
def hundredths (x : DQ) : Int :=
  if x.e ≤ 2 then x.m * (10 : Int) ^ (2 - x.e)
  else halfEvenDiv x.m ((10 : Int) ^ (x.e - 2))

/-- `f"{x:.2f}"`. -/
def fmt2f (x : DQ) : Str :=
  let n := hundredths x
  let sign : Str := if x.m < 0 then ['-'] else []
  sign ++ natStr (n.natAbs / 100) ++ '.' :: pad2 (n.natAbs % 100)

/-- `f"{x:+.2f}"`. -/
def fmtSigned2f (x : DQ) : Str :=
  let n := hundredths x
  let sign : Str := if x.m < 0 then ['-'] else ['+']
  sign ++ natStr (n.natAbs / 100) ++ '.' :: pad2 (n.natAbs % 100)

def sumDur (bs : List TimeBlock) : Int := bs.foldl (fun a b => a + b.duration_minutes) 0

/-- `calculate_day_hours`: `round(working_minutes / 60, 2)`.  In hundredths,
`round((wm/60)·100) = roundHalfEven(wm·5/3)`. -/
def calculate_day_hours (work_blocks break_blocks : List TimeBlock) : DQ :=
  ⟨halfEvenDiv ((sumDur work_blocks - sumDur break_blocks) * 5) 3, 2⟩

structure WeekStat where
  worked : DQ
  expected : DQ
  start_date : PyDate
  vacation_days : Int
  sick_days : Int
deriving DecidableEq, Repr

structure MonthStat where
  worked : DQ
  expected : DQ
  vacation_days : Int
  sick_days : Int
deriving DecidableEq, Repr

def WeekStat.dflt : WeekStat := ⟨DQ.zero, DQ.zero, ⟨1, 1, 1⟩, 0, 0⟩

/-- The running state of the `calculate_balance` loop; the two stats dicts are
insertion-ordered association lists, as Python dicts are. -/
structure BalState where
  total_worked : DQ
  total_expected : DQ
  monthly_stats : List (Str × MonthStat)
  weekly_stats : List (Str × WeekStat)
deriving DecidableEq, Repr

def amem (k : Str) (l : List (Str × β)) : Bool := l.any (fun p => p.1 = k)

def aupdate (k : Str) (f : β → β) : List (Str × β) → List (Str × β)
  | [] => []
  | (k', v) :: t => if k' = k then (k', f v) :: t else (k', v) :: aupdate k f t

def alookupD (k : Str) (l : List (Str × β)) (dflt : β) : β :=
  ((l.find? (fun p => p.1 = k)).map (fun p => p.2)).getD dflt

/-- One iteration of the `calculate_balance` entry loop.  The per-entry
`except` handler turns the `strptime` failure on an unparsable date into a
skip; no other statement in the body can raise. -/
def balStep (expected_per_week : DQ) (st : BalState) (e : TimeEntry) : BalState :=
  if e.date = str "Date" then st
  else
    match parseDate e.date with
    | none => st
    | some dt =>
      let mk := monthKeyOf dt
      let wk := weekKeyOf dt
      let st1 :=
        if amem mk st.monthly_stats then st
        else
          { st with
            monthly_stats :=
              st.monthly_stats ++ [(mk, ⟨DQ.zero, expected_per_week.mulI 4, 0, 0⟩)]
            total_expected := st.total_expected.add (expected_per_week.mulI 4) }
      let st2 :=
        if amem wk st1.weekly_stats then st1
        else
          { st1 with
            weekly_stats :=
              st1.weekly_stats
                ++ [(wk, ⟨DQ.zero, expected_per_week, subDays (weekdayOf dt) dt, 0, 0⟩)] }
      let ty := e.type.map Char.toLower
      if ty = str "workday" then
        let hours := calculate_day_hours e.work_times e.break_times
        if 0 < hours.m then
          { st2 with
            total_worked := st2.total_worked.add hours
            monthly_stats := aupdate mk (fun s => { s with worked := s.worked.add hours }) st2.monthly_stats
            weekly_stats := aupdate wk (fun s => { s with worked := s.worked.add hours }) st2.weekly_stats }
        else st2
      else if ty = str "vacation" then
        { st2 with
          monthly_stats := aupdate mk (fun s => { s with vacation_days := s.vacation_days + 1 }) st2.monthly_stats
          weekly_stats := aupdate wk (fun s => { s with vacation_days := s.vacation_days + 1 }) st2.weekly_stats }
      else if ty = str "sick" then
        { st2 with
          monthly_stats := aupdate mk (fun s => { s with sick_days := s.sick_days + 1 }) st2.monthly_stats
          weekly_stats := aupdate wk (fun s => { s with sick_days := s.sick_days + 1 }) st2.weekly_stats }
      else st2

def balanceFold (entries : List TimeEntry) (cfg : Config) : BalState :=
  entries.foldl (balStep cfg.expected_hours_per_week.dq) ⟨DQ.zero, DQ.zero, [], []⟩

/-- Lexicographic comparison of code-point sequences: Python `<` on `str`. -/
def strLtB : Str → Str → Bool
  | [], [] => false
  | [], _ :: _ => true
  | _ :: _, [] => false
  | a :: s, b :: t => if a < b then true else if b < a then false else strLtB s t

/-- Stable insertion used to model Python's stable `sorted`/`list.sort`: an
element is inserted after every element it is not strictly before. -/
def insSortedBy (lt : α → α → Bool) (x : α) : List α → List α
  | [] => [x]
  | y :: ys => if lt x y then x :: y :: ys else y :: insSortedBy lt x ys

def pySortedBy (lt : α → α → Bool) (l : List α) : List α :=
  l.foldl (fun acc x => insSortedBy lt x acc) []

/-- `sorted(keys, reverse=True)`: stable sort under the reversed strict
comparison. -/
def sortedKeysDesc (l : List Str) : List Str := pySortedBy (fun a b => strLtB b a) l

def sortedKeysAsc (l : List Str) : List Str := pySortedBy strLtB l

/-- One weekly table row of the summary. -/
def weekRow (s : WeekStat) (wk : Str) (cum : DQ) : Str :=
  str "| " ++ wk ++ str " | " ++ dateStr s.start_date ++ str " to "
    ++ dateStr (addDays 6 s.start_date) ++ str " | " ++ fmt2f s.worked ++ str "h | "
    ++ fmt2f s.expected ++ str "h | " ++ fmtSigned2f (s.worked.sub s.expected) ++ str "h | "
    ++ fmtSigned2f cum ++ str "h |"

/-- The weekly summary loop: walks the (descending-sorted) keys accumulating
`cumulative_balance`. -/
def weeklyRowsLoop (stats : List (Str × WeekStat)) : List Str → DQ → List Str
  | [], _ => []
  | k :: ks, cum =>
    let s := alookupD k stats WeekStat.dflt
    let cum' := cum.add (s.worked.sub s.expected)
    weekRow s k cum' :: weeklyRowsLoop stats ks cum'

/-- One month block of the summary. -/
def monthBlock (stats : List (Str × MonthStat)) (k : Str) : List Str :=
  let s := alookupD k stats ⟨DQ.zero, DQ.zero, 0, 0⟩
  [str "#### " ++ k,
   str "Hours worked: " ++ fmt2f s.worked ++ str "h",
   str "Expected hours: " ++ fmt2f s.expected ++ str "h",
   str "Balance: " ++ fmtSigned2f (s.worked.sub s.expected) ++ str "h",
   str "Vacation days: " ++ intStr s.vacation_days,
   str "Sick days: " ++ intStr s.sick_days ++ str "\n"]

/-- `calculate_balance(entries, config) → (balance, summary)`. -/
def calculate_balance (entries : List TimeEntry) (cfg : Config) : DQ × Str :=
  let st := balanceFold entries cfg
  let balance := st.total_worked.sub st.total_expected
  let parts : List Str :=
    [str "### Overall Summary",
     str "Total hours worked: " ++ fmt2f st.total_worked ++ str "h",
     str "Expected hours: " ++ fmt2f st.total_expected ++ str "h",
     str "Balance: " ++ fmtSigned2f balance ++ str "h" ++ str "\n",
     str "Status: " ++ (if 0 ≤ balance.m then str "✅ On track" else str "⚠️ Behind schedule")
       ++ str "\n",
     str "### Weekly Summary" ++ str "\n",
     str "| Week | Dates | Hours Worked | Expected Hours | Balance | Cumulative Balance |",
     str "|------|-------|--------------|----------------|---------|-------------------|"]
    ++ weeklyRowsLoop st.weekly_stats (sortedKeysDesc (st.weekly_stats.map (fun p => p.1))) DQ.zero
    ++ [str "\n" ++ str "### Monthly Summary" ++ str "\n"]
    ++ (sortedKeysAsc (st.monthly_stats.map (fun p => p.1))).flatMap (monthBlock st.monthly_stats)
  (balance, pyJoin (str "\n") parts)

/-- The entries parsed from the existing document inside
`generate_tracker_content`: `parse_entries(original_content) if
original_content else []`. -/
def existingOf (original_content : Str) : Except Unit (List TimeEntry) :=
  if original_content = [] then .ok [] else parse_entries original_content

/-- The merge loop of `generate_tracker_content`.  In the source,
`all_entries = existing_entries` binds the same list object, so the
`any(e['date'] == new_entry['date'] for e in existing_entries)` membership
test also sees the new entries appended so far. -/
def mergeFold (existing new_entries : List TimeEntry) : List TimeEntry :=
  new_entries.foldl
    (fun acc ne => if acc.any (fun e => e.date = ne.date) then acc else acc ++ [ne])
    existing

/-- The merged entry collection produced inside `generate_tracker_content`
(before sorting), or the parse failure its `except` handler swallows. -/
def merged_entries (orig : Str) (new_entries : List TimeEntry) : Except Unit (List TimeEntry) :=
  (existingOf orig).map (fun ex => mergeFold ex new_entries)

/-- `all_entries.sort(key=lambda x: x['date'], reverse=True)`: stable sort,
descending in the date string. -/
def entrySortDesc (l : List TimeEntry) : List TimeEntry :=
  pySortedBy (fun a b => strLtB b.date a.date) l

/-- `','.join(f"{b.start}-{b.end}" for b in blocks) or '-'`. -/
def renderCell (bs : List TimeBlock) : Str :=
  let j := pyJoin (str ",") (bs.map (fun b => b.start ++ '-' :: b.«end»))
  if j = [] then str "-" else j

/-- One row of the rendered Time Entries table. -/
def renderRow (e : TimeEntry) : Str :=
  str "| " ++ e.date ++ str " | " ++ e.type ++ str " | " ++ renderCell e.work_times
    ++ str " | " ++ renderCell e.break_times ++ str " | " ++ e.notes ++ str " |"

/-- The three rendered Configuration lines. -/
def configLines (cfg : Config) : List Str :=
  [str "Expected Hours per Week: " ++ cfg.expected_hours_per_week.strRepr,
   str "Workdays: " ++ pyJoin (str ", ") cfg.workdays,
   str "Vacation Days per Year: " ++ intStr cfg.vacation_days_per_year]

/-- The `content_lines` list of `generate_tracker_content`; the summary
element is a multi-line string, exactly as in the source. -/
def contentLines (cfg : Config) (all_entries : List TimeEntry) : List Str :=
  [str "---", str "time_tracker: true", str "---", str "",
   str "# ⏱️ Time Tracker", str "",
   str "## Configuration"]
  ++ configLines cfg
  ++ [str "",
      (calculate_balance all_entries cfg).2,
      str "",
      str "## Time Entries",
      str "| Date | Type | Work Times | Break Times | Notes |",
      str "|------|------|------------|-------------|--------|"]
  ++ all_entries.map renderRow
  ++ [str "<!-- Format: Work Times: 09:00-12:00,13:00-17:00 | Break Times: 12:00-13:00 -->"]

def renderDoc (cfg : Config) (all_entries : List TimeEntry) : Str :=
  pyJoin (str "\n") (contentLines cfg all_entries)

/-- `generate_tracker_content`.  The only statement under its `try` that can
raise is the `parse_entries` call; on failure the function returns
`original_content`. -/
def generate_tracker_content (original_content : Str) (cfg : Config)
    (entries : List TimeEntry) : Str :=
  match existingOf original_content with
  | .error _ => original_content
  | .ok ex => renderDoc cfg (entrySortDesc (mergeFold ex entries))

/-- One full pipeline pass as the Orchestrator performs it on a document's
current content: parse entries, parse config, regenerate.  `.error` when one
of the two parses raises (`process_event` catches that exception at its outer
boundary and yields no result). -/
def pipelineOnce (d : Str) : Except Unit Str :=
  match parse_entries d with
  | .error u => .error u
  | .ok entries =>
    match parse_config d with
    | .error u => .error u
    | .ok cfg => .ok (generate_tracker_content d cfg entries)

/-- The `default_content` template of `process_event`. -/
def default_content : Str :=
  pyJoin (str "\n")
    [str "---", str "time_tracker: true", str "---", str "",
     str "# ⏱️ Time Tracker", str "",
     str "## Configuration",
     str "Expected Hours per Week: " ++ DEFAULT_CONFIG.expected_hours_per_week.strRepr,
     str "Workdays: " ++ pyJoin (str ", ") DEFAULT_CONFIG.workdays,
     str "Vacation Days per Year: " ++ intStr DEFAULT_CONFIG.vacation_days_per_year,
     str "",
     str "## Summary",
     str "### Overall Summary",
     str "Total hours worked: 0.00h",
     str "Expected hours: 0.00h",
     str "Balance: +0.00h",
     str "",
     str "Status: ✅ On track",
     str "",
     str "### Monthly Summary",
     str "",
     str "## Time Entries",
     str "| Date | Type | Work Times | Break Times | Notes |",
     str "|------|------|------------|-------------|--------|",
     str "<!-- Format: Work Times: 09:00-12:00,13:00-17:00 | Break Times: 12:00-13:00 -->"]

inductive EventKind where
  | created
  | updated
  | synced
deriving DecidableEq, Repr

/-- The payload of the single variant an incoming event carries; `title`,
`file_path` and `content` may each be absent from the JSON object. -/
structure Event where
  kind : EventKind
  title : Option Str
  file_path : Option Str
  content : Option Str
deriving DecidableEq, Repr

/-- `Path(p).parent` as the prefix before the last slash.  Only equality of
paths built this way is observable in the script, so the model compares them
as strings. -/
def dirname (p : Str) : Str := ((p.reverse.dropWhile (fun c => c ≠ '/')).drop 1).reverse

/-- `get_tracker_file`: sibling `_time_tracker.md` of the event's file, with
the home-directory fallback modelled as an opaque constant path. -/
def get_tracker_file (ev : Event) : Str :=
  match ev.file_path with
  | some p => dirname p ++ str "/_time_tracker.md"
  | none => str "~/.local/share/note_cli/notes/_time_tracker.md"

/-- The JSON value `process_event` returns, as a record.  The
`tracker_updated` wall-clock metadata field is omitted (header note); the
`time_tracker: "true"` marker of the creation branch is the boolean flag. -/
structure PResult where
  time_tracker_flag : Bool
  time_entries : Nat
  hour_balance : Str
  content : Str
deriving DecidableEq, Repr

/-- The observable effect of one `process_event` call: what is written to the
tracker file, and what is returned. -/
structure PEffect where
  written : Option Str
  result : Option PResult
deriving DecidableEq, Repr

/-- `process_event`, over the one piece of file-system state it consults
(whether the tracker file exists).  File I/O is assumed to succeed and
`json.loads` succeeds on the events modelled here; a parse exception inside
the body is caught by the outer handler, which returns `None`. -/
def process_event (file_exists : Bool) (ev : Event) : PEffect :=
  let tracker := get_tracker_file ev
  let skipTitle : Bool :=
    match ev.title with
    | some t => t ≠ str "_time_tracker"
    | none => false
  if file_exists && skipTitle then ⟨none, none⟩
  else
    let content0 : Option Str :=
      match ev.file_path with
      | some p => if p = tracker then ev.content else none
      | none => none
    let content : Option Str :=
      match content0 with
      | some c => if c = [] then none else some c
      | none => none
    match content with
    | none =>
      ⟨some default_content, some ⟨true, 0, str "+0.00", default_content⟩⟩
    | some c =>
      if skipTitle then ⟨none, none⟩
      else
        match parse_entries c, parse_config c with
        | .ok entries, .ok cfg =>
          let updated := generate_tracker_content c cfg entries
          let balance := (calculate_balance entries cfg).1
          ⟨none,
           some ⟨false, entries.length, fmtSigned2f balance,
                 if updated ≠ c then updated else c⟩⟩
        | _, _ => ⟨none, none⟩

-- Concrete inputs used by counterexamples and witnesses.

/-- A table row whose Work Times cell has a two-dash segment. -/
def c10Doc : Str :=
  str "## Time Entries\n| Date | Type | Work Times | Break Times | Notes |\n|------|\n| 2024-01-01 | workday | 09:00-12:00-13:00 | - | x |"

/-- An event about the tracker file itself carrying empty content. -/
def c2Event : Event :=
  ⟨.updated, some (str "_time_tracker"), some (str "notes/_time_tracker.md"), some []⟩

/-- Two distinct observed entries sharing a date. -/
def cE1 : TimeEntry := ⟨str "2024-01-01", str "workday", [], [], str "a"⟩

def cE2 : TimeEntry := ⟨str "2024-01-01", str "workday", [], [], str "b"⟩

/-- A document whose entry table already contains two rows with the same
date. -/
def cDupDoc : Str :=
  str "## Time Entries\n| Date | Type | Work Times | Break Times | Notes |\n|------|\n| 2024-01-01 | workday | - | - | x |\n| 2024-01-01 | workday | - | - | y |"

def cDupEntries : List TimeEntry :=
  [⟨str "2024-01-01", str "workday", [], [], str "x"⟩,
   ⟨str "2024-01-01", str "workday", [], [], str "y"⟩]

/-- A document whose config section has a malformed value for a recognized
key. -/
def c3Doc : Str := str "## Configuration\nExpected Hours per Week: abc\n\nrest"

/-- An event delivering `c3Doc` as the tracker's content. -/
def c3Event : Event :=
  ⟨.updated, some (str "_time_tracker"), some (str "notes/_time_tracker.md"), some c3Doc⟩

/-- `Prop`-level date uniqueness of an entry list. -/
def DatesNodup (l : List TimeEntry) : Prop := (l.map (fun e => e.date)).Nodup

instance (l : List TimeEntry) : Decidable (DatesNodup l) := by
  unfold DatesNodup; infer_instance

/-- Reference description of the merge: walk the new entries keeping each one
whose date is not in the `seen` set, growing the set with kept dates. -/
def dedupByDate (seen : List Str) : List TimeEntry → List TimeEntry
  | [] => []
  | n :: t =>
    if seen.any (fun d => d = n.date) then dedupByDate seen t
    else n :: dedupByDate (n.date :: seen) t

/-- The month keys contributing to the balance aggregation: one `YYYY-MM` key
per entry whose date is not the header token and parses as `YYYY-MM-DD`. -/
def parsableMonthKeys (entries : List TimeEntry) : List Str :=
  entries.filterMap
    (fun e => if e.date = str "Date" then none else (parseDate e.date).map monthKeyOf)

/-- First-occurrence deduplication of a string list against a seen set. -/
def dedupStrsSeen (seen : List Str) : List Str → List Str
  | [] => []
  | d :: t =>
    if seen.any (fun x => x = d) then dedupStrsSeen seen t
    else d :: dedupStrsSeen (d :: seen) t

/-- The number of distinct month keys among the parsable-dated entries. -/
def distinctMonthCount (entries : List TimeEntry) : Nat :=
  (dedupStrsSeen [] (parsableMonthKeys entries)).length

/-- Value-level round-half-to-even, used to state that the formatted output
depends only on the value of a `DQ`. -/
def rhe (x : ℚ) : Int :=
  if Int.fract x < 1 / 2 then Int.floor x
  else if 1 / 2 < Int.fract x then Int.floor x + 1
  else if Int.floor x % 2 = 0 then Int.floor x else Int.floor x + 1

def sumDQ (l : List DQ) : DQ := l.foldl DQ.add DQ.zero

/-- The week balance rendered in a weekly summary row. -/
def weekBalOf (stats : List (Str × WeekStat)) (k : Str) : DQ :=
  (alookupD k stats WeekStat.dflt).worked.sub (alookupD k stats WeekStat.dflt).expected

/-- Description of the weekly table from the spec's words: row `i` carries a
cumulative balance equal to the sum of the week balances of rows `0..i` —
accumulated walking from the most recent week backward, since the keys are
iterated in descending order. -/
def weeklyRowsSpec (stats : List (Str × WeekStat)) (ks : List Str) (c0 : DQ) : List Str :=
  (List.range ks.length).map (fun i =>
    weekRow (alookupD (ks.getD i []) stats WeekStat.dflt) (ks.getD i [])
      (c0.add (sumDQ ((ks.take (i + 1)).map (weekBalOf stats)))))

/-- A string unchanged by `strip()`. -/
def stripStable (s : Str) : Prop := pyStrip s = s

/-- Stripping trailing whitespace only (used to reason about `strip()` on
strings whose head is known). -/
def stripRight (s : Str) : Str := (s.reverse.dropWhile isPySpace).reverse

/-- A character position at which `q` can never be a prefix of `p ++ x`,
whatever `x` is: the two strings disagree before either runs out. -/
def misMatch : Str → Str → Bool
  | q0 :: qs, p0 :: ps => if q0 = p0 then misMatch qs ps else true
  | _, _ => false

/-- Invariant of a time block produced by `TimeBlock.parse`: both fields are
stripped and free of the separators that surround them in the document. -/
def BlockParsed (b : TimeBlock) : Prop :=
  (stripStable b.start ∧ '-' ∉ b.start ∧ ',' ∉ b.start ∧ '|' ∉ b.start ∧ '\n' ∉ b.start)
  ∧ (stripStable b.«end» ∧ '-' ∉ b.«end» ∧ ',' ∉ b.«end» ∧ '|' ∉ b.«end» ∧ '\n' ∉ b.«end»)

/-- Invariant of an entry produced by `parse_entries`. -/
def EntryParsed (e : TimeEntry) : Prop :=
  (stripStable e.date ∧ '|' ∉ e.date ∧ '\n' ∉ e.date ∧ e.date ≠ [])
  ∧ (stripStable e.type ∧ '|' ∉ e.type ∧ '\n' ∉ e.type)
  ∧ (∀ b ∈ e.work_times, BlockParsed b)
  ∧ (∀ b ∈ e.break_times, BlockParsed b)
  ∧ (stripStable e.notes ∧ '|' ∉ e.notes ∧ '\n' ∉ e.notes)

/-- Re-parsing a rendered cell collapses the single blank block (which renders
as `"-"`, the empty marker) to no blocks; everything else survives. -/
def normBlocks (bs : List TimeBlock) : List TimeBlock :=
  if bs = [⟨[], []⟩] then [] else bs

def normalizeEntry (e : TimeEntry) : TimeEntry :=
  { e with work_times := normBlocks e.work_times, break_times := normBlocks e.break_times }

/-- Canonical mantissa/exponent representation, as produced by `floatParse`. -/
def PyFloat.canonical (f : PyFloat) : Prop := f.e = 0 ∨ ¬ ((10 : Int) ∣ f.m)

/-- Invariant of one workday name in a parsed config. -/
def wdOK (d : Str) : Prop := stripStable d ∧ ',' ∉ d ∧ '\n' ∉ d

/-- Shape of the workdays list of any config `parse_config` can return. -/
def ConfigShape (c : Config) : Prop := c.workdays ≠ [] ∧ ∀ d ∈ c.workdays, wdOK d

/-- A document whose configuration section carries a well-formed float
`expected_hours_per_week` line. -/
def c1X : Str := str "## Configuration\nExpected Hours per Week: 40.0\n\nx"

/-- The pipeline's output on `c1X`. -/
def c1D : Str :=
  match pipelineOnce c1X with
  | .ok d => d
  | .error _ => []

/-- The pipeline's output on the empty document (the default configuration,
whose `expected_hours_per_week` is the int `40`). -/
def c1D0 : Str :=
  match pipelineOnce (str "") with
  | .ok d => d
  | .error _ => []

/- Binary64 model of the `total_expected` accumulation.  The exact-decimal
`DQ` idealisation is not faithful for this running sum (CPython's `+=` on
floats rounds), so the accumulation is modelled with genuine IEEE-754
binary64 semantics: a value is `m · 2^k` with a significand of at most 53
bits, every operation rounds to nearest with ties to even, and the exponent
range is unbounded (no overflow or underflow, which these documents cannot
reach). -/

/-- Fuel-based bit length of a natural number (`fuel ≥ n` suffices; the
recursion halves `n` each step). -/
def bitlen : Nat → Nat → Nat
  | 0, _ => 0
  | f + 1, n => if n = 0 then 0 else bitlen f (n / 2) + 1

/-- A binary64 value `m · 2^k`.  Normal form after rounding: `|m| < 2^53`. -/
structure Fp where
  m : Int
  k : Int
deriving DecidableEq, Repr

def fpZero : Fp := ⟨0, 0⟩

/-- The exact rational value of a binary float. -/
def fpVal (x : Fp) : ℚ := (x.m : ℚ) * (2 : ℚ) ^ x.k

/-- Round the exact dyadic `M · 2^K` to 53 significant bits, to nearest with
ties to even (`halfEvenDiv` is that rounding); a carry out of the rounding
(`|m| = 2^53`) shifts the exponent once more. -/
def fpRound (M K : Int) : Fp :=
  if bitlen M.natAbs M.natAbs ≤ 53 then ⟨M, K⟩
  else
    if (halfEvenDiv M ((2 : Int) ^ (bitlen M.natAbs M.natAbs - 53))).natAbs = 2 ^ 53 then
      ⟨halfEvenDiv M ((2 : Int) ^ (bitlen M.natAbs M.natAbs - 53)) / 2,
       K + (bitlen M.natAbs M.natAbs - 53) + 1⟩
    else
      ⟨halfEvenDiv M ((2 : Int) ^ (bitlen M.natAbs M.natAbs - 53)),
       K + (bitlen M.natAbs M.natAbs - 53)⟩

/-- IEEE-754 addition: align to the smaller exponent, add exactly, round. -/
def fpAdd (x y : Fp) : Fp :=
  if x.k ≤ y.k then fpRound (x.m + y.m * (2 : Int) ^ (y.k - x.k).toNat) x.k
  else fpRound (y.m + x.m * (2 : Int) ^ (x.k - y.k).toNat) y.k

/-- IEEE-754 multiplication by `4` (`expected_per_week * 4`): exact binary
scaling followed by the (here trivial) rounding. -/
def fpMul4 (x : Fp) : Fp := fpRound x.m (x.k + 2)

/-- Scale the fraction `n / d` by `2^t` for a possibly negative `t`. -/
def fpScale (n d : Nat) (t : Int) : Nat × Nat :=
  if 0 ≤ t then (n * 2 ^ t.toNat, d) else (n, d * 2 ^ (-t).toNat)

/-- Search for the scaling `t` that puts `⌊n·2^t/d⌋` into `[2^52, 2^53)`,
then round `n·2^t/d` to the nearest integer significand, ties to even.  The
initial `t` below is off by at most a few units, so fuel `8` always
suffices; the fuel-exhaustion branch is unreachable. -/
def fpOfDecGo (n d : Nat) : Nat → Int → Fp
  | 0, _ => fpZero
  | f + 1, t =>
    let p := fpScale n d t
    let q := p.1 / p.2
    if q < 2 ^ 52 then fpOfDecGo n d f (t + 1)
    else if 2 ^ 53 ≤ q then fpOfDecGo n d f (t - 1)
    else
      let s := halfEvenDiv (p.1 : Int) (p.2 : Int)
      if s.natAbs = 2 ^ 53 then ⟨s / 2, -t + 1⟩ else ⟨s, -t⟩

/-- The binary64 value nearest to the decimal `m / 10^e`: what CPython's
`float()` produces for the literal the config parser read. -/
def fpOfDec (m : Int) (e : Nat) : Fp :=
  if m = 0 then fpZero
  else
    let n := m.natAbs
    let d := 10 ^ e
    let u := fpOfDecGo n d 8 (52 + (bitlen d d : Int) - (bitlen n n : Int))
    if m < 0 then ⟨-u.m, u.k⟩ else u

/-- The binary64 value of a parsed config number: ints convert exactly (all
reachable ones are below `2^53`), decimals to the nearest double. -/
def fpOfPyNum : PyNum → Fp
  | .int n => fpRound n 0
  | .float f => fpOfDec f.m f.e

/-- Projection of one `calculate_balance` iteration onto the pair (month keys
seen, binary64 `total_expected`): the source skips the header row and
unparsable dates, and on a first-seen month key executes
`total_expected += expected_per_week * 4`, an IEEE-754 addition of the
already-computed product `w4`. -/
def fpExpStep (w4 : Fp) (st : List Str × Fp) (e : TimeEntry) : List Str × Fp :=
  if e.date = str "Date" then st
  else
    match parseDate e.date with
    | none => st
    | some dt =>
      let mk := monthKeyOf dt
      if st.1.any (fun x => x = mk) then st
      else (st.1 ++ [mk], fpAdd st.2 w4)

/-- The binary64 `total_expected` (with the month keys that drove it) after
the `calculate_balance` loop. -/
def fpTotalExpected (w4 : Fp) (entries : List TimeEntry) : List Str × Fp :=
  entries.foldl (fpExpStep w4) ([], fpZero)

/-- `n`-fold IEEE addition of `w4` starting from `x`. -/
def fpIterFrom (w4 x : Fp) : Nat → Fp
  | 0 => x
  | n + 1 => fpAdd (fpIterFrom w4 x n) w4

/-- Ten entries on parsable dates in ten distinct months of 2024. -/
def c6Ents : List TimeEntry :=
  (List.range 10).map
    (fun i => ⟨str "2024-" ++ pad2 (i + 1) ++ str "-01", str "workday", [], [], []⟩)

-- ===================================================================
-- Theorems
-- ===================================================================

example : parseDate (str "2024-03-04") = some ⟨2024, 3, 4⟩ := by decide
example : parseDate (str "2024-02-30") = none := by decide
example : parseDate (str "2024-1-5") = some ⟨2024, 1, 5⟩ := by decide
example : weekdayOf ⟨2024, 3, 4⟩ = 0 := by decide
example : weekKeyOf ⟨2024, 3, 4⟩ = str "2024-W10" := by decide
example : monthKeyOf ⟨2024, 1, 5⟩ = str "2024-01" := by decide
example : dateStr (subDays (weekdayOf ⟨2024, 3, 7⟩) ⟨2024, 3, 7⟩) = str "2024-03-04" := by decide
example :
    calculate_day_hours [⟨str "09:00", str "17:00"⟩] [⟨str "12:00", str "13:00"⟩] = ⟨700, 2⟩ := by
  decide
example :
    (calculate_balance
      [⟨str "2024-03-04", str "workday", [⟨str "09:00", str "17:00"⟩],
        [⟨str "12:00", str "13:00"⟩], str "-"⟩] DEFAULT_CONFIG).1 = ⟨-15300, 2⟩ := by decide
example :
    fmt2f (calculate_balance
      [⟨str "2024-03-04", str "workday", [⟨str "09:00", str "17:00"⟩],
        [⟨str "12:00", str "13:00"⟩], str "-"⟩] DEFAULT_CONFIG).1 = str "-153.00" := by decide

example : parse_config (str "no section here") = .ok DEFAULT_CONFIG := by decide
example : parse_config (str "## Configuration\nExpected Hours per Week: 37.5\n\nrest") =
    .ok { DEFAULT_CONFIG with expected_hours_per_week := .float ⟨375, 1⟩ } := by decide
example : parse_config (str "## Configuration\nExpected Hours per Week: abc\n\nrest") =
    .error () := by decide
example : pyFloatStr ⟨40, 0⟩ = str "40.0" := by decide
example : floatParse (str "40.0") = some ⟨40, 0⟩ := by decide
example : floatParse (str "0.50") = some ⟨5, 1⟩ := by decide
example : intParse (str " 30 ") = some 30 := by decide

example : parse_time (str "09:00") = some 540 := by decide
example : parse_time (str "9:5") = some 545 := by decide
example : parse_time (str "24:00") = none := by decide
example : parse_time (str " 12:30 ") = some 750 := by decide
example : parse_time (str "") = none := by decide
example : TimeBlock.parse (str "09:00-12:00,13:00-17:00") =
    .ok [⟨str "09:00", str "12:00"⟩, ⟨str "13:00", str "17:00"⟩] := by decide
example : TimeBlock.parse (str "-") = .ok [] := by decide
example : TimeBlock.parse (str "09:00-12:00-13:00") = .error () := by decide

/-- C8: for every `TimeBlock` whose boundaries both parse as `HH:MM`,
`duration_minutes()` is exactly the minute difference `end − start` (negative
when the end precedes the start, with no day wraparound); when either boundary
fails to parse, it is `0.0`. -/
theorem c8_duration_computation (b : TimeBlock) :
    (∀ s e, parse_time b.start = some s → parse_time b.«end» = some e →
      b.duration_minutes = (e : Int) - (s : Int))
    ∧ ((parse_time b.start = none ∨ parse_time b.«end» = none) →
      b.duration_minutes = 0) := by
  constructor
  · intro s e hs he
    simp [TimeBlock.duration_minutes, hs, he]
  · intro h
    rcases h with h | h <;>
      · cases hs : parse_time b.start <;> cases he : parse_time b.«end» <;>
          simp_all [TimeBlock.duration_minutes]

/-- Witness for C8 at the block `09:00`–`12:00`: both boundaries parse and the
duration is 180 minutes. -/
theorem c8_witness :
    parse_time (str "09:00") = some 540 ∧ parse_time (str "12:00") = some 720 ∧
      TimeBlock.duration_minutes ⟨str "09:00", str "12:00"⟩ = 180 :=
  ⟨by decide, by decide, by
    have h := (c8_duration_computation ⟨str "09:00", str "12:00"⟩).1 540 720
      (by decide) (by decide)
    simpa using h⟩

/-- C10: `TimeBlock.parse` raises on a comma segment with more than one dash
(the two-variable unpacking of `split('-')` fails), and `parse_entries`
propagates the exception when such a cell occurs in a table row. -/
theorem c10_parse_not_total :
    TimeBlock.parse (str "09:00-12:00-13:00") = .error ()
    ∧ parse_entries c10Doc = .error () := by
  decide

/-- C2 (divergence witness): with the tracker file existing and an event about
the tracker itself carrying empty content, `process_event` is not a no-op: it
writes the default template over the stored ledger and returns a result. -/
theorem c2_overwrites_on_missing_content :
    process_event true c2Event =
      ⟨some default_content, some ⟨true, 0, str "+0.00", default_content⟩⟩ := by
  decide

/-- C9: the rendering of `generate_tracker_content` depends on the original
document only through the entries parsed from it — two original texts whose
parses agree produce byte-identical output for any config and new entries. -/
theorem c9_render_pure (o1 o2 : Str) (cfg : Config) (entries E : List TimeEntry)
    (h1 : existingOf o1 = .ok E) (h2 : existingOf o2 = .ok E) :
    generate_tracker_content o1 cfg entries = generate_tracker_content o2 cfg entries := by
  simp [generate_tracker_content, h1, h2]

/-- Witness for C9: the empty document and a one-line document both parse to
no entries and render identically. -/
theorem c9_witness :
    existingOf [] = .ok [] ∧ existingOf (str "x") = .ok []
    ∧ generate_tracker_content [] DEFAULT_CONFIG [] =
        generate_tracker_content (str "x") DEFAULT_CONFIG [] :=
  ⟨by decide, by decide,
   c9_render_pure [] (str "x") DEFAULT_CONFIG [] [] (by decide) (by decide)⟩

theorem any_map_dates (l : List TimeEntry) (d : Str) :
    (l.map (fun e => e.date)).any (fun x => x = d) = l.any (fun e => e.date = d) := by
  induction l with
  | nil => rfl
  | cons a l ih => simp [ih]

theorem dedupByDate_congr (t : List TimeEntry) :
    ∀ s1 s2 : List Str, (∀ d, s1.any (fun x => x = d) = s2.any (fun x => x = d)) →
      dedupByDate s1 t = dedupByDate s2 t := by
  induction t with
  | nil => intro s1 s2 _; rfl
  | cons n t ih =>
    intro s1 s2 h
    simp only [dedupByDate, h n.date]
    split
    · exact ih s1 s2 h
    · rw [ih (n.date :: s1) (n.date :: s2) (fun d => by simp [h d])]

/-- The merge loop appends exactly the new entries whose date has not been
seen, where the seen set starts from the existing entries' dates and grows
with each appended entry (a consequence of the `all_entries`/`existing_entries`
aliasing in the source). -/
theorem mergeFold_eq (news : List TimeEntry) :
    ∀ acc, mergeFold acc news = acc ++ dedupByDate (acc.map (fun e => e.date)) news := by
  induction news with
  | nil => intro acc; simp [mergeFold, dedupByDate]
  | cons n t ih =>
    intro acc
    have hseen : (acc.map (fun e => e.date)).any (fun d => d = n.date) =
        acc.any (fun e => e.date = n.date) := any_map_dates acc n.date
    have hstep : mergeFold acc (n :: t) =
        mergeFold (if acc.any (fun e => e.date = n.date) then acc else acc ++ [n]) t := by
      simp [mergeFold]
    have hdd : dedupByDate (acc.map (fun e => e.date)) (n :: t) =
        if acc.any (fun e => e.date = n.date) then
          dedupByDate (acc.map (fun e => e.date)) t
        else n :: dedupByDate (n.date :: acc.map (fun e => e.date)) t := by
      simp only [dedupByDate, hseen]
    cases h : acc.any (fun e => e.date = n.date) with
    | true =>
      rw [hstep, if_pos h, hdd, if_pos h]
      exact ih acc
    | false =>
      rw [hstep, if_neg (by simp [h]), hdd, if_neg (by simp [h])]
      rw [ih (acc ++ [n])]
      rw [show dedupByDate ((acc ++ [n]).map (fun e => e.date)) t =
          dedupByDate (n.date :: acc.map (fun e => e.date)) t from
        dedupByDate_congr t _ _
          (fun d => by simp [Bool.or_comm])]
      simp

theorem dedupByDate_nodup_and_fresh (t : List TimeEntry) :
    ∀ seen, ((dedupByDate seen t).map (fun e => e.date)).Nodup
      ∧ ∀ e ∈ dedupByDate seen t, e.date ∉ seen := by
  induction t with
  | nil => intro seen; exact ⟨List.nodup_nil, by intro e he; cases he⟩
  | cons n t ih =>
    intro seen
    simp only [dedupByDate]
    cases h : seen.any (fun d => d = n.date) with
    | true =>
      rw [if_pos rfl]
      exact ih seen
    | false =>
      rw [if_neg (by simp)]
      have hn : n.date ∉ seen := by
        intro hmem
        have : seen.any (fun d => d = n.date) = true :=
          List.any_eq_true.mpr ⟨n.date, hmem, by simp⟩
        rw [h] at this
        cases this
      obtain ⟨ih1, ih2⟩ := ih (n.date :: seen)
      refine ⟨List.nodup_cons.mpr ⟨?_, ih1⟩, ?_⟩
      · intro hmem
        obtain ⟨e, he, hedate⟩ := List.mem_map.mp hmem
        exact ih2 e he (by rw [hedate]; exact List.mem_cons_self _ _)
      · intro e he
        rcases List.mem_cons.mp he with rfl | he'
        · exact hn
        · exact fun hmem => ih2 e he' (List.mem_cons_of_mem _ hmem)

/-- C5 (counterexample): with no existing entries and two new entries sharing
a date, the second is not appended even though its date does not occur among
the existing entries — the merged list is `[cE1]`, not `[cE1, cE2]` as the
claim's "exactly when" predicts. -/
theorem c5_counterexample :
    merged_entries [] [cE1, cE2] = .ok [cE1] ∧ [cE1] ≠ [cE1, cE2] := by
  decide

/-- C5 (amended): existing entries are kept unchanged (they form an unmodified
prefix and are never overwritten), and a new entry is appended exactly when
its date occurs neither among the existing entries nor among earlier appended
new entries — i.e. the appended suffix is the first-occurrence-per-date
filtering of the new entries against the existing dates. -/
theorem c5_merge_characterization (existing news : List TimeEntry) :
    mergeFold existing news =
      existing ++ dedupByDate (existing.map (fun e => e.date)) news :=
  mergeFold_eq news existing

/-- C4 (counterexample): a document whose table already contains two rows with
the same date yields a merged collection with a duplicated date. -/
theorem c4_counterexample :
    merged_entries cDupDoc [] = .ok cDupEntries ∧ ¬ DatesNodup cDupEntries := by
  decide

/-- C4 (amended): whenever the entries parsed from the existing document have
pairwise-distinct dates, the merged collection produced inside
`generate_tracker_content` again has at most one entry per date, for every
list of new entries. -/
theorem c4_date_uniqueness (existing news : List TimeEntry)
    (h : DatesNodup existing) : DatesNodup (mergeFold existing news) := by
  rw [mergeFold_eq]
  unfold DatesNodup at h ⊢
  rw [List.map_append]
  refine List.Nodup.append h (dedupByDate_nodup_and_fresh news _).1 ?_
  intro d hd1 hd2
  obtain ⟨e, he, rfl⟩ := List.mem_map.mp hd2
  exact (dedupByDate_nodup_and_fresh news (existing.map (fun e => e.date))).2 e he hd1

/-- Witness for C4 (amended) on concrete input. -/
theorem c4_witness :
    DatesNodup ([] : List TimeEntry) ∧ DatesNodup (mergeFold [] [cE1]) :=
  ⟨by decide, c4_date_uniqueness [] [cE1] (by decide)⟩

theorem aupdate_keys {β : Type} (k : Str) (f : β → β) (l : List (Str × β)) :
    (aupdate k f l).map (fun p => p.1) = l.map (fun p => p.1) := by
  induction l with
  | nil => rfl
  | cons p t ih =>
    cases p with
    | mk k' v =>
      simp only [aupdate]
      split <;> simp [ih]

theorem dedupStrsSeen_congr (t : List Str) :
    ∀ s1 s2 : List Str, (∀ d, s1.any (fun x => x = d) = s2.any (fun x => x = d)) →
      dedupStrsSeen s1 t = dedupStrsSeen s2 t := by
  induction t with
  | nil => intro s1 s2 _; rfl
  | cons d t ih =>
    intro s1 s2 h
    simp only [dedupStrsSeen, h d]
    split
    · exact ih s1 s2 h
    · rw [ih (d :: s1) (d :: s2) (fun x => by simp [h x])]

theorem dq_shift (a : Int) (e M : Nat) (h : e ≤ M) :
    ((a * (10 : Int) ^ (M - e) : Int) : ℚ) / (10 : ℚ) ^ M = (a : ℚ) / (10 : ℚ) ^ e := by
  have hM : (10 : ℚ) ^ M = (10 : ℚ) ^ (M - e) * (10 : ℚ) ^ e := by
    rw [← pow_add]
    congr 1
    omega
  push_cast
  rw [hM, mul_comm (a : ℚ) _, mul_div_mul_left _ _ (pow_ne_zero _ (by norm_num))]

theorem DQ.add_q (x y : DQ) : (x.add y).q = x.q + y.q := by
  unfold DQ.add DQ.q
  simp only
  rw [Int.cast_add, add_div, dq_shift x.m x.e _ (le_max_left _ _),
    dq_shift y.m y.e _ (le_max_right _ _)]

theorem DQ.sub_q (x y : DQ) : (x.sub y).q = x.q - y.q := by
  unfold DQ.sub DQ.q
  simp only
  rw [Int.cast_sub, sub_div, dq_shift x.m x.e _ (le_max_left _ _),
    dq_shift y.m y.e _ (le_max_right _ _)]

theorem DQ.mulI_q (x : DQ) (k : Int) : (x.mulI k).q = x.q * k := by
  unfold DQ.mulI DQ.q
  push_cast
  ring

theorem DQ.zero_q : DQ.zero.q = 0 := by simp [DQ.zero, DQ.q]

/-- How one `calculate_balance` iteration changes the monthly key list and the
running `total_expected`: a fresh month key of a parsable-dated entry appends
one key and adds `expected × 4`; everything else leaves both untouched. -/
theorem balStep_month_char (E : DQ) (st : BalState) (e : TimeEntry) :
    (balStep E st e).monthly_stats.map (fun p => p.1) =
      st.monthly_stats.map (fun p => p.1) ++
        (match (if e.date = str "Date" then none else parseDate e.date) with
         | none => []
         | some dt =>
           if amem (monthKeyOf dt) st.monthly_stats then [] else [monthKeyOf dt])
    ∧ (balStep E st e).total_expected =
        (match (if e.date = str "Date" then none else parseDate e.date) with
         | none => st.total_expected
         | some dt =>
           if amem (monthKeyOf dt) st.monthly_stats then st.total_expected
           else st.total_expected.add (E.mulI 4)) := by
  by_cases hd : e.date = str "Date"
  · simp [balStep, hd]
  · cases hp : parseDate e.date with
    | none => simp [balStep, hd, hp]
    | some dt =>
      simp only [balStep, hd, if_false, hp, if_neg hd]
      by_cases hm : amem (monthKeyOf dt) st.monthly_stats
      · simp only [hm, if_pos, if_true]
        split <;> split_ifs <;> simp [aupdate_keys]
      · simp only [hm, if_false, Bool.false_eq_true]
        split <;> split_ifs <;> simp [aupdate_keys]

theorem amem_eq_keys_any {β : Type} (k : Str) (l : List (Str × β)) :
    amem k l = (l.map (fun p => p.1)).any (fun x => x = k) := by
  induction l with
  | nil => rfl
  | cons p t ih =>
    simp only [amem, List.map_cons, List.any_cons] at ih ⊢
    rw [ih]

theorem PyNum.dq_q (n : PyNum) : n.dq.q = n.q := by
  cases n <;> simp [PyNum.dq, PyNum.q, DQ.q, PyFloat.q]

theorem balFold_month_aux (E : DQ) (entries : List TimeEntry) :
    ∀ st : BalState,
      (entries.foldl (balStep E) st).monthly_stats.map (fun p => p.1) =
        st.monthly_stats.map (fun p => p.1)
          ++ dedupStrsSeen (st.monthly_stats.map (fun p => p.1)) (parsableMonthKeys entries)
      ∧ ((entries.foldl (balStep E) st).total_expected).q =
          st.total_expected.q
            + E.q * 4 *
              (dedupStrsSeen (st.monthly_stats.map (fun p => p.1))
                (parsableMonthKeys entries)).length := by
  induction entries with
  | nil => intro st; simp [parsableMonthKeys, dedupStrsSeen]
  | cons e t ih =>
    intro st
    obtain ⟨hk, hx⟩ := balStep_month_char E st e
    have hfold : (e :: t).foldl (balStep E) st = t.foldl (balStep E) (balStep E st e) := by
      simp
    by_cases hd : e.date = str "Date"
    · have hpmk : parsableMonthKeys (e :: t) = parsableMonthKeys t := by
        simp [parsableMonthKeys, hd]
      have hk' : (balStep E st e).monthly_stats.map (fun p => p.1) =
          st.monthly_stats.map (fun p => p.1) := by
        rw [hk, if_pos hd]; simp
      have hx' : (balStep E st e).total_expected = st.total_expected := by
        rw [hx, if_pos hd]
      rw [hfold, hpmk]
      obtain ⟨h1, h2⟩ := ih (balStep E st e)
      rw [h1, h2, hk', hx']
      simp
    · cases hp : parseDate e.date with
      | none =>
        have hpmk : parsableMonthKeys (e :: t) = parsableMonthKeys t := by
          simp [parsableMonthKeys, hd, hp]
        have hk' : (balStep E st e).monthly_stats.map (fun p => p.1) =
            st.monthly_stats.map (fun p => p.1) := by
          rw [hk, if_neg hd, hp]; simp
        have hx' : (balStep E st e).total_expected = st.total_expected := by
          rw [hx, if_neg hd, hp]
        rw [hfold, hpmk]
        obtain ⟨h1, h2⟩ := ih (balStep E st e)
        rw [h1, h2, hk', hx']
        simp
      | some dt =>
        have hpmk : parsableMonthKeys (e :: t) = monthKeyOf dt :: parsableMonthKeys t := by
          simp [parsableMonthKeys, hd, hp]
        have hk' : (balStep E st e).monthly_stats.map (fun p => p.1) =
            st.monthly_stats.map (fun p => p.1) ++
              (if amem (monthKeyOf dt) st.monthly_stats then [] else [monthKeyOf dt]) := by
          rw [hk, if_neg hd, hp]
        have hx' : (balStep E st e).total_expected =
            (if amem (monthKeyOf dt) st.monthly_stats then st.total_expected
             else st.total_expected.add (E.mulI 4)) := by
          rw [hx, if_neg hd, hp]
        rw [hfold, hpmk]
        obtain ⟨h1, h2⟩ := ih (balStep E st e)
        by_cases hm : amem (monthKeyOf dt) st.monthly_stats = true
        · rw [if_pos hm] at hk' hx'
          simp only [List.append_nil] at hk'
          have hseen : (st.monthly_stats.map (fun p => p.1)).any
              (fun x => x = monthKeyOf dt) = true := by
            rw [← amem_eq_keys_any]; exact hm
          have hdd : dedupStrsSeen (st.monthly_stats.map (fun p => p.1))
              (monthKeyOf dt :: parsableMonthKeys t) =
              dedupStrsSeen (st.monthly_stats.map (fun p => p.1)) (parsableMonthKeys t) := by
            simp only [dedupStrsSeen, hseen, if_pos]
          rw [hdd, h1, h2, hk', hx']
          simp
        · rw [if_neg hm] at hk' hx'
          have hseen : (st.monthly_stats.map (fun p => p.1)).any
              (fun x => x = monthKeyOf dt) = false := by
            rw [← amem_eq_keys_any]
            exact Bool.not_eq_true _ ▸ (Bool.eq_false_iff.mpr hm)
          have hdd : dedupStrsSeen (st.monthly_stats.map (fun p => p.1))
              (monthKeyOf dt :: parsableMonthKeys t) =
              monthKeyOf dt ::
                dedupStrsSeen (monthKeyOf dt :: st.monthly_stats.map (fun p => p.1))
                  (parsableMonthKeys t) := by
            simp only [dedupStrsSeen, hseen]
            rw [if_neg (by simp)]
          have hcongr :
              dedupStrsSeen ((balStep E st e).monthly_stats.map (fun p => p.1))
                (parsableMonthKeys t) =
              dedupStrsSeen (monthKeyOf dt :: st.monthly_stats.map (fun p => p.1))
                (parsableMonthKeys t) := by
            rw [hk']
            exact dedupStrsSeen_congr _ _ _ (fun x => by simp [Bool.or_comm])
          rw [hdd, h1, h2, hcongr, hk', hx', DQ.add_q, DQ.mulI_q]
          constructor
          · simp
          · simp only [List.length_cons]
            push_cast
            ring

theorem bitlen_le_iff : ∀ fuel a k : Nat, a ≤ fuel → (bitlen fuel a ≤ k ↔ a < 2 ^ k) := by
  intro fuel
  induction fuel with
  | zero =>
    intro a k ha
    have h0 : a = 0 := Nat.le_zero.mp ha
    subst h0
    simp [bitlen]
  | succ f ih =>
    intro a k ha
    by_cases h0 : a = 0
    · subst h0
      simp [bitlen]
    · have hb : bitlen (f + 1) a = bitlen f (a / 2) + 1 := by
        simp [bitlen, h0]
      rw [hb]
      cases k with
      | zero =>
        simp only [pow_zero]
        constructor
        · intro h; omega
        · intro h; omega
      | succ kk =>
        have hh : a / 2 ≤ f := by omega
        have hiff := ih (a / 2) kk hh
        rw [pow_succ]
        constructor
        · intro h
          have h1 : bitlen f (a / 2) ≤ kk := by omega
          have h2 : a / 2 < 2 ^ kk := hiff.mp h1
          omega
        · intro h
          have h2 : a / 2 < 2 ^ kk := by omega
          have h1 : bitlen f (a / 2) ≤ kk := hiff.mpr h2
          omega

/-- A dyadic with at most 53 significant bits is already a binary64 value:
the rounding is the identity. -/
theorem fpRound_small (M K : Int) (h : M.natAbs < 2 ^ 53) : fpRound M K = ⟨M, K⟩ := by
  unfold fpRound
  rw [if_pos ((bitlen_le_iff M.natAbs M.natAbs 53 le_rfl).mpr h)]

theorem fpIterFrom_shift (w4 x : Fp) : ∀ n, fpIterFrom w4 (fpAdd x w4) n = fpIterFrom w4 x (n + 1) := by
  intro n
  induction n with
  | zero => rfl
  | succ j ih =>
    show fpAdd (fpIterFrom w4 (fpAdd x w4) j) w4 = fpAdd (fpIterFrom w4 x (j + 1)) w4
    rw [ih]

/-- For an integer weekly unit below the 53-bit bound, every IEEE addition in
the accumulation is exact. -/
theorem fpIterFrom_int (N : Int) (n : Nat) (hN : 0 ≤ N)
    (hb : N * 4 * (n : Int) < 2 ^ 53) :
    ∀ i, i ≤ n → fpIterFrom ⟨N, 2⟩ fpZero i = ⟨4 * N * (i : Int), 0⟩ := by
  intro i
  induction i with
  | zero =>
    intro _
    show fpZero = _
    simp [fpZero]
  | succ j ih =>
    intro hj
    have hrec := ih (Nat.le_of_succ_le hj)
    show fpAdd (fpIterFrom ⟨N, 2⟩ fpZero j) ⟨N, 2⟩ = _
    rw [hrec]
    unfold fpAdd
    dsimp only
    rw [if_pos (by norm_num : (0 : Int) ≤ 2)]
    rw [show ((2 : Int) - 0).toNat = 2 from rfl]
    rw [show 4 * N * (j : Int) + N * (2 : Int) ^ 2 = 4 * N * ((j : Int) + 1) from by ring]
    rw [show (((j + 1 : Nat)) : Int) = (j : Int) + 1 from by push_cast; ring]
    apply fpRound_small
    have hle : ((j : Int) + 1) ≤ (n : Int) := by exact_mod_cast hj
    have h0 : (0 : Int) ≤ 4 * N := by linarith
    have hA : 4 * N * ((j : Int) + 1) ≤ N * 4 * (n : Int) := by
      calc 4 * N * ((j : Int) + 1) ≤ 4 * N * (n : Int) := mul_le_mul_of_nonneg_left hle h0
        _ = N * 4 * (n : Int) := by ring
    have hnn : (0 : Int) ≤ 4 * N * ((j : Int) + 1) := mul_nonneg h0 (by positivity)
    have hb' := hb
    rw [show (2 : Int) ^ 53 = 9007199254740992 from by norm_num] at hb'
    rw [show (2 : Nat) ^ 53 = 9007199254740992 from by norm_num]
    omega

/-- The `calculate_balance` loop, projected onto the month keys and the
binary64 `total_expected`: the keys grow by first-occurrence deduplication of
the parsable month keys, and the total is the matching number of IEEE
additions of the weekly unit. -/
theorem fpExp_aux (w4 : Fp) (entries : List TimeEntry) :
    ∀ st : List Str × Fp,
      (entries.foldl (fpExpStep w4) st).1
          = st.1 ++ dedupStrsSeen st.1 (parsableMonthKeys entries)
      ∧ (entries.foldl (fpExpStep w4) st).2
          = fpIterFrom w4 st.2 (dedupStrsSeen st.1 (parsableMonthKeys entries)).length := by
  induction entries with
  | nil =>
    intro st
    simp [parsableMonthKeys, dedupStrsSeen, fpIterFrom]
  | cons e t ih =>
    intro st
    have hfold : (e :: t).foldl (fpExpStep w4) st
        = t.foldl (fpExpStep w4) (fpExpStep w4 st e) := by
      simp
    by_cases hd : e.date = str "Date"
    · have hpmk : parsableMonthKeys (e :: t) = parsableMonthKeys t := by
        simp [parsableMonthKeys, hd]
      have hstep : fpExpStep w4 st e = st := by simp [fpExpStep, hd]
      rw [hfold, hstep, hpmk]
      exact ih st
    · cases hp : parseDate e.date with
      | none =>
        have hpmk : parsableMonthKeys (e :: t) = parsableMonthKeys t := by
          simp [parsableMonthKeys, hd, hp]
        have hstep : fpExpStep w4 st e = st := by simp [fpExpStep, hd, hp]
        rw [hfold, hstep, hpmk]
        exact ih st
      | some dt =>
        have hpmk : parsableMonthKeys (e :: t) = monthKeyOf dt :: parsableMonthKeys t := by
          simp [parsableMonthKeys, hd, hp]
        rw [hfold, hpmk]
        by_cases hm : st.1.any (fun x => x = monthKeyOf dt) = true
        · have hstep : fpExpStep w4 st e = st := by
            simp [fpExpStep, hd, hp, hm]
          have hdd : dedupStrsSeen st.1 (monthKeyOf dt :: parsableMonthKeys t)
              = dedupStrsSeen st.1 (parsableMonthKeys t) := by
            simp only [dedupStrsSeen, hm, if_pos]
          rw [hstep, hdd]
          exact ih st
        · have hmf : st.1.any (fun x => x = monthKeyOf dt) = false :=
            Bool.eq_false_iff.mpr hm
          have hstep : fpExpStep w4 st e = (st.1 ++ [monthKeyOf dt], fpAdd st.2 w4) := by
            simp [fpExpStep, hd, hp, hmf]
          have hdd : dedupStrsSeen st.1 (monthKeyOf dt :: parsableMonthKeys t)
              = monthKeyOf dt ::
                  dedupStrsSeen (monthKeyOf dt :: st.1) (parsableMonthKeys t) := by
            simp only [dedupStrsSeen, hmf]
            rw [if_neg (by simp)]
          obtain ⟨h1, h2⟩ := ih (st.1 ++ [monthKeyOf dt], fpAdd st.2 w4)
          have hcongr : dedupStrsSeen (st.1 ++ [monthKeyOf dt]) (parsableMonthKeys t)
              = dedupStrsSeen (monthKeyOf dt :: st.1) (parsableMonthKeys t) :=
            dedupStrsSeen_congr _ _ _ (fun d => by simp [Bool.or_comm])
          rw [hstep, hdd]
          constructor
          · rw [h1]
            dsimp only
            rw [hcongr]
            simp
          · rw [h2]
            dsimp only
            rw [hcongr]
            rw [List.length_cons]
            exact fpIterFrom_shift w4 st.2 _

/-- C6, counterexample: under genuine binary64 arithmetic the claimed exact
equality fails.  With `expected_hours_per_week = 0.025` (a reachable config
value) and ten entries in ten distinct months, the accumulated
`total_expected` is the double `(2^53 − 1)·2^−53 = 0.9999999999999999`, not
the exact `0.025 × 4 × 10 = 1`. -/
theorem c6_counterexample :
    (fpTotalExpected (fpMul4 (fpOfPyNum (PyNum.float ⟨25, 3⟩))) c6Ents).2
        = ⟨9007199254740991, -53⟩
    ∧ distinctMonthCount c6Ents = 10
    ∧ fpVal (fpTotalExpected (fpMul4 (fpOfPyNum (PyNum.float ⟨25, 3⟩))) c6Ents).2
        ≠ (PyNum.float ⟨25, 3⟩).q * 4 * (distinctMonthCount c6Ents : ℚ) := by
  refine ⟨by decide, by decide, ?_⟩
  rw [show (fpTotalExpected (fpMul4 (fpOfPyNum (PyNum.float ⟨25, 3⟩))) c6Ents).2
      = ⟨9007199254740991, -53⟩ from by decide]
  rw [show distinctMonthCount c6Ents = 10 from by decide]
  simp only [fpVal, PyNum.q, PyFloat.q]
  rw [zpow_neg]
  rw [show ((53 : ℤ)) = ((53 : ℕ) : ℤ) from rfl, zpow_natCast]
  norm_num

/-- C6 (corrected): in `calculate_balance`, `total_expected` is the IEEE-754
binary64 accumulation of one addition of `expected_hours_per_week * 4` per
distinct `YYYY-MM` month key among the entries with parsable `YYYY-MM-DD`
dates (the header row skipped), independent of how many entries fall in each
month — the month keys driving it are exactly the keys of `monthly_stats`.
The spec's exact equality `total_expected = expected_hours_per_week × 4 ×
(number of distinct months)` holds when `expected_hours_per_week` is an
integer `N ≥ 0` with `N × 4 × months < 2^53` (so for the default 40-hour
config), but not in general: rounding makes it fail for reachable decimal
configs (see the counterexample). -/
theorem c6_float_expected_accumulation (entries : List TimeEntry) (cfg : Config)
    (w4 : Fp) (N : Int) (hN : 0 ≤ N)
    (hb : N * 4 * (distinctMonthCount entries : Int) < 2 ^ 53) :
    (fpTotalExpected w4 entries).1
        = (balanceFold entries cfg).monthly_stats.map (fun p => p.1)
    ∧ (fpTotalExpected w4 entries).2 = fpIterFrom w4 fpZero (distinctMonthCount entries)
    ∧ fpVal (fpTotalExpected (fpMul4 (fpOfPyNum (PyNum.int N))) entries).2
        = (N : ℚ) * 4 * (distinctMonthCount entries : ℚ) := by
  refine ⟨?_, ?_, ?_⟩
  · have haux := (fpExp_aux w4 entries ([], fpZero)).1
    have hbal := (balFold_month_aux cfg.expected_hours_per_week.dq entries
      ⟨DQ.zero, DQ.zero, [], []⟩).1
    unfold fpTotalExpected balanceFold
    rw [haux, hbal]
    simp
  · have haux := (fpExp_aux w4 entries ([], fpZero)).2
    unfold fpTotalExpected
    rw [haux]
    rfl
  · have haux := (fpExp_aux (fpMul4 (fpOfPyNum (PyNum.int N))) entries ([], fpZero)).2
    unfold fpTotalExpected
    rw [haux]
    show fpVal (fpIterFrom (fpMul4 (fpOfPyNum (PyNum.int N))) fpZero (distinctMonthCount entries))
        = (N : ℚ) * 4 * (distinctMonthCount entries : ℚ)
    rcases Nat.eq_zero_or_pos (distinctMonthCount entries) with h0 | hpos
    · rw [h0]
      simp [fpIterFrom, fpZero, fpVal]
    · have hb' := hb
      rw [show (2 : Int) ^ 53 = 9007199254740992 from by norm_num] at hb'
      have h1 : N * 4 * 1 ≤ N * 4 * (distinctMonthCount entries : Int) :=
        mul_le_mul_of_nonneg_left (by exact_mod_cast hpos) (by linarith)
      have hb1 : N * 4 < 9007199254740992 := by linarith
      have hNsmall : N.natAbs < 2 ^ 53 := by
        rw [show (2 : Nat) ^ 53 = 9007199254740992 from by norm_num]
        omega
      have hint : fpOfPyNum (PyNum.int N) = ⟨N, 0⟩ := fpRound_small N 0 hNsmall
      have hw4 : fpMul4 (fpOfPyNum (PyNum.int N)) = ⟨N, 2⟩ := by
        rw [hint]
        show fpRound N ((0 : Int) + 2) = ⟨N, 2⟩
        rw [show ((0 : Int) + 2) = 2 from by norm_num]
        exact fpRound_small N 2 hNsmall
      rw [hw4]
      rw [fpIterFrom_int N (distinctMonthCount entries) hN hb
        (distinctMonthCount entries) le_rfl]
      simp only [fpVal]
      rw [zpow_zero, mul_one]
      push_cast
      ring

theorem c6_witness :
    (0 : Int) ≤ 40
    ∧ (40 : Int) * 4 * (distinctMonthCount c6Ents : Int) < 2 ^ 53
    ∧ ((fpTotalExpected ⟨7205759403792794, -56⟩ c6Ents).1
          = (balanceFold c6Ents DEFAULT_CONFIG).monthly_stats.map (fun p => p.1)
        ∧ (fpTotalExpected ⟨7205759403792794, -56⟩ c6Ents).2
            = fpIterFrom ⟨7205759403792794, -56⟩ fpZero (distinctMonthCount c6Ents)
        ∧ fpVal (fpTotalExpected (fpMul4 (fpOfPyNum (PyNum.int 40))) c6Ents).2
            = ((40 : Int) : ℚ) * 4 * (distinctMonthCount c6Ents : ℚ)) :=
  ⟨by decide, by decide,
   c6_float_expected_accumulation c6Ents DEFAULT_CONFIG ⟨7205759403792794, -56⟩ 40
     (by decide) (by decide)⟩

theorem strLtB_asymm : ∀ a b : Str, strLtB a b = true → strLtB b a = false := by
  intro a
  induction a with
  | nil =>
    intro b h
    cases b with
    | nil => simp [strLtB] at h
    | cons d u => simp [strLtB]
  | cons c t ih =>
    intro b h
    cases b with
    | nil => simp [strLtB] at h
    | cons d u =>
      simp only [strLtB] at h ⊢
      by_cases h1 : c < d
      · rw [if_neg (asymm h1), if_pos h1]
      · by_cases h2 : d < c
        · rw [if_neg h1, if_pos h2] at h
          exact absurd h (by simp)
        · rw [if_neg h1, if_neg h2] at h
          rw [if_neg h2, if_neg h1]
          exact ih u h

theorem strLtB_trans : ∀ a b c : Str, strLtB a b = true → strLtB b c = true →
    strLtB a c = true := by
  intro a
  induction a with
  | nil =>
    intro b c hab hbc
    cases c with
    | nil =>
      cases b with
      | nil => simp [strLtB] at hab
      | cons y u => simp [strLtB] at hbc
    | cons z v => simp [strLtB]
  | cons x t ih =>
    intro b c hab hbc
    cases b with
    | nil => simp [strLtB] at hab
    | cons y u =>
      cases c with
      | nil => simp [strLtB] at hbc
      | cons z v =>
        simp only [strLtB] at hab hbc ⊢
        by_cases h1 : x < y
        · by_cases h2 : y < z
          · rw [if_pos (lt_trans h1 h2)]
          · by_cases h3 : z < y
            · rw [if_neg h2, if_pos h3] at hbc
              exact absurd hbc (by simp)
            · have hyz : y = z := le_antisymm (not_lt.mp h3) (not_lt.mp h2)
              subst hyz
              rw [if_pos h1]
        · by_cases h1' : y < x
          · rw [if_neg h1, if_pos h1'] at hab
            exact absurd hab (by simp)
          · have hxy : x = y := le_antisymm (not_lt.mp h1') (not_lt.mp h1)
            subst hxy
            rw [if_neg h1, if_neg h1'] at hab
            by_cases h2 : x < z
            · rw [if_pos h2]
            · by_cases h3 : z < x
              · rw [if_neg h2, if_pos h3] at hbc
                exact absurd hbc (by simp)
              · have hxz : x = z := le_antisymm (not_lt.mp h3) (not_lt.mp h2)
                subst hxz
                rw [if_neg h2, if_neg h3] at hbc ⊢
                exact ih u v hab hbc

theorem strLtB_conn : ∀ a b : Str, strLtB a b = false → strLtB b a = false → a = b := by
  intro a
  induction a with
  | nil =>
    intro b hab _
    cases b with
    | nil => rfl
    | cons d u => simp [strLtB] at hab
  | cons c t ih =>
    intro b hab hba
    cases b with
    | nil => simp [strLtB] at hba
    | cons d u =>
      simp only [strLtB] at hab hba
      by_cases h1 : c < d
      · rw [if_pos h1] at hab
        exact absurd hab (by simp)
      · by_cases h2 : d < c
        · rw [if_pos h2] at hba
          exact absurd hba (by simp)
        · have hcd : c = d := le_antisymm (not_lt.mp h2) (not_lt.mp h1)
          subst hcd
          rw [if_neg h1, if_neg h1] at hab hba
          rw [ih u hab hba]

theorem insSortedBy_mem {α : Type} (ltb : α → α → Bool) (x : α) :
    ∀ (l : List α) (a : α), a ∈ insSortedBy ltb x l ↔ a = x ∨ a ∈ l := by
  intro l
  induction l with
  | nil => intro a; simp [insSortedBy]
  | cons y ys ih =>
    intro a
    simp only [insSortedBy]
    split
    · simp [List.mem_cons]
    · simp only [List.mem_cons, ih a]
      tauto

theorem insSortedBy_sorted {α : Type} (ltb : α → α → Bool)
    (hasym : ∀ a b, ltb a b = true → ltb b a = false)
    (htrans : ∀ a b c, ltb a b = true → ltb b c = true → ltb a c = true) (x : α) :
    ∀ l : List α, List.Pairwise (fun a b => ltb b a = false) l →
      List.Pairwise (fun a b => ltb b a = false) (insSortedBy ltb x l) := by
  intro l
  induction l with
  | nil => intro _; simp [insSortedBy]
  | cons y ys ih =>
    intro hp
    obtain ⟨hy, hys⟩ := List.pairwise_cons.mp hp
    simp only [insSortedBy]
    split
    · rename_i hxy
      refine List.pairwise_cons.mpr ⟨?_, hp⟩
      intro b hb
      rcases List.mem_cons.mp hb with rfl | hbys
      · exact hasym x b hxy
      · by_contra hbx
        have hbx' : ltb b x = true := by
          revert hbx; cases ltb b x <;> simp
        have h2 := htrans b x y hbx' hxy
        rw [hy b hbys] at h2
        exact absurd h2 (by simp)
    · rename_i hxy
      refine List.pairwise_cons.mpr ⟨?_, ih hys⟩
      intro b hb
      rcases (insSortedBy_mem ltb x ys b).mp hb with rfl | hbys
      · exact Bool.eq_false_iff.mpr hxy
      · exact hy b hbys

theorem pySortedBy_sorted {α : Type} (ltb : α → α → Bool)
    (hasym : ∀ a b, ltb a b = true → ltb b a = false)
    (htrans : ∀ a b c, ltb a b = true → ltb b c = true → ltb a c = true) (l : List α) :
    List.Pairwise (fun a b => ltb b a = false) (pySortedBy ltb l) := by
  suffices h : ∀ (l acc : List α), List.Pairwise (fun a b => ltb b a = false) acc →
      List.Pairwise (fun a b => ltb b a = false)
        (l.foldl (fun acc x => insSortedBy ltb x acc) acc) by
    exact h l [] (by simp)
  intro l
  induction l with
  | nil => intro acc h; simpa using h
  | cons x t ih =>
    intro acc h
    simpa using ih (insSortedBy ltb x acc) (insSortedBy_sorted ltb hasym htrans x acc h)

theorem insSortedBy_perm {α : Type} (ltb : α → α → Bool) (x : α) :
    ∀ l : List α, (insSortedBy ltb x l).Perm (x :: l) := by
  intro l
  induction l with
  | nil => exact List.Perm.refl _
  | cons y ys ih =>
    simp only [insSortedBy]
    split
    · exact List.Perm.refl _
    · exact (List.Perm.cons y ih).trans (List.Perm.swap x y ys)

theorem pySortedBy_perm {α : Type} (ltb : α → α → Bool) (l : List α) :
    (pySortedBy ltb l).Perm l := by
  suffices h : ∀ (l acc : List α),
      ((l.foldl (fun acc x => insSortedBy ltb x acc) acc)).Perm (l ++ acc) by
    simpa using h l []
  intro l
  induction l with
  | nil => intro acc; simp
  | cons x t ih =>
    intro acc
    have h1 : ((t.foldl (fun acc x => insSortedBy ltb x acc) (insSortedBy ltb x acc))).Perm
        (t ++ insSortedBy ltb x acc) := ih (insSortedBy ltb x acc)
    have h2 : (t ++ insSortedBy ltb x acc).Perm (t ++ x :: acc) :=
      List.Perm.append_left t (insSortedBy_perm ltb x acc)
    have h3 : (t ++ x :: acc).Perm (x :: (t ++ acc)) := List.perm_middle
    simpa using (h1.trans h2).trans h3

theorem rhe_intCast (n : Int) : rhe (n : ℚ) = n := by
  unfold rhe
  rw [Int.fract_intCast, Int.floor_intCast]
  norm_num

theorem fdiv_eq_floor_div (a : Int) (b : Int) (hb : 0 < b) :
    Int.fdiv a b = Int.floor ((a : ℚ) / (b : ℚ)) := by
  rw [Int.fdiv_eq_ediv _ (le_of_lt hb)]
  obtain ⟨n, rfl⟩ := Int.eq_ofNat_of_zero_le (le_of_lt hb)
  rw [show ((n : Int) : ℚ) = ((n : ℕ) : ℚ) by push_cast; rfl]
  rw [Rat.floor_intCast_div_natCast a n]

theorem halfEvenDiv_eq_rhe (a b : Int) (hb : 0 < b) :
    halfEvenDiv a b = rhe ((a : ℚ) / (b : ℚ)) := by
  have hbQ : (0 : ℚ) < (b : ℚ) := by exact_mod_cast hb
  have hfloor : Int.floor ((a : ℚ) / (b : ℚ)) = Int.fdiv a b :=
    (fdiv_eq_floor_div a b hb).symm
  have hfract : Int.fract ((a : ℚ) / (b : ℚ)) =
      ((a - Int.fdiv a b * b : Int) : ℚ) / (b : ℚ) := by
    rw [Int.fract, hfloor]
    push_cast
    field_simp
    ring
  have key1 : ∀ r : Int, ((r : ℚ) < 1 / 2 * (b : ℚ)) ↔ (2 * r < b) := by
    intro r
    constructor
    · intro h
      have h2 : ((2 * r : Int) : ℚ) < ((b : Int) : ℚ) := by push_cast; linarith
      exact_mod_cast h2
    · intro h
      have h2 : ((2 * r : Int) : ℚ) < ((b : Int) : ℚ) := by exact_mod_cast h
      push_cast at h2
      linarith
  have key2 : ∀ r : Int, ((1 : ℚ) / 2 * (b : ℚ) < (r : ℚ)) ↔ (b < 2 * r) := by
    intro r
    constructor
    · intro h
      have h2 : ((b : Int) : ℚ) < ((2 * r : Int) : ℚ) := by push_cast; linarith
      exact_mod_cast h2
    · intro h
      have h2 : ((b : Int) : ℚ) < ((2 * r : Int) : ℚ) := by exact_mod_cast h
      push_cast at h2
      linarith
  have hiff1 : (Int.fract ((a : ℚ) / (b : ℚ)) < 1 / 2) ↔
      (2 * (a - Int.fdiv a b * b) < b) := by
    rw [hfract, div_lt_iff hbQ, one_div, inv_mul_eq_div, div_eq_inv_mul, ← one_div]
    exact key1 _
  have hiff2 : ((1 : ℚ) / 2 < Int.fract ((a : ℚ) / (b : ℚ))) ↔
      (b < 2 * (a - Int.fdiv a b * b)) := by
    rw [hfract, lt_div_iff hbQ]
    exact key2 _
  unfold halfEvenDiv rhe
  simp only [hiff1, hiff2, hfloor]

theorem hundredths_eq (x : DQ) : hundredths x = rhe (x.q * 100) := by
  unfold hundredths
  by_cases he : x.e ≤ 2
  · rw [if_pos he]
    have hq : x.q * 100 = ((x.m * (10 : Int) ^ (2 - x.e) : Int) : ℚ) := by
      unfold DQ.q
      have h2 : x.e + (2 - x.e) = 2 := by omega
      have h100 : (100 : ℚ) = (10 : ℚ) ^ x.e * (10 : ℚ) ^ (2 - x.e) := by
        rw [← pow_add, h2]
        norm_num
      push_cast
      rw [h100]
      field_simp
      ring
    rw [hq, rhe_intCast]
  · rw [if_neg he]
    have hpos : (0 : Int) < (10 : Int) ^ (x.e - 2) := by positivity
    rw [halfEvenDiv_eq_rhe _ _ hpos]
    congr 1
    unfold DQ.q
    have h2 : x.e - 2 + 2 = x.e := by omega
    have hsplit : (10 : ℚ) ^ x.e = (10 : ℚ) ^ (x.e - 2) * 100 := by
      rw [show (100 : ℚ) = (10 : ℚ) ^ 2 by norm_num, ← pow_add, h2]
    push_cast
    rw [hsplit]
    field_simp
    ring

theorem DQ.m_neg_iff (x : DQ) : (x.m < 0) ↔ x.q < 0 := by
  have hb : (0 : ℚ) < (10 : ℚ) ^ x.e := by positivity
  constructor
  · intro h
    exact div_neg_of_neg_of_pos (by exact_mod_cast h) hb
  · intro h
    by_contra h'
    push_neg at h'
    have : (0 : ℚ) ≤ x.q := div_nonneg (by exact_mod_cast h') (le_of_lt hb)
    exact absurd h (not_lt.mpr this)

theorem fmt2f_congr (x y : DQ) (h : x.q = y.q) : fmt2f x = fmt2f y := by
  have hh : hundredths x = hundredths y := by rw [hundredths_eq, hundredths_eq, h]
  show (if x.m < 0 then ['-'] else []) ++ natStr ((hundredths x).natAbs / 100)
      ++ '.' :: pad2 ((hundredths x).natAbs % 100)
    = (if y.m < 0 then ['-'] else []) ++ natStr ((hundredths y).natAbs / 100)
      ++ '.' :: pad2 ((hundredths y).natAbs % 100)
  by_cases hx : x.m < 0
  · have hy : y.m < 0 := (DQ.m_neg_iff y).mpr (h ▸ (DQ.m_neg_iff x).mp hx)
    rw [if_pos hx, if_pos hy, hh]
  · have hy : ¬ y.m < 0 := fun hy0 => hx ((DQ.m_neg_iff x).mpr (h ▸ (DQ.m_neg_iff y).mp hy0))
    rw [if_neg hx, if_neg hy, hh]

theorem fmtSigned2f_congr (x y : DQ) (h : x.q = y.q) : fmtSigned2f x = fmtSigned2f y := by
  have hh : hundredths x = hundredths y := by rw [hundredths_eq, hundredths_eq, h]
  show (if x.m < 0 then ['-'] else ['+']) ++ natStr ((hundredths x).natAbs / 100)
      ++ '.' :: pad2 ((hundredths x).natAbs % 100)
    = (if y.m < 0 then ['-'] else ['+']) ++ natStr ((hundredths y).natAbs / 100)
      ++ '.' :: pad2 ((hundredths y).natAbs % 100)
  by_cases hx : x.m < 0
  · have hy : y.m < 0 := (DQ.m_neg_iff y).mpr (h ▸ (DQ.m_neg_iff x).mp hx)
    rw [if_pos hx, if_pos hy, hh]
  · have hy : ¬ y.m < 0 := fun hy0 => hx ((DQ.m_neg_iff x).mpr (h ▸ (DQ.m_neg_iff y).mp hy0))
    rw [if_neg hx, if_neg hy, hh]

theorem weekRow_congr (s : WeekStat) (k : Str) (c c' : DQ) (h : c.q = c'.q) :
    weekRow s k c = weekRow s k c' := by
  unfold weekRow
  rw [fmtSigned2f_congr _ _ h]

theorem foldl_add_q (l : List DQ) : ∀ a : DQ, (l.foldl DQ.add a).q = a.q + (l.map DQ.q).sum := by
  induction l with
  | nil => intro a; simp
  | cons x t ih =>
    intro a
    simp only [List.foldl_cons, List.map_cons, List.sum_cons]
    rw [ih (a.add x), DQ.add_q]
    ring

theorem sumDQ_q (l : List DQ) : (sumDQ l).q = (l.map DQ.q).sum := by
  unfold sumDQ
  rw [foldl_add_q]
  simp [DQ.zero_q]

theorem weeklyRowsLoop_eq_spec (stats : List (Str × WeekStat)) :
    ∀ (ks : List Str) (c0 : DQ), weeklyRowsLoop stats ks c0 = weeklyRowsSpec stats ks c0 := by
  intro ks
  induction ks with
  | nil => intro c0; simp [weeklyRowsLoop, weeklyRowsSpec]
  | cons k t ih =>
    intro c0
    have hhead :
        weekRow (alookupD k stats WeekStat.dflt) k
          (c0.add ((alookupD k stats WeekStat.dflt).worked.sub
            (alookupD k stats WeekStat.dflt).expected)) =
        weekRow (alookupD k stats WeekStat.dflt) k
          (c0.add (sumDQ (((k :: t).take 1).map (weekBalOf stats)))) := by
      apply weekRow_congr
      rw [DQ.add_q, DQ.add_q, sumDQ_q]
      simp [weekBalOf, DQ.add_q, DQ.zero_q]
    have htail :
        weeklyRowsLoop stats t
          (c0.add ((alookupD k stats WeekStat.dflt).worked.sub
            (alookupD k stats WeekStat.dflt).expected)) =
        (List.range t.length).map (fun i =>
          weekRow (alookupD (t.getD i []) stats WeekStat.dflt) (t.getD i [])
            (c0.add (sumDQ (((k :: t).take (i + 1 + 1)).map (weekBalOf stats))))) := by
      rw [ih (c0.add ((alookupD k stats WeekStat.dflt).worked.sub
        (alookupD k stats WeekStat.dflt).expected))]
      unfold weeklyRowsSpec
      apply List.map_congr_left
      intro i _
      apply weekRow_congr
      rw [DQ.add_q, DQ.add_q, DQ.add_q, sumDQ_q, sumDQ_q]
      have htake : (k :: t).take (i + 1 + 1) = k :: t.take (i + 1) := rfl
      rw [htake]
      simp only [List.map_cons, List.sum_cons]
      rw [DQ.sub_q]
      simp [weekBalOf, DQ.sub_q]
      ring
    show weekRow (alookupD k stats WeekStat.dflt) k _ ::
        weeklyRowsLoop stats t _ = weeklyRowsSpec stats (k :: t) c0
    unfold weeklyRowsSpec
    rw [show (k :: t).length = t.length + 1 from rfl, List.range_succ_eq_map]
    simp only [List.map_cons, List.map_map]
    rw [hhead, htail]
    rfl

theorem keys_not_mem_of_any_false (l : List Str) (k : Str)
    (h : l.any (fun x => x = k) = false) : k ∉ l := by
  intro hm
  have h2 : l.any (fun x => x = k) = true := List.any_eq_true.mpr ⟨k, hm, by simp⟩
  rw [h] at h2
  cases h2

theorem nodup_append_key (keys : List Str) (k : Str)
    (hk : keys.any (fun x => x = k) = false) (h : keys.Nodup) : (keys ++ [k]).Nodup := by
  have hnotmem : k ∉ keys := keys_not_mem_of_any_false keys k hk
  exact ((List.perm_append_singleton k keys).nodup_iff).mpr (List.nodup_cons.mpr ⟨hnotmem, h⟩)

/-- The weekly analogue of `balStep_month_char`: one iteration appends at most
one fresh week key. -/
theorem balStep_week_char (E : DQ) (st : BalState) (e : TimeEntry) :
    (balStep E st e).weekly_stats.map (fun p => p.1) =
      st.weekly_stats.map (fun p => p.1) ++
        (match (if e.date = str "Date" then none else parseDate e.date) with
         | none => []
         | some dt =>
           if amem (weekKeyOf dt) st.weekly_stats then [] else [weekKeyOf dt]) := by
  by_cases hd : e.date = str "Date"
  · simp [balStep, hd]
  · cases hp : parseDate e.date with
    | none => simp [balStep, hd, hp]
    | some dt =>
      simp only [balStep, hd, if_false, hp, if_neg hd]
      by_cases hm1 : amem (monthKeyOf dt) st.monthly_stats
      · simp only [hm1, if_pos, if_true]
        by_cases hm2 : amem (weekKeyOf dt) st.weekly_stats
        · simp only [hm2, if_pos, if_true]
          split_ifs <;> simp [aupdate_keys]
        · simp only [hm2, if_false, Bool.false_eq_true]
          split_ifs <;> simp [aupdate_keys]
      · simp only [hm1, if_false, Bool.false_eq_true]
        by_cases hm2 : amem (weekKeyOf dt) st.weekly_stats
        · simp only [hm2, if_pos, if_true]
          split_ifs <;> simp [aupdate_keys]
        · simp only [hm2, if_false, Bool.false_eq_true]
          split_ifs <;> simp [aupdate_keys]

theorem balStep_week_nodup (E : DQ) (st : BalState) (e : TimeEntry)
    (h : (st.weekly_stats.map (fun p => p.1)).Nodup) :
    ((balStep E st e).weekly_stats.map (fun p => p.1)).Nodup := by
  have hk := balStep_week_char E st e
  by_cases hd : e.date = str "Date"
  · have hk' : (balStep E st e).weekly_stats.map (fun p => p.1) =
        st.weekly_stats.map (fun p => p.1) := by rw [hk, if_pos hd]; simp
    rw [hk']; exact h
  · cases hp : parseDate e.date with
    | none =>
      have hk' : (balStep E st e).weekly_stats.map (fun p => p.1) =
          st.weekly_stats.map (fun p => p.1) := by rw [hk, if_neg hd, hp]; simp
      rw [hk']; exact h
    | some dt =>
      by_cases hm : amem (weekKeyOf dt) st.weekly_stats = true
      · have hk' : (balStep E st e).weekly_stats.map (fun p => p.1) =
            st.weekly_stats.map (fun p => p.1) := by
          rw [hk, if_neg hd, hp]; simp [hm]
        rw [hk']; exact h
      · have hk' : (balStep E st e).weekly_stats.map (fun p => p.1) =
            st.weekly_stats.map (fun p => p.1) ++ [weekKeyOf dt] := by
          rw [hk, if_neg hd, hp]; simp [hm]
        rw [hk']
        refine nodup_append_key _ _ ?_ h
        rw [← amem_eq_keys_any]
        exact Bool.eq_false_iff.mpr hm

theorem balStep_month_nodup (E : DQ) (st : BalState) (e : TimeEntry)
    (h : (st.monthly_stats.map (fun p => p.1)).Nodup) :
    ((balStep E st e).monthly_stats.map (fun p => p.1)).Nodup := by
  have hk := (balStep_month_char E st e).1
  by_cases hd : e.date = str "Date"
  · have hk' : (balStep E st e).monthly_stats.map (fun p => p.1) =
        st.monthly_stats.map (fun p => p.1) := by rw [hk, if_pos hd]; simp
    rw [hk']; exact h
  · cases hp : parseDate e.date with
    | none =>
      have hk' : (balStep E st e).monthly_stats.map (fun p => p.1) =
          st.monthly_stats.map (fun p => p.1) := by rw [hk, if_neg hd, hp]; simp
      rw [hk']; exact h
    | some dt =>
      by_cases hm : amem (monthKeyOf dt) st.monthly_stats = true
      · have hk' : (balStep E st e).monthly_stats.map (fun p => p.1) =
            st.monthly_stats.map (fun p => p.1) := by
          rw [hk, if_neg hd, hp]; simp [hm]
        rw [hk']; exact h
      · have hk' : (balStep E st e).monthly_stats.map (fun p => p.1) =
            st.monthly_stats.map (fun p => p.1) ++ [monthKeyOf dt] := by
          rw [hk, if_neg hd, hp]; simp [hm]
        rw [hk']
        refine nodup_append_key _ _ ?_ h
        rw [← amem_eq_keys_any]
        exact Bool.eq_false_iff.mpr hm

theorem balFold_week_nodup (entries : List TimeEntry) (cfg : Config) :
    ((balanceFold entries cfg).weekly_stats.map (fun p => p.1)).Nodup := by
  unfold balanceFold
  suffices h : ∀ (l : List TimeEntry) (st : BalState),
      (st.weekly_stats.map (fun p => p.1)).Nodup →
      ((l.foldl (balStep cfg.expected_hours_per_week.dq) st).weekly_stats.map
        (fun p => p.1)).Nodup by
    exact h entries ⟨DQ.zero, DQ.zero, [], []⟩ (by simp)
  intro l
  induction l with
  | nil => intro st h; simpa using h
  | cons e t ih =>
    intro st h
    simpa using ih (balStep cfg.expected_hours_per_week.dq st e)
      (balStep_week_nodup _ st e h)

theorem balFold_month_nodup (entries : List TimeEntry) (cfg : Config) :
    ((balanceFold entries cfg).monthly_stats.map (fun p => p.1)).Nodup := by
  unfold balanceFold
  suffices h : ∀ (l : List TimeEntry) (st : BalState),
      (st.monthly_stats.map (fun p => p.1)).Nodup →
      ((l.foldl (balStep cfg.expected_hours_per_week.dq) st).monthly_stats.map
        (fun p => p.1)).Nodup by
    exact h entries ⟨DQ.zero, DQ.zero, [], []⟩ (by simp)
  intro l
  induction l with
  | nil => intro st h; simpa using h
  | cons e t ih =>
    intro st h
    simpa using ih (balStep cfg.expected_hours_per_week.dq st e)
      (balStep_month_nodup _ st e h)

theorem sortedKeysDesc_strict (l : List Str) (h : l.Nodup) :
    List.Pairwise (fun a b => strLtB b a = true) (sortedKeysDesc l) := by
  have hs := pySortedBy_sorted (fun a b => strLtB b a)
    (fun a b hab => strLtB_asymm b a hab)
    (fun a b c h1 h2 => strLtB_trans c b a h2 h1) l
  have hnd : (sortedKeysDesc l).Nodup := ((pySortedBy_perm _ l).nodup_iff).mpr h
  have hpair := List.Pairwise.and hs (List.Pairwise.imp (fun hab => hab) hnd)
  refine hpair.imp ?_
  rintro a b ⟨hfalse, hne⟩
  cases hba : strLtB b a with
  | true => rfl
  | false => exact absurd (strLtB_conn a b hfalse hba) hne

theorem sortedKeysAsc_strict (l : List Str) (h : l.Nodup) :
    List.Pairwise (fun a b => strLtB a b = true) (sortedKeysAsc l) := by
  have hs := pySortedBy_sorted strLtB strLtB_asymm strLtB_trans l
  have hnd : (sortedKeysAsc l).Nodup := ((pySortedBy_perm _ l).nodup_iff).mpr h
  have hpair := List.Pairwise.and hs (List.Pairwise.imp (fun hab => hab) hnd)
  refine hpair.imp ?_
  rintro a b ⟨hfalse, hne⟩
  cases hab : strLtB a b with
  | true => rfl
  | false => exact absurd (strLtB_conn b a hfalse hab) (fun hh => hne hh.symm)

/-- C7: in the summary text built by `calculate_balance`, the weekly table
iterates its keys in strictly descending order; each row's cumulative balance
is the sum of the week balances of the rows rendered so far (accumulated
newest-first, since the walk starts at the most recent week); and the monthly
section iterates its keys in strictly ascending order. -/
theorem c7_summary_ordering :
    (∀ (entries : List TimeEntry) (cfg : Config),
      List.Pairwise (fun a b => strLtB b a = true)
        (sortedKeysDesc ((balanceFold entries cfg).weekly_stats.map (fun p => p.1))))
    ∧ (∀ (stats : List (Str × WeekStat)) (ks : List Str) (c0 : DQ),
        weeklyRowsLoop stats ks c0 = weeklyRowsSpec stats ks c0)
    ∧ (∀ (entries : List TimeEntry) (cfg : Config),
      List.Pairwise (fun a b => strLtB a b = true)
        (sortedKeysAsc ((balanceFold entries cfg).monthly_stats.map (fun p => p.1)))) :=
  ⟨fun entries cfg => sortedKeysDesc_strict _ (balFold_week_nodup entries cfg),
   fun stats ks c0 => weeklyRowsLoop_eq_spec stats ks c0,
   fun entries cfg => sortedKeysAsc_strict _ (balFold_month_nodup entries cfg)⟩

/-- C3 (counterexample): a malformed value on a recognized config key makes
`parse_config` raise (no `Config` is returned, so the other keys are not
applied either). -/
theorem c3_counterexample : parse_config c3Doc = .error () := by decide

/-- C3 (amended): a malformed value for a recognized key is not isolated to
its line — `float(value)` raises, the exception aborts the whole line loop
(after any earlier well-formed lines were applied), and `process_event`'s
outer handler turns the event into no result and no write. -/
theorem c3_config_failure_aborts :
    (∀ (cfg : Config) (pre post : List Str) (line : Str) (c' : Config),
      applyConfigLines cfg pre = .ok c' →
      (pyStrip line).contains ':' = true →
      configKeyOf line = str "expected_hours_per_week" →
      floatParse (configValOf line) = none →
      applyConfigLines cfg (pre ++ line :: post) = .error ())
    ∧ process_event true c3Event = ⟨none, none⟩ := by
  constructor
  · intro cfg pre post line c' hpre hcolon hkey hval
    induction pre generalizing cfg with
    | nil =>
      simp only [List.nil_append, applyConfigLines]
      have hline : applyConfigLine cfg line = .error () := by
        unfold applyConfigLine
        rw [if_pos hcolon]
        simp only [hkey, if_pos, if_true, hval]
      rw [hline]
    | cons l pre ih =>
      simp only [List.cons_append, applyConfigLines] at hpre ⊢
      cases hl : applyConfigLine cfg l with
      | error u => simp [hl] at hpre
      | ok c1 =>
        simp only [hl] at hpre ⊢
        exact ih c1 hpre
  · decide

/-- Witness for the amended C3 at the concrete malformed line. -/
theorem c3_witness :
    applyConfigLines DEFAULT_CONFIG [] = .ok DEFAULT_CONFIG ∧
    (pyStrip (str "Expected Hours per Week: abc")).contains ':' = true ∧
    configKeyOf (str "Expected Hours per Week: abc") = str "expected_hours_per_week" ∧
    floatParse (configValOf (str "Expected Hours per Week: abc")) = none ∧
    applyConfigLines DEFAULT_CONFIG ([] ++ str "Expected Hours per Week: abc" :: []) =
      .error () :=
  ⟨by decide, by decide, by decide, by decide,
   c3_config_failure_aborts.1 DEFAULT_CONFIG [] [] _ DEFAULT_CONFIG
     (by decide) (by decide) (by decide) (by decide)⟩

-- ---- generic string lemmas for the round-trip development ----

theorem pySplitCh_ne_nil (c : Char) (s : Str) : pySplitCh c s ≠ [] := by
  induction s with
  | nil => simp [pySplitCh]
  | cons a t ih =>
    simp only [pySplitCh]
    split
    · simp
    · cases h : pySplitCh c t <;> simp

theorem split_sep_free (c : Char) (s : Str) (h : c ∉ s) : pySplitCh c s = [s] := by
  induction s with
  | nil => rfl
  | cons a t ih =>
    have ha : a ≠ c := fun hh => h (hh ▸ List.mem_cons_self a t)
    have ht : c ∉ t := fun hh => h (List.mem_cons_of_mem a hh)
    simp only [pySplitCh, if_neg ha, ih ht]

theorem split_append_sep (c : Char) (a r : Str) :
    pySplitCh c (a ++ c :: r) = pySplitCh c a ++ pySplitCh c r := by
  induction a with
  | nil => simp [pySplitCh]
  | cons x t ih =>
    by_cases hx : x = c
    · subst hx
      have h1 : pySplitCh x ((x :: t) ++ x :: r) = [] :: pySplitCh x (t ++ x :: r) := by
        simp [pySplitCh]
      have h2 : pySplitCh x (x :: t) = [] :: pySplitCh x t := by simp [pySplitCh]
      rw [h1, h2, ih]
      simp
    · cases h : pySplitCh c t with
      | nil => exact absurd h (pySplitCh_ne_nil c t)
      | cons p ps =>
        have h1 : pySplitCh c ((x :: t) ++ c :: r) =
            match pySplitCh c (t ++ c :: r) with
            | [] => [[x]]
            | hh :: r' => (x :: hh) :: r' := by
          simp [pySplitCh, hx]
        have h2 : pySplitCh c (x :: t) = (x :: p) :: ps := by
          simp [pySplitCh, hx, h]
        rw [h1, ih, h, h2]
        simp

theorem split_pieces_sep_free (c : Char) (s : Str) :
    ∀ p ∈ pySplitCh c s, c ∉ p := by
  induction s with
  | nil =>
    intro p hp
    simp [pySplitCh] at hp
    simp [hp]
  | cons a t ih =>
    intro p hp
    simp only [pySplitCh] at hp
    by_cases hx : a = c
    · rw [if_pos hx] at hp
      rcases List.mem_cons.mp hp with rfl | hp'
      · simp
      · exact ih p hp'
    · rw [if_neg hx] at hp
      cases h : pySplitCh c t with
      | nil => exact absurd h (pySplitCh_ne_nil c t)
      | cons q qs =>
        rw [h] at hp
        rcases List.mem_cons.mp hp with rfl | hp'
        · intro hmem
          rcases List.mem_cons.mp hmem with rfl | hmem'
          · exact hx rfl
          · exact ih q (h ▸ List.mem_cons_self q qs) hmem'
        · exact ih p (h ▸ List.mem_cons_of_mem q hp')

theorem split_pieces_subset (c : Char) (s : Str) :
    ∀ p ∈ pySplitCh c s, ∀ ch ∈ p, ch ∈ s := by
  induction s with
  | nil =>
    intro p hp ch hch
    simp [pySplitCh] at hp
    subst hp
    cases hch
  | cons a t ih =>
    intro p hp ch hch
    simp only [pySplitCh] at hp
    by_cases hx : a = c
    · rw [if_pos hx] at hp
      rcases List.mem_cons.mp hp with rfl | hp'
      · cases hch
      · exact List.mem_cons_of_mem a (ih p hp' ch hch)
    · rw [if_neg hx] at hp
      cases h : pySplitCh c t with
      | nil => exact absurd h (pySplitCh_ne_nil c t)
      | cons q qs =>
        rw [h] at hp
        rcases List.mem_cons.mp hp with rfl | hp'
        · rcases List.mem_cons.mp hch with rfl | hch'
          · exact List.mem_cons_self _ _
          · exact List.mem_cons_of_mem a (ih q (h ▸ List.mem_cons_self q qs) ch hch')
        · exact List.mem_cons_of_mem a (ih p (h ▸ List.mem_cons_of_mem q hp') ch hch)

theorem pyJoin_append (sep : Str) (A B : List Str) (hA : A ≠ []) (hB : B ≠ []) :
    pyJoin sep (A ++ B) = pyJoin sep A ++ sep ++ pyJoin sep B := by
  induction A with
  | nil => exact absurd rfl hA
  | cons x A ih =>
    cases A with
    | nil =>
      cases B with
      | nil => exact absurd rfl hB
      | cons y B => simp [pyJoin]
    | cons x' A' =>
      have hstep : pyJoin sep ((x :: x' :: A') ++ B) =
          x ++ sep ++ pyJoin sep ((x' :: A') ++ B) := rfl
      have hstep2 : pyJoin sep (x :: x' :: A') = x ++ sep ++ pyJoin sep (x' :: A') := rfl
      rw [hstep, ih (by simp), hstep2]
      simp [List.append_assoc]

theorem splitNl_join_flat (L : List Str) (hL : L ≠ []) :
    pySplitCh '\n' (pyJoin (str "\n") L) = L.flatMap (pySplitCh '\n') := by
  induction L with
  | nil => exact absurd rfl hL
  | cons x L ih =>
    cases L with
    | nil => simp [pyJoin, List.flatMap]
    | cons y L' =>
      have h0 : pyJoin (str "\n") (x :: y :: L') = x ++ '\n' :: pyJoin (str "\n") (y :: L') := by
        show x ++ str "\n" ++ pyJoin (str "\n") (y :: L') = _
        rw [show str "\n" = ['\n'] from rfl]
        simp
      rw [h0, split_append_sep, ih (by simp)]
      simp [List.flatMap]

theorem dw_head (p : Char → Bool) :
    ∀ (l : Str) (x : Char), (l.dropWhile p).head? = some x → p x = false := by
  intro l
  induction l with
  | nil => intro x h; cases h
  | cons a t ih =>
    intro x h
    by_cases ha : p a
    · rw [List.dropWhile_cons_of_pos ha] at h
      exact ih x h
    · rw [List.dropWhile_cons_of_neg ha] at h
      cases h
      exact Bool.eq_false_iff.mpr ha

theorem dropWhile_eq_self_of_head (p : Char → Bool) (l : Str)
    (h : ∀ x ∈ l.head?, p x = false) : l.dropWhile p = l := by
  cases l with
  | nil => rfl
  | cons a t =>
    have := h a rfl
    rw [List.dropWhile_cons_of_neg (by simp [this])]

theorem dropWhile_getLast? (p : Char → Bool) (l : Str) (h : l.dropWhile p ≠ []) :
    (l.dropWhile p).getLast? = l.getLast? := by
  induction l with
  | nil => rfl
  | cons a t ih =>
    by_cases ha : p a
    · rw [List.dropWhile_cons_of_pos ha] at h ⊢
      rw [ih h]
      have ht : t ≠ [] := by
        intro hnil
        rw [hnil] at h
        exact h rfl
      rw [List.getLast?_cons]
      cases t with
      | nil => exact absurd rfl ht
      | cons b u => simp [List.getLast?_cons]
    · rw [List.dropWhile_cons_of_neg ha]

theorem stripStable_of (s : Str) (h1 : ∀ x ∈ s.head?, isPySpace x = false)
    (h2 : ∀ x ∈ s.getLast?, isPySpace x = false) : pyStrip s = s := by
  unfold pyStrip
  rw [dropWhile_eq_self_of_head _ _ h1]
  rw [dropWhile_eq_self_of_head _ _ (by
    intro x hx
    rw [← List.getLast?_eq_head?_reverse] at hx
    exact h2 x hx)]
  simp

theorem pyStrip_getLast? (s : Str) :
    ∀ x, (pyStrip s).getLast? = some x → isPySpace x = false := by
  intro x hx
  unfold pyStrip at hx
  rw [List.getLast?_reverse] at hx
  exact dw_head _ _ x hx

theorem pyStrip_head? (s : Str) :
    ∀ x, (pyStrip s).head? = some x → isPySpace x = false := by
  intro x hx
  unfold pyStrip at hx
  rw [List.head?_reverse] at hx
  by_cases hempty : (s.dropWhile isPySpace).reverse.dropWhile isPySpace = []
  · rw [hempty] at hx
    cases hx
  · rw [dropWhile_getLast? _ _ hempty] at hx
    rw [← List.head?_reverse, List.reverse_reverse] at hx
    exact dw_head _ _ x hx

theorem pyStrip_idem (s : Str) : pyStrip (pyStrip s) = pyStrip s :=
  stripStable_of _ (fun x hx => pyStrip_head? s x hx) (fun x hx => pyStrip_getLast? s x hx)

theorem stripStable_of_all (s : Str) (h : ∀ ch ∈ s, isPySpace ch = false) : pyStrip s = s :=
  stripStable_of s
    (fun x hx => h x (by cases s with | nil => cases hx | cons a t => cases hx; exact List.mem_cons_self _ _))
    (fun x hx => h x (List.mem_of_mem_getLast? hx))

theorem pyStrip_cons_space (c : Char) (s : Str) (h : isPySpace c = true) :
    pyStrip (c :: s) = pyStrip s := by
  unfold pyStrip
  rw [List.dropWhile_cons_of_pos h]

theorem pyStrip_append_space (a : Str) : pyStrip (a ++ [' ']) = pyStrip a := by
  unfold pyStrip
  rw [List.dropWhile_append]
  by_cases h : (a.dropWhile isPySpace).isEmpty
  · rw [if_pos h]
    rw [List.isEmpty_iff] at h
    rw [h]
    decide
  · rw [if_neg h]
    rw [List.reverse_append]
    rw [show ([' '] : Str).reverse ++ (a.dropWhile isPySpace).reverse =
      ' ' :: (a.dropWhile isPySpace).reverse from rfl]
    rw [List.dropWhile_cons_of_pos (by decide)]

theorem pyStrip_eq_stripRight (s : Str) (h : ∀ x ∈ s.head?, isPySpace x = false) :
    pyStrip s = stripRight s := by
  unfold pyStrip stripRight
  rw [dropWhile_eq_self_of_head _ _ h]

theorem stripRight_glue (a b : Str) (c : Char) (hc : isPySpace c = false) :
    stripRight (a ++ c :: b) = a ++ c :: stripRight b := by
  unfold stripRight
  rw [List.reverse_append, show (c :: b).reverse = b.reverse ++ [c] from by simp,
    List.append_assoc, List.dropWhile_append]
  by_cases h : (b.reverse.dropWhile isPySpace).isEmpty
  · rw [if_pos h]
    rw [List.isEmpty_iff] at h
    rw [h]
    rw [show ([c] ++ a.reverse : Str) = c :: a.reverse from rfl,
      List.dropWhile_cons_of_neg (by simp [hc])]
    simp
  · rw [if_neg h]
    simp

theorem stripRight_of_getLast (s : Str) (h : ∀ x ∈ s.getLast?, isPySpace x = false) :
    stripRight s = s := by
  unfold stripRight
  rw [dropWhile_eq_self_of_head _ _ (by
    intro x hx
    rw [← List.getLast?_eq_head?_reverse] at hx
    exact h x hx)]
  simp

theorem stripRight_space_cons (d : Str) (hd : pyStrip d = d) (hne : d ≠ []) :
    stripRight (' ' :: d) = ' ' :: d := by
  have hlast : ∀ x ∈ (' ' :: d).getLast? , isPySpace x = false := by
    intro x hx
    have : (' ' :: d).getLast? = d.getLast? := by
      cases d with
      | nil => exact absurd rfl hne
      | cons a t => simp [List.getLast?_cons]
    rw [this] at hx
    rw [← hd] at hx
    exact pyStrip_getLast? d x hx
  exact stripRight_of_getLast _ hlast

theorem stripRight_space_nil : stripRight [' '] = [] := by decide

theorem natDigitsRev_lt10 : ∀ (fuel n : Nat), ∀ d ∈ natDigitsRev fuel n, d < 10 := by
  intro fuel
  induction fuel with
  | zero => intro n d hd; cases hd
  | succ f ih =>
    intro n d hd
    simp only [natDigitsRev] at hd
    split at hd
    · cases hd
    · rcases List.mem_cons.mp hd with rfl | hd'
      · exact Nat.mod_lt _ (by norm_num)
      · exact ih _ d hd'

theorem digitChar_isDigit (d : Nat) (h : d < 10) : (Char.ofNat (48 + d)).isDigit = true := by
  interval_cases d <;> decide

theorem natStr_digits (n : Nat) : ∀ ch ∈ natStr n, ch.isDigit = true := by
  intro ch hch
  unfold natStr at hch
  split at hch
  · rw [show str "0" = ['0'] from rfl] at hch
    rcases List.mem_singleton.mp hch with rfl
    decide
  · rw [List.mem_reverse] at hch
    obtain ⟨d, hd, rfl⟩ := List.mem_map.mp hch
    exact digitChar_isDigit d (natDigitsRev_lt10 n n d hd)

theorem isDigit_toNat (c : Char) (h : c.isDigit = true) :
    48 ≤ c.toNat ∧ c.toNat ≤ 57 := by
  simp only [Char.isDigit, Bool.and_eq_true, decide_eq_true_eq] at h
  exact ⟨h.1, h.2⟩

theorem isDigit_props (c : Char) (h : c.isDigit = true) :
    isPySpace c = false ∧ c ≠ '\n' ∧ c ≠ '|' ∧ c ≠ ',' ∧ c ≠ '-' ∧ c ≠ '.' ∧ c ≠ ':'
      ∧ c ≠ '#' := by
  obtain ⟨h1, h2⟩ := isDigit_toNat c h
  refine ⟨?_, ?_, ?_, ?_, ?_, ?_, ?_, ?_⟩
  · by_contra hsp
    rw [Bool.not_eq_false] at hsp
    simp only [isPySpace, Bool.or_eq_true, decide_eq_true_eq] at hsp
    rcases hsp with ((((hc | hc) | hc) | hc) | hc) | hc <;>
      · subst hc
        first
        | exact absurd h1 (by decide)
        | exact absurd h2 (by decide)
  all_goals
    intro hc
    subst hc
    first
    | exact absurd h1 (by decide)
    | exact absurd h2 (by decide)

theorem isDigit_ne_sign (c : Char) (h : c.isDigit = true) : c ≠ '-' ∧ c ≠ '+' := by
  obtain ⟨h1, _⟩ := isDigit_toNat c h
  constructor <;> (intro hc; subst hc; exact absurd h1 (by decide))

theorem digitsToNat_aux (s : Str) (i : Nat) :
    s.foldl (fun a c => a * 10 + digitVal c) i = i * 10 ^ s.length + digitsToNat s := by
  induction s generalizing i with
  | nil => simp [digitsToNat]
  | cons c t ih =>
    rw [show digitsToNat (c :: t) = (c :: t).foldl (fun a c => a * 10 + digitVal c) 0 from rfl]
    rw [List.foldl_cons, List.foldl_cons, ih, ih]
    simp only [List.length_cons, pow_succ]
    ring

theorem digitsToNat_append (a b : Str) :
    digitsToNat (a ++ b) = digitsToNat a * 10 ^ b.length + digitsToNat b := by
  rw [show digitsToNat (a ++ b) = (a ++ b).foldl (fun a c => a * 10 + digitVal c) 0 from rfl]
  rw [List.foldl_append, digitsToNat_aux]
  rfl

theorem digitsToNat_replicate_zero (k : Nat) (s : Str) :
    digitsToNat (List.replicate k '0' ++ s) = digitsToNat s := by
  rw [digitsToNat_append]
  have h0 : digitsToNat (List.replicate k '0') = 0 := by
    induction k with
    | zero => rfl
    | succ n ih =>
      rw [List.replicate_succ]
      rw [show digitsToNat ('0' :: List.replicate n '0')
        = (List.replicate n '0').foldl (fun a c => a * 10 + digitVal c) (0 * 10 + digitVal '0')
        from rfl]
      rw [show (0 * 10 + digitVal '0') = 0 from by decide]
      exact ih
  rw [h0]
  simp

theorem natDigitsRev_foldr (fuel n : Nat) (h : n ≤ fuel) :
    (natDigitsRev fuel n).foldr (fun d acc => d + 10 * acc) 0 = n := by
  induction fuel generalizing n with
  | zero =>
    have : n = 0 := by omega
    subst this
    rfl
  | succ f ih =>
    by_cases hn : n = 0
    · subst hn; simp [natDigitsRev]
    · simp only [natDigitsRev, if_neg hn, List.foldr_cons]
      rw [ih (n / 10) (by omega)]
      omega

theorem digitVal_ofNat (d : Nat) (h : d < 10) : digitVal (Char.ofNat (48 + d)) = d := by
  interval_cases d <;> decide

theorem digitsToNat_natStr (n : Nat) : digitsToNat (natStr n) = n := by
  unfold natStr
  by_cases hn : n = 0
  · subst hn; decide
  · rw [if_neg hn]
    rw [show ∀ s : Str, digitsToNat s = s.foldl (fun a c => a * 10 + digitVal c) 0
      from fun _ => rfl]
    simp only [List.foldl_reverse, List.foldr_map]
    have key : ∀ L : List Nat, (∀ d ∈ L, d < 10) →
        L.foldr (fun d acc => acc * 10 + digitVal (Char.ofNat (48 + d))) 0 =
        L.foldr (fun d acc => d + 10 * acc) 0 := by
      intro L
      induction L with
      | nil => intro _; rfl
      | cons d t iht =>
        intro hL
        rw [List.foldr_cons, List.foldr_cons,
          iht (fun x hx => hL x (List.mem_cons_of_mem _ hx)),
          digitVal_ofNat d (hL d (List.mem_cons_self _ _))]
        ring
    rw [key _ (natDigitsRev_lt10 n n), natDigitsRev_foldr n n le_rfl]

theorem natStr_ne_nil (n : Nat) : natStr n ≠ [] := by
  unfold natStr
  by_cases hn : n = 0
  · subst hn; decide
  · rw [if_neg hn]
    obtain ⟨m, rfl⟩ : ∃ m, n = m + 1 := ⟨n - 1, by omega⟩
    simp [natDigitsRev, hn]

theorem natStr_all_digits (n : Nat) : (natStr n).all Char.isDigit = true := by
  rw [List.all_eq_true]
  intro c hc
  exact natStr_digits n c hc

theorem pyStrip_intStr (i : Int) : pyStrip (intStr i) = intStr i := by
  refine stripStable_of_all _ ?_
  intro ch hch
  unfold intStr at hch
  split at hch
  · rcases List.mem_cons.mp hch with rfl | h
    · decide
    · exact (isDigit_props ch (natStr_digits _ ch h)).1
  · exact (isDigit_props ch (natStr_digits _ ch hch)).1

theorem intParse_intStr (i : Int) : intParse (intStr i) = some i := by
  have hne : natStr i.natAbs ≠ [] := natStr_ne_nil _
  have hall : (natStr i.natAbs).all Char.isDigit = true := natStr_all_digits _
  have hcond : (decide (natStr i.natAbs ≠ []) && (natStr i.natAbs).all Char.isDigit) = true := by
    rw [hall, Bool.and_true, decide_eq_true_eq]
    exact hne
  obtain ⟨c, t, hct, hcd⟩ : ∃ c t, natStr i.natAbs = c :: t ∧ c.isDigit = true := by
    cases h : natStr i.natAbs with
    | nil => exact absurd h hne
    | cons c t => exact ⟨c, t, rfl, natStr_digits _ c (h ▸ List.mem_cons_self _ _)⟩
  unfold intParse
  rw [pyStrip_intStr]
  unfold intStr
  by_cases hi : i < 0
  · rw [if_pos hi]
    split
    next r heq =>
      obtain ⟨rfl⟩ : natStr i.natAbs = r := (List.cons.injEq _ _ _ _).mp heq |>.2
      rw [if_pos hcond, digitsToNat_natStr]
      congr 1
      omega
    next r heq => exact absurd ((List.cons.injEq _ _ _ _).mp heq).1 (by decide)
    next h1 h2 => exact absurd rfl (h1 (natStr i.natAbs))
  · rw [if_neg hi, hct]
    split
    next r heq =>
      exact absurd ((List.cons.injEq _ _ _ _).mp heq).1 (isDigit_ne_sign c hcd).1
    next r heq =>
      exact absurd ((List.cons.injEq _ _ _ _).mp heq).1 (isDigit_ne_sign c hcd).2
    next h1 h2 =>
      rw [← hct, if_pos hcond, digitsToNat_natStr]
      congr 1
      omega

theorem floatParseCore_pair (a b : Str) (h1 : '.' ∉ a) (h2 : '.' ∉ b) :
    floatParseCore (a ++ '.' :: b) =
      if (a ++ b) ≠ [] && a.all Char.isDigit && b.all Char.isDigit then
        some (canonF (digitsToNat (a ++ b)) b.length)
      else none := by
  unfold floatParseCore
  rw [split_append_sep, split_sep_free _ _ h1, split_sep_free _ _ h2,
    List.singleton_append]

theorem canonF_ten (m : Int) : canonF (10 * m) 1 = ⟨m, 0⟩ := by
  show (if (10 * m) % 10 = 0 then canonF ((10 * m) / 10) 0 else ⟨10 * m, 1⟩) = _
  rw [if_pos (Int.mul_emod_right 10 m), Int.mul_ediv_cancel_left m (by norm_num)]
  rfl

theorem canonF_succ_ne (m : Int) (e : Nat) (h : m % 10 ≠ 0) :
    canonF m (e + 1) = ⟨m, e + 1⟩ := by
  rw [show canonF m (e + 1) = if m % 10 = 0 then canonF (m / 10) e else ⟨m, e + 1⟩ from rfl,
    if_neg h]

theorem floatParseCore_intpart (ds : Str) (n : Nat)
    (hall : ∀ c ∈ ds, c.isDigit = true)
    (hne : ds ≠ [])
    (hval : digitsToNat ds = n) :
    floatParseCore (ds ++ str ".0") = some ⟨(n : Int), 0⟩ := by
  have hdot : '.' ∉ ds := fun hmem => absurd (hall _ hmem) (by decide)
  rw [show str ".0" = '.' :: ['0'] from rfl,
    floatParseCore_pair ds ['0'] hdot (by decide)]
  have hcond : (decide ((ds ++ ['0']) ≠ []) && ds.all Char.isDigit
      && (['0'] : Str).all Char.isDigit) = true := by
    simp only [Bool.and_eq_true, decide_eq_true_eq, List.all_eq_true]
    exact ⟨⟨by simp, hall⟩, by decide⟩
  rw [if_pos hcond]
  have hv : digitsToNat (ds ++ ['0']) = 10 * n := by
    rw [digitsToNat_append, hval]
    rw [show digitsToNat ['0'] = 0 from by decide]
    simp [Nat.mul_comm]
  rw [hv, List.length_singleton]
  rw [show ((10 * n : Nat) : Int) = 10 * (n : Int) from by push_cast; ring]
  rw [canonF_ten (n : Int)]

theorem floatParseCore_frac (ds : Str) (e n : Nat)
    (hall : ∀ c ∈ ds, c.isDigit = true)
    (hlen : e + 1 ≤ ds.length)
    (hval : digitsToNat ds = n)
    (he : e ≠ 0)
    (hnd : ¬ (10 ∣ n)) :
    floatParseCore (ds.take (ds.length - e) ++ '.' :: ds.drop (ds.length - e)) =
      some ⟨(n : Int), e⟩ := by
  have hta : ∀ c ∈ ds.take (ds.length - e), c.isDigit = true :=
    fun c hc => hall c (List.take_subset _ _ hc)
  have hda : ∀ c ∈ ds.drop (ds.length - e), c.isDigit = true :=
    fun c hc => hall c (List.drop_subset _ _ hc)
  have hdot1 : '.' ∉ ds.take (ds.length - e) :=
    fun hmem => absurd (hta _ hmem) (by decide)
  have hdot2 : '.' ∉ ds.drop (ds.length - e) :=
    fun hmem => absurd (hda _ hmem) (by decide)
  rw [floatParseCore_pair _ _ hdot1 hdot2, List.take_append_drop]
  have hcond : (decide (ds ≠ []) && (ds.take (ds.length - e)).all Char.isDigit
      && (ds.drop (ds.length - e)).all Char.isDigit) = true := by
    simp only [Bool.and_eq_true, decide_eq_true_eq, List.all_eq_true]
    exact ⟨⟨List.length_pos.mp (by omega), hta⟩, hda⟩
  rw [if_pos hcond, hval, List.length_drop]
  rw [show ds.length - (ds.length - e) = e from by omega]
  obtain ⟨e', rfl⟩ : ∃ e', e = e' + 1 := ⟨e - 1, by omega⟩
  rw [canonF_succ_ne _ _ (by omega)]

theorem padDigits_all (n e : Nat) : ∀ c ∈ padDigits n e, c.isDigit = true := by
  intro c hc
  unfold padDigits at hc
  split at hc
  · rcases List.mem_append.mp hc with h | h
    · rw [List.eq_of_mem_replicate h]; decide
    · exact natStr_digits _ _ h
  · exact natStr_digits _ _ hc

theorem padDigits_val (n e : Nat) : digitsToNat (padDigits n e) = n := by
  unfold padDigits
  split
  · rw [digitsToNat_replicate_zero, digitsToNat_natStr]
  · exact digitsToNat_natStr n

theorem padDigits_ne_nil (n e : Nat) : padDigits n e ≠ [] := by
  unfold padDigits
  split
  · intro h
    exact natStr_ne_nil n (List.append_eq_nil.mp h).2
  · exact natStr_ne_nil n

theorem padDigits_len (n e : Nat) : e + 1 ≤ (padDigits n e).length := by
  unfold padDigits
  split
  next h =>
    rw [List.length_append, List.length_replicate]
    omega
  next h =>
    push_neg at h
    omega

theorem pyFloatStr_eq (f : PyFloat) :
    pyFloatStr f =
      if f.e = 0 then
        (if f.m < 0 then ['-'] else []) ++ padDigits f.m.natAbs f.e ++ str ".0"
      else
        (if f.m < 0 then ['-'] else []) ++
          (padDigits f.m.natAbs f.e).take ((padDigits f.m.natAbs f.e).length - f.e) ++
            '.' :: (padDigits f.m.natAbs f.e).drop ((padDigits f.m.natAbs f.e).length - f.e) := by
  unfold pyFloatStr padDigits
  dsimp only

theorem exists_head_digit (l : Str) (hne : l ≠ []) (hall : ∀ c ∈ l, c.isDigit = true) :
    ∃ c t, l = c :: t ∧ c.isDigit = true := by
  obtain ⟨c, t, rfl⟩ := List.exists_cons_of_ne_nil hne
  exact ⟨c, t, rfl, hall c (List.mem_cons_self _ _)⟩

theorem padDigits_take_ne_nil (n e : Nat) (he : e ≠ 0) :
    (padDigits n e).take ((padDigits n e).length - e) ≠ [] := by
  have hlen := padDigits_len n e
  apply List.ne_nil_of_length_pos
  rw [List.length_take]
  omega

theorem pyStrip_pyFloatStr (f : PyFloat) : pyStrip (pyFloatStr f) = pyFloatStr f := by
  refine stripStable_of_all _ ?_
  intro ch hch
  rw [pyFloatStr_eq] at hch
  have hsign : ∀ x ∈ (if f.m < 0 then (['-'] : Str) else []), isPySpace x = false := by
    intro x hx
    split at hx
    · rcases List.mem_singleton.mp hx with rfl
      decide
    · cases hx
  have hpd : ∀ x ∈ padDigits f.m.natAbs f.e, isPySpace x = false :=
    fun x hx => (isDigit_props x (padDigits_all _ _ x hx)).1
  split at hch
  · rcases List.mem_append.mp hch with h | h
    · rcases List.mem_append.mp h with h2 | h2
      · exact hsign ch h2
      · exact hpd ch h2
    · rw [show str ".0" = ['.', '0'] from rfl] at h
      rcases List.mem_cons.mp h with rfl | h2
      · decide
      · rcases List.mem_singleton.mp h2 with rfl
        decide
  · rcases List.mem_append.mp hch with h | h
    · rcases List.mem_append.mp h with h2 | h2
      · exact hsign ch h2
      · exact hpd ch (List.take_subset _ _ h2)
    · rcases List.mem_cons.mp h with rfl | h2
      · decide
      · exact hpd ch (List.drop_subset _ _ h2)

theorem floatParse_pyFloatStr (f : PyFloat) (hc : f.canonical) :
    floatParse (pyFloatStr f) = some f := by
  obtain ⟨m, e⟩ := f
  unfold PyFloat.canonical at hc
  dsimp only at hc
  have hcore : ∀ body : Str,
      (body = padDigits m.natAbs e ++ str ".0" ∧ e = 0) ∨
      (body = (padDigits m.natAbs e).take ((padDigits m.natAbs e).length - e) ++
        '.' :: (padDigits m.natAbs e).drop ((padDigits m.natAbs e).length - e) ∧ e ≠ 0) →
      floatParseCore body = some ⟨(m.natAbs : Int), e⟩ := by
    rintro body (⟨rfl, rfl⟩ | ⟨rfl, he⟩)
    · exact floatParseCore_intpart _ _ (padDigits_all _ _) (padDigits_ne_nil _ _)
        (padDigits_val _ _)
    · refine floatParseCore_frac _ _ _ (padDigits_all _ _) (padDigits_len _ _)
        (padDigits_val _ _) he ?_
      rcases hc with h0 | hdvd
      · exact absurd h0 he
      · intro hd
        omega
  have hbody : ∀ body : Str,
      (body = padDigits m.natAbs e ++ str ".0" ∧ e = 0) ∨
      (body = (padDigits m.natAbs e).take ((padDigits m.natAbs e).length - e) ++
        '.' :: (padDigits m.natAbs e).drop ((padDigits m.natAbs e).length - e) ∧ e ≠ 0) →
      ∃ c t, body = c :: t ∧ c.isDigit = true := by
    rintro body (⟨rfl, _⟩ | ⟨rfl, he⟩)
    · obtain ⟨c, t, hct, hcd⟩ := exists_head_digit _ (padDigits_ne_nil m.natAbs e)
        (padDigits_all _ _)
      exact ⟨c, t ++ str ".0", by rw [hct]; rfl, hcd⟩
    · obtain ⟨c, t, hct, hcd⟩ := exists_head_digit _ (padDigits_take_ne_nil m.natAbs e he)
        (fun x hx => padDigits_all _ _ x (List.take_subset _ _ hx))
      exact ⟨c, t ++ '.' :: (padDigits m.natAbs e).drop ((padDigits m.natAbs e).length - e),
        by rw [hct]; rfl, hcd⟩
  unfold floatParse
  rw [pyStrip_pyFloatStr, pyFloatStr_eq]
  dsimp only
  by_cases he : e = 0
  · rw [if_pos he]
    by_cases hm : m < 0
    · rw [if_pos hm, List.append_assoc, List.singleton_append]
      split
      next r heq =>
        obtain rfl : padDigits m.natAbs e ++ str ".0" = r :=
          ((List.cons.injEq _ _ _ _).mp heq).2
        rw [hcore _ (Or.inl ⟨rfl, he⟩), Option.map_some']
        dsimp only
        rw [show -((m.natAbs : Int)) = m from by omega]
      next r heq =>
        exact absurd ((List.cons.injEq _ _ _ _).mp heq).1 (by decide)
      next h1 h2 =>
        exact absurd rfl (h1 (padDigits m.natAbs e ++ str ".0"))
    · rw [if_neg hm, List.nil_append]
      obtain ⟨c, t, hct, hcd⟩ := hbody _ (Or.inl ⟨rfl, he⟩)
      rw [hct]
      split
      next r heq =>
        exact absurd ((List.cons.injEq _ _ _ _).mp heq).1 (isDigit_ne_sign c hcd).1
      next r heq =>
        exact absurd ((List.cons.injEq _ _ _ _).mp heq).1 (isDigit_ne_sign c hcd).2
      next h1 h2 =>
        rw [← hct, hcore _ (Or.inl ⟨rfl, he⟩)]
        rw [show ((m.natAbs : Int)) = m from by omega]
  · rw [if_neg he]
    by_cases hm : m < 0
    · rw [if_pos hm, List.append_assoc, List.singleton_append]
      split
      next r heq =>
        obtain rfl : (padDigits m.natAbs e).take ((padDigits m.natAbs e).length - e) ++
            '.' :: (padDigits m.natAbs e).drop ((padDigits m.natAbs e).length - e) = r :=
          ((List.cons.injEq _ _ _ _).mp heq).2
        rw [hcore _ (Or.inr ⟨rfl, he⟩), Option.map_some']
        dsimp only
        rw [show -((m.natAbs : Int)) = m from by omega]
      next r heq =>
        exact absurd ((List.cons.injEq _ _ _ _).mp heq).1 (by decide)
      next h1 h2 =>
        exact absurd rfl (h1 _)
    · rw [if_neg hm, List.nil_append]
      obtain ⟨c, t, hct, hcd⟩ := hbody _ (Or.inr ⟨rfl, he⟩)
      rw [hct]
      split
      next r heq =>
        exact absurd ((List.cons.injEq _ _ _ _).mp heq).1 (isDigit_ne_sign c hcd).1
      next r heq =>
        exact absurd ((List.cons.injEq _ _ _ _).mp heq).1 (isDigit_ne_sign c hcd).2
      next h1 h2 =>
        rw [← hct, hcore _ (Or.inr ⟨rfl, he⟩)]
        rw [show ((m.natAbs : Int)) = m from by omega]

theorem split_join_flat (c : Char) (L : List Str) (hL : L ≠ []) :
    pySplitCh c (pyJoin [c] L) = L.flatMap (pySplitCh c) := by
  induction L with
  | nil => exact absurd rfl hL
  | cons x L ih =>
    cases L with
    | nil => simp [pyJoin, List.flatMap]
    | cons y L' =>
      have h0 : pyJoin [c] (x :: y :: L') = x ++ c :: pyJoin [c] (y :: L') := by
        show x ++ [c] ++ pyJoin [c] (y :: L') = _
        simp
      rw [h0, split_append_sep, ih (by simp)]
      simp [List.flatMap]

theorem head_nonspace_of_stable (s : Str) (hs : pyStrip s = s) :
    ∀ x, s.head? = some x → isPySpace x = false := by
  intro x hx
  apply pyStrip_head? s
  rw [hs]
  exact hx

theorem last_nonspace_of_stable (s : Str) (hs : pyStrip s = s) :
    ∀ x, s.getLast? = some x → isPySpace x = false := by
  intro x hx
  apply pyStrip_getLast? s
  rw [hs]
  exact hx

theorem blockStr_head (b : TimeBlock) (h : BlockParsed b) :
    ∀ x ∈ (b.start ++ '-' :: b.«end»).head?, isPySpace x = false := by
  obtain ⟨⟨hs1, _⟩, _⟩ := h
  intro x hx
  cases hst : b.start with
  | nil =>
    rw [hst, List.nil_append, List.head?_cons, Option.mem_some_iff] at hx
    subst hx
    decide
  | cons a t =>
    rw [hst, List.cons_append, List.head?_cons, Option.mem_some_iff] at hx
    subst hx
    exact head_nonspace_of_stable _ hs1 _ (by rw [hst]; rfl)

theorem blockStr_last (b : TimeBlock) (h : BlockParsed b) :
    ∀ x ∈ (b.start ++ '-' :: b.«end»).getLast?, isPySpace x = false := by
  obtain ⟨_, ⟨he1, _⟩⟩ := h
  intro x hx
  rw [List.getLast?_append] at hx
  cases hen : b.«end» with
  | nil =>
    rw [hen] at hx
    rw [show (['-'] : Str).getLast? = some '-' from rfl] at hx
    rw [show (some '-').or (b.start.getLast?) = some '-' from rfl, Option.mem_some_iff] at hx
    subst hx
    decide
  | cons e0 es =>
    rw [hen] at hx
    rw [List.getLast?_cons_cons] at hx
    obtain ⟨y, hy⟩ : ∃ y, (e0 :: es).getLast? = some y :=
      Option.isSome_iff_exists.mp (by rw [List.getLast?_isSome]; simp)
    rw [hy, show (some y).or (b.start.getLast?) = some y from rfl, Option.mem_some_iff] at hx
    subst hx
    exact last_nonspace_of_stable _ he1 _ (by rw [hen]; exact hy)

theorem blockPart_strip (b : TimeBlock) (h : BlockParsed b) :
    pyStrip (b.start ++ '-' :: b.«end») = b.start ++ '-' :: b.«end» :=
  stripStable_of _ (blockStr_head b h) (blockStr_last b h)

theorem contains_dash (a c : Str) : (a ++ '-' :: c).contains '-' = true := by
  simp

theorem parseBlockParts_render (bs : List TimeBlock) (h : ∀ b ∈ bs, BlockParsed b) :
    parseBlockParts (bs.map (fun b => b.start ++ '-' :: b.«end»)) = .ok bs := by
  induction bs with
  | nil => rfl
  | cons b t ih =>
    have hb := h b (List.mem_cons_self _ _)
    obtain ⟨⟨hs1, hsd, _⟩, ⟨he1, hed, _⟩⟩ := hb
    rw [List.map_cons]
    simp only [parseBlockParts]
    rw [if_pos (contains_dash _ _)]
    rw [blockPart_strip b ⟨⟨hs1, hsd, ‹_›⟩, ⟨he1, hed, ‹_›⟩⟩]
    rw [split_append_sep, split_sep_free _ _ hsd, split_sep_free _ _ hed,
      List.singleton_append]
    rw [ih (fun x hx => h x (List.mem_cons_of_mem _ hx))]
    dsimp only
    rw [show pyStrip b.start = b.start from hs1, show pyStrip b.«end» = b.«end» from he1]

theorem pyJoin_head_eq (sep : Str) (p : Str) (R : List Str) (hp : p ≠ []) :
    (pyJoin sep (p :: R)).head? = p.head? := by
  cases R with
  | nil => rfl
  | cons q R' =>
    show (p ++ sep ++ pyJoin sep (q :: R')).head? = p.head?
    rw [List.append_assoc, List.head?_append]
    obtain ⟨a, t, rfl⟩ := List.exists_cons_of_ne_nil hp
    rfl

theorem getLast_append_right (a b : Str) (hb : b ≠ []) :
    (a ++ b).getLast? = b.getLast? := by
  rw [List.getLast?_append]
  obtain ⟨y, hy⟩ := Option.isSome_iff_exists.mp
    (show b.getLast?.isSome from by rw [List.getLast?_isSome]; simpa)
  rw [hy]
  rfl

theorem joinCells_ne_nil (bs : List TimeBlock) (hbs : bs ≠ []) :
    pyJoin (str ",") (bs.map (fun b => b.start ++ '-' :: b.«end»)) ≠ [] := by
  obtain ⟨b, t, rfl⟩ := List.exists_cons_of_ne_nil hbs
  rw [List.map_cons]
  cases ht : t.map (fun b => b.start ++ '-' :: b.«end») with
  | nil => simp [pyJoin]
  | cons q qs =>
    show b.start ++ '-' :: b.«end» ++ str "," ++ pyJoin (str ",") (q :: qs) ≠ []
    simp

theorem joinCells_head (bs : List TimeBlock) (h : ∀ b ∈ bs, BlockParsed b) (hbs : bs ≠ []) :
    ∀ x ∈ (pyJoin (str ",") (bs.map (fun b => b.start ++ '-' :: b.«end»))).head?,
      isPySpace x = false := by
  obtain ⟨b, t, rfl⟩ := List.exists_cons_of_ne_nil hbs
  intro x hx
  rw [List.map_cons, pyJoin_head_eq _ _ _ (by simp)] at hx
  exact blockStr_head b (h b (List.mem_cons_self _ _)) x hx

theorem joinCells_last (bs : List TimeBlock) (h : ∀ b ∈ bs, BlockParsed b) (hbs : bs ≠ []) :
    ∀ x ∈ (pyJoin (str ",") (bs.map (fun b => b.start ++ '-' :: b.«end»))).getLast?,
      isPySpace x = false := by
  induction bs with
  | nil => exact absurd rfl hbs
  | cons b t ih =>
    cases t with
    | nil =>
      intro x hx
      rw [List.map_singleton] at hx
      exact blockStr_last b (h b (List.mem_cons_self _ _)) x hx
    | cons c r =>
      intro x hx
      rw [List.map_cons] at hx
      rw [show pyJoin (str ",") ((b.start ++ '-' :: b.«end») :: (c :: r).map
          (fun b => b.start ++ '-' :: b.«end»))
        = (b.start ++ '-' :: b.«end» ++ str ",") ++
          pyJoin (str ",") ((c :: r).map (fun b => b.start ++ '-' :: b.«end»)) from rfl] at hx
      rw [getLast_append_right _ _ (joinCells_ne_nil (c :: r) (by simp))] at hx
      exact ih (fun x hx => h x (List.mem_cons_of_mem _ hx)) (by simp) x hx

theorem flatMap_split_sepfree (c : Char) (L : List Str) (h : ∀ p ∈ L, c ∉ p) :
    L.flatMap (pySplitCh c) = L := by
  induction L with
  | nil => rfl
  | cons p t ih =>
    rw [List.flatMap_cons, split_sep_free _ _ (h p (List.mem_cons_self _ _)),
      ih (fun x hx => h x (List.mem_cons_of_mem _ hx)), List.singleton_append]

theorem renderCell_roundtrip (bs : List TimeBlock) (h : ∀ b ∈ bs, BlockParsed b) :
    TimeBlock.parse (renderCell bs) = .ok (normBlocks bs) := by
  by_cases h0 : bs = []
  · subst h0; decide
  by_cases h1 : bs = [⟨[], []⟩]
  · subst h1; decide
  have hjne : pyJoin (str ",") (bs.map (fun b => b.start ++ '-' :: b.«end»)) ≠ [] :=
    joinCells_ne_nil bs h0
  have hstable : pyStrip (pyJoin (str ",") (bs.map (fun b => b.start ++ '-' :: b.«end»)))
      = pyJoin (str ",") (bs.map (fun b => b.start ++ '-' :: b.«end»)) :=
    stripStable_of _ (joinCells_head bs h h0) (joinCells_last bs h h0)
  have hdashmem : '-' ∈ pyJoin (str ",") (bs.map (fun b => b.start ++ '-' :: b.«end»)) := by
    obtain ⟨b, t, rfl⟩ := List.exists_cons_of_ne_nil h0
    rw [List.map_cons]
    cases ht : t.map (fun b => b.start ++ '-' :: b.«end») with
    | nil => simp [pyJoin]
    | cons q qs =>
      show '-' ∈ b.start ++ '-' :: b.«end» ++ str "," ++ pyJoin (str ",") (q :: qs)
      simp
  have hna : pyJoin (str ",") (bs.map (fun b => b.start ++ '-' :: b.«end»)) ≠ str "N/A" := by
    intro heq
    rw [heq] at hdashmem
    exact absurd hdashmem (by decide)
  have hdash : pyJoin (str ",") (bs.map (fun b => b.start ++ '-' :: b.«end»)) ≠ str "-" := by
    intro heq
    obtain ⟨b, t, rfl⟩ := List.exists_cons_of_ne_nil h0
    rw [List.map_cons] at heq
    cases t with
    | nil =>
      rw [List.map_nil] at heq
      have hl := congrArg List.length heq
      rw [show pyJoin (str ",") [b.start ++ '-' :: b.«end»] = b.start ++ '-' :: b.«end»
        from rfl] at heq hl
      simp only [List.length_append, List.length_cons] at hl
      have hs0 : b.start = [] := List.eq_nil_of_length_eq_zero (by
        rw [show (str "-").length = 1 from rfl] at hl; omega)
      have he0 : b.«end» = [] := List.eq_nil_of_length_eq_zero (by
        rw [show (str "-").length = 1 from rfl] at hl; omega)
      apply h1
      have : b = ⟨[], []⟩ := by
        obtain ⟨s, e⟩ := b
        simp only at hs0 he0
        rw [hs0, he0]
      rw [this]
    | cons c r =>
      have hl := congrArg List.length heq
      rw [show pyJoin (str ",") ((b.start ++ '-' :: b.«end») :: (c :: r).map
          (fun b => b.start ++ '-' :: b.«end»))
        = (b.start ++ '-' :: b.«end» ++ str ",") ++
          pyJoin (str ",") ((c :: r).map (fun b => b.start ++ '-' :: b.«end»)) from rfl] at hl
      have hj2 : 1 ≤ (pyJoin (str ",") ((c :: r).map
          (fun b => b.start ++ '-' :: b.«end»))).length := by
        have := joinCells_ne_nil (c :: r) (by simp)
        cases hj : pyJoin (str ",") ((c :: r).map (fun b => b.start ++ '-' :: b.«end»)) with
        | nil => exact absurd hj this
        | cons _ _ => simp
      simp only [List.length_append, List.length_cons] at hl
      rw [show (str "-").length = 1 from rfl, show (str ",").length = 1 from rfl] at hl
      omega
  have hguard : (decide (pyJoin (str ",") (bs.map (fun b => b.start ++ '-' :: b.«end»)) = [])
      || decide (pyStrip (pyJoin (str ",") (bs.map (fun b => b.start ++ '-' :: b.«end»)))
          = str "-")
      || decide (pyStrip (pyJoin (str ",") (bs.map (fun b => b.start ++ '-' :: b.«end»)))
          = str "N/A")) = false := by
    rw [hstable, decide_eq_false hjne, decide_eq_false hdash, decide_eq_false hna]
    rfl
  have hcell : renderCell bs = pyJoin (str ",") (bs.map (fun b => b.start ++ '-' :: b.«end»)) := by
    unfold renderCell
    dsimp only
    rw [if_neg hjne]
  rw [hcell]
  unfold TimeBlock.parse
  rw [hguard]
  rw [if_neg (by decide)]
  rw [show (str "," : Str) = [','] from rfl, split_join_flat ',' _ (by
    intro hm
    exact h0 (List.map_eq_nil.mp hm))]
  rw [flatMap_split_sepfree ',' _ (by
    intro p hp
    obtain ⟨b, hb, rfl⟩ := List.mem_map.mp hp
    obtain ⟨⟨_, _, hsc, _⟩, ⟨_, _, hec, _⟩⟩ := h b hb
    simp only [List.mem_append, List.mem_cons]
    rintro (hc | hc | hc)
    · exact hsc hc
    · exact absurd hc.symm (by decide)
    · exact hec hc)]
  rw [parseBlockParts_render bs h]
  rw [show normBlocks bs = bs from by unfold normBlocks; rw [if_neg h1]]

theorem pyJoin_mem (sep : Str) (L : List Str) (x : Char) (hx : x ∈ pyJoin sep L) :
    x ∈ sep ∨ ∃ p ∈ L, x ∈ p := by
  induction L with
  | nil => cases hx
  | cons p t ih =>
    cases t with
    | nil => exact Or.inr ⟨p, List.mem_cons_self _ _, hx⟩
    | cons q r =>
      rw [show pyJoin sep (p :: q :: r) = p ++ sep ++ pyJoin sep (q :: r) from rfl] at hx
      rcases List.mem_append.mp hx with h2 | h2
      · rcases List.mem_append.mp h2 with h3 | h3
        · exact Or.inr ⟨p, List.mem_cons_self _ _, h3⟩
        · exact Or.inl h3
      · rcases ih h2 with h3 | ⟨p', hp', hx'⟩
        · exact Or.inl h3
        · exact Or.inr ⟨p', List.mem_cons_of_mem _ hp', hx'⟩

theorem renderCell_no_pipe (bs : List TimeBlock) (h : ∀ b ∈ bs, BlockParsed b) :
    '|' ∉ renderCell bs := by
  unfold renderCell
  dsimp only
  split
  · decide
  · intro hmem
    rcases pyJoin_mem _ _ _ hmem with hsep | ⟨p, hp, hxp⟩
    · exact absurd hsep (by decide)
    · obtain ⟨b, hb, rfl⟩ := List.mem_map.mp hp
      obtain ⟨⟨_, _, _, hsp, _⟩, ⟨_, _, _, hep, _⟩⟩ := h b hb
      rcases List.mem_append.mp hxp with h3 | h3
      · exact hsp h3
      · rcases List.mem_cons.mp h3 with h4 | h4
        · exact absurd h4.symm (by decide)
        · exact hep h4

theorem renderCell_stable (bs : List TimeBlock) (h : ∀ b ∈ bs, BlockParsed b) :
    pyStrip (renderCell bs) = renderCell bs := by
  by_cases h0 : bs = []
  · subst h0; decide
  have hjne := joinCells_ne_nil bs h0
  have hcell : renderCell bs
      = pyJoin (str ",") (bs.map (fun b => b.start ++ '-' :: b.«end»)) := by
    unfold renderCell
    dsimp only
    rw [if_neg hjne]
  rw [hcell]
  exact stripStable_of _ (joinCells_head bs h h0) (joinCells_last bs h h0)

theorem split_cons_sep (c : Char) (t : Str) : pySplitCh c (c :: t) = [] :: pySplitCh c t := by
  unfold pySplitCh
  rw [if_pos rfl]
  congr 1
  cases t <;> rfl

theorem pipe_not_in_pad (x : Str) (hx : '|' ∉ x) : '|' ∉ ' ' :: (x ++ [' ']) := by
  intro h
  rcases List.mem_cons.mp h with h2 | h2
  · exact absurd h2 (by decide)
  · rcases List.mem_append.mp h2 with h3 | h3
    · exact hx h3
    · exact absurd (List.mem_singleton.mp h3) (by decide)

theorem pyStrip_pad (s : Str) (hs : pyStrip s = s) : pyStrip (' ' :: (s ++ [' '])) = s := by
  rw [pyStrip_cons_space _ _ (by decide), pyStrip_append_space, hs]

theorem renderRow_shape (e : TimeEntry) :
    renderRow e = '|' :: ((' ' :: (e.date ++ [' '])) ++ '|' :: ((' ' :: (e.type ++ [' '])) ++
      '|' :: ((' ' :: (renderCell e.work_times ++ [' '])) ++
      '|' :: ((' ' :: (renderCell e.break_times ++ [' '])) ++
      '|' :: ((' ' :: (e.notes ++ [' '])) ++ ['|']))))) := by
  unfold renderRow
  rw [show str "| " = ['|', ' '] from rfl, show str " | " = [' ', '|', ' '] from rfl,
    show str " |" = [' ', '|'] from rfl]
  simp

theorem split_renderRow (e : TimeEntry) (hd : '|' ∉ e.date) (ht : '|' ∉ e.type)
    (hw : '|' ∉ renderCell e.work_times) (hb : '|' ∉ renderCell e.break_times)
    (hn : '|' ∉ e.notes) :
    pySplitCh '|' (renderRow e) =
      [[], ' ' :: (e.date ++ [' ']), ' ' :: (e.type ++ [' ']),
       ' ' :: (renderCell e.work_times ++ [' ']), ' ' :: (renderCell e.break_times ++ [' ']),
       ' ' :: (e.notes ++ [' ']), []] := by
  rw [renderRow_shape]
  rw [split_cons_sep, split_append_sep, split_sep_free _ _ (pipe_not_in_pad _ hd),
      split_append_sep, split_sep_free _ _ (pipe_not_in_pad _ ht),
      split_append_sep, split_sep_free _ _ (pipe_not_in_pad _ hw),
      split_append_sep, split_sep_free _ _ (pipe_not_in_pad _ hb),
      split_append_sep, split_sep_free _ _ (pipe_not_in_pad _ hn)]
  rfl

theorem parseEntryRow_render (e : TimeEntry) (hP : EntryParsed e) :
    parseEntryRow (renderRow e) = .ok (some (normalizeEntry e)) := by
  obtain ⟨⟨hd1, hd2, hd3, hd4⟩, ⟨ht1, ht2, ht3⟩, hwb, hbb, ⟨hn1, hn2, hn3⟩⟩ := hP
  have hsplit : (pySplitCh '|' (renderRow e)).map pyStrip
      = [[], e.date, e.type, renderCell e.work_times, renderCell e.break_times, e.notes, []] := by
    rw [split_renderRow e hd2 ht2 (renderCell_no_pipe _ hwb) (renderCell_no_pipe _ hbb) hn2]
    simp only [List.map_cons, List.map_nil]
    rw [pyStrip_pad _ hd1, pyStrip_pad _ ht1, pyStrip_pad _ (renderCell_stable _ hwb),
      pyStrip_pad _ (renderCell_stable _ hbb), pyStrip_pad _ hn1]
    rfl
  unfold parseEntryRow
  rw [hsplit]
  dsimp only
  simp only [List.length_cons, List.length_nil, List.getElem!_cons_succ,
    List.getElem!_cons_zero]
  rw [show (decide ((0 + 1 + 1 + 1 + 1 + 1 + 1 + 1 : Nat) ≥ 6) && decide (e.date ≠ []))
      = true from by rw [decide_eq_true hd4]; rfl]
  rw [if_pos rfl]
  rw [renderCell_roundtrip e.work_times hwb]
  dsimp only
  rw [renderCell_roundtrip e.break_times hbb]
  rfl

theorem dropWhile_idem (p : Char → Bool) (l : Str) :
    (l.dropWhile p).dropWhile p = l.dropWhile p :=
  dropWhile_eq_self_of_head p _ (fun x hx => dw_head p l x hx)

theorem stripRight_cons (c : Char) (t : Str) :
    stripRight (c :: t) =
      if isPySpace c = true ∧ stripRight t = [] then [] else c :: stripRight t := by
  unfold stripRight
  rw [show (c :: t).reverse = t.reverse ++ [c] from by simp, List.dropWhile_append]
  by_cases h : (t.reverse.dropWhile isPySpace).isEmpty
  · rw [if_pos h]
    rw [List.isEmpty_iff] at h
    by_cases hc : isPySpace c = true
    · rw [List.dropWhile_cons_of_pos hc]
      rw [if_pos ⟨hc, by rw [h]; rfl⟩]
      rfl
    · rw [List.dropWhile_cons_of_neg (by simp [hc])]
      rw [if_neg (by intro hx; exact hc hx.1)]
      rw [h]
      rfl
  · rw [if_neg h]
    rw [List.isEmpty_iff] at h
    rw [if_neg (by
      intro hx
      apply h
      have := congrArg List.reverse hx.2
      rw [List.reverse_reverse] at this
      rw [this]
      rfl)]
    simp

theorem dropWhile_stripRight (l : Str) :
    (stripRight l).dropWhile isPySpace = stripRight (l.dropWhile isPySpace) := by
  induction l with
  | nil => rfl
  | cons c t ih =>
    rw [stripRight_cons]
    by_cases hc : isPySpace c = true
    · rw [List.dropWhile_cons_of_pos hc]
      by_cases hz : stripRight t = []
      · rw [if_pos ⟨hc, hz⟩]
        rw [show (([] : Str).dropWhile isPySpace) = [] from rfl, ← ih, hz]
        rfl
      · rw [if_neg (by intro hx; exact hz hx.2)]
        rw [List.dropWhile_cons_of_pos hc]
        exact ih
    · rw [if_neg (by intro hx; exact hc hx.1)]
      rw [List.dropWhile_cons_of_neg (by simp [hc]), List.dropWhile_cons_of_neg (by simp [hc])]
      rw [stripRight_cons, if_neg (by intro hx; exact hc hx.1)]

theorem pyStrip_eq_stripRight_dropWhile (s : Str) :
    pyStrip s = stripRight (s.dropWhile isPySpace) := rfl

theorem pyStrip_stripRight (s : Str) : pyStrip (stripRight s) = pyStrip s := by
  rw [pyStrip_eq_stripRight_dropWhile, pyStrip_eq_stripRight_dropWhile,
    dropWhile_stripRight]
  unfold stripRight
  rw [List.reverse_reverse, dropWhile_idem]

theorem splitFirst_app (c : Char) (K R : Str) (hK : c ∉ K) :
    splitFirst c (K ++ c :: R) = (K, R) := by
  induction K with
  | nil => simp [splitFirst]
  | cons a t ih =>
    rw [List.cons_append]
    unfold splitFirst
    rw [if_neg (by intro h; exact hK (h ▸ List.mem_cons_self _ _))]
    rw [ih (fun hm => hK (List.mem_cons_of_mem _ hm))]

theorem sw_cons_ne (a b : Char) (p s : Str) (h : a ≠ b) :
    startsWith (a :: p) (b :: s) = false := by
  simp [startsWith, List.isPrefixOf, h]

theorem sw_cons_eq (a : Char) (p s : Str) :
    startsWith (a :: p) (a :: s) = startsWith p s := by
  simp [startsWith, List.isPrefixOf]

theorem sw_self_append (p X : Str) : startsWith p (p ++ X) = true := by
  induction p with
  | nil => rw [List.nil_append]; cases X <;> rfl
  | cons a t ih =>
    rw [List.cons_append, sw_cons_eq]
    exact ih

theorem misMatch_startsWith (q p X : Str) (h : misMatch q p = true) :
    startsWith q (p ++ X) = false := by
  induction q generalizing p with
  | nil => simp [misMatch] at h
  | cons q0 qs ih =>
    cases p with
    | nil => simp [misMatch] at h
    | cons p0 ps =>
      by_cases he : q0 = p0
      · subst he
        unfold misMatch at h
        rw [if_pos rfl] at h
        rw [List.cons_append, sw_cons_eq]
        exact ih ps h
      · rw [List.cons_append]
        exact sw_cons_ne _ _ _ _ he

theorem scg_cons_ne (a : Char) (t : Str)
    (h : startsWith (str "## Configuration\n") (a :: t) = false) :
    searchConfigGo (a :: t) = searchConfigGo t := by
  unfold searchConfigGo
  rw [h]
  rw [if_neg (by decide)]
  cases t <;> rfl

theorem scg_skip (P R : Str)
    (hP : (P.tails).all
      (fun p => p.isEmpty || misMatch (str "## Configuration\n") p) = true) :
    searchConfigGo (P ++ R) = searchConfigGo R := by
  induction P with
  | nil => rfl
  | cons a t ih =>
    have htl : List.tails (a :: t) = (a :: t) :: List.tails t := by simp
    rw [htl, List.all_cons, Bool.and_eq_true] at hP
    obtain ⟨h1, h2⟩ := hP
    have hmm2 : misMatch (str "## Configuration\n") (a :: t) = true := by
      simpa using h1
    rw [List.cons_append]
    rw [scg_cons_ne a (t ++ R) (by
      rw [show a :: (t ++ R) = (a :: t) ++ R from rfl]
      exact misMatch_startsWith _ _ _ hmm2)]
    exact ih h2

theorem scg_found (R cap : Str) (hcap : takeUntilNlNl R = some cap) :
    searchConfigGo (str "## Configuration\n" ++ R) = some cap := by
  have hshape : str "## Configuration\n" ++ R = '#' :: (str "# Configuration\n" ++ R) := rfl
  rw [hshape]
  unfold searchConfigGo
  rw [← hshape, sw_self_append, if_pos rfl, List.drop_left, hcap]

theorem takeUntil_nlnl (z : Str) : takeUntilNlNl ('\n' :: '\n' :: z) = some [] := by
  unfold takeUntilNlNl
  rw [if_pos ⟨rfl, rfl⟩]

theorem takeUntil_step (c : Char) (t : Str) (hc : ¬(c = '\n' ∧ t.head? = some '\n')) :
    takeUntilNlNl (c :: t) = (takeUntilNlNl t).map (fun r => c :: r) := by
  unfold takeUntilNlNl
  rw [if_neg hc]
  congr 1
  cases t <;> rfl

theorem takeUntil_glue (p r cap : Str) (hp : '\n' ∉ p) (h : takeUntilNlNl r = some cap) :
    takeUntilNlNl (p ++ r) = some (p ++ cap) := by
  induction p with
  | nil => simpa using h
  | cons c t ih =>
    rw [List.cons_append, takeUntil_step c (t ++ r) (by
      intro hx
      apply hp
      rw [← hx.1]
      exact List.mem_cons_self _ _)]
    rw [ih (fun hm => hp (List.mem_cons_of_mem _ hm))]
    rfl

theorem takeUntil_nl (t : Str) (h : ¬ t.head? = some '\n') :
    takeUntilNlNl ('\n' :: t) = (takeUntilNlNl t).map (fun r => '\n' :: r) :=
  takeUntil_step '\n' t (by intro hx; exact h hx.2)

theorem pyStrip_keyline (K V : Str) (hKne : K ≠ [])
    (hKh : ∀ x ∈ K.head?, isPySpace x = false) :
    pyStrip (K ++ ':' :: V) = K ++ ':' :: stripRight V := by
  rw [pyStrip_eq_stripRight (K ++ ':' :: V) (by
    intro x hx
    obtain ⟨a, t, rfl⟩ := List.exists_cons_of_ne_nil hKne
    rw [List.cons_append, List.head?_cons, Option.mem_some_iff] at hx
    subst hx
    exact hKh _ (by rw [List.head?_cons]; exact Option.mem_some_iff.mpr rfl))]
  exact stripRight_glue K V ':' (by decide)

theorem join_wds_head (wds : List Str) (hw : ∀ d ∈ wds, wdOK d) :
    ∀ x ∈ (pyJoin (str ", ") wds).head?, isPySpace x = false := by
  cases wds with
  | nil => intro x hx; cases hx
  | cons w rest =>
    by_cases hwnil : w = []
    · subst hwnil
      cases rest with
      | nil => intro x hx; cases hx
      | cons r2 rr =>
        intro x hx
        rw [show pyJoin (str ", ") ([] :: r2 :: rr)
          = ',' :: (' ' :: pyJoin (str ", ") (r2 :: rr)) from rfl] at hx
        rw [List.head?_cons, Option.mem_some_iff] at hx
        subst hx
        decide
    · intro x hx
      rw [pyJoin_head_eq _ _ _ hwnil] at hx
      obtain ⟨hst, _⟩ := hw w (List.mem_cons_self _ _)
      exact head_nonspace_of_stable w hst x (Option.mem_def.mp hx)

theorem split_cons_nonsep (c a : Char) (t : Str) (h : a ≠ c) (h0 : Str) (r0 : List Str)
    (hsp : pySplitCh c t = h0 :: r0) :
    pySplitCh c (a :: t) = (a :: h0) :: r0 := by
  unfold pySplitCh
  rw [if_neg h, hsp]

theorem split_strip_join (wds : List Str) (hw : ∀ d ∈ wds, wdOK d) (hne : wds ≠ []) :
    (pySplitCh ',' (stripRight (pyJoin (str ", ") wds))).map pyStrip = wds := by
  induction wds with
  | nil => exact absurd rfl hne
  | cons w rest ih =>
    obtain ⟨hst, hcm, _⟩ := hw w (List.mem_cons_self _ _)
    cases rest with
    | nil =>
      rw [show pyJoin (str ", ") [w] = w from rfl]
      rw [stripRight_of_getLast w (fun x hx => last_nonspace_of_stable w hst x hx)]
      rw [split_sep_free ',' w hcm]
      rw [List.map_singleton]
      rw [show pyStrip w = w from hst]
    | cons r2 rr =>
      have hih := ih (fun d hd => hw d (List.mem_cons_of_mem _ hd)) (by simp)
      rw [show pyJoin (str ", ") (w :: r2 :: rr)
          = w ++ ',' :: (' ' :: pyJoin (str ", ") (r2 :: rr)) from by
        show w ++ str ", " ++ pyJoin (str ", ") (r2 :: rr) = _
        rw [show (str ", ") = [',', ' '] from rfl]
        simp]
      rw [stripRight_glue w _ ',' (by decide)]
      rw [split_append_sep, split_sep_free ',' w hcm, List.singleton_append]
      rw [List.map_cons]
      rw [show pyStrip w = w from hst]
      congr 1
      by_cases hz : stripRight (pyJoin (str ", ") (r2 :: rr)) = []
      · rw [stripRight_cons, if_pos ⟨by decide, hz⟩]
        rw [hz] at hih
        exact hih
      · rw [stripRight_cons, if_neg (by intro hx; exact hz hx.2)]
        obtain ⟨h0, r0, hsp⟩ : ∃ h0 r0,
            pySplitCh ',' (stripRight (pyJoin (str ", ") (r2 :: rr))) = h0 :: r0 := by
          cases hq : pySplitCh ',' (stripRight (pyJoin (str ", ") (r2 :: rr))) with
          | nil => exact absurd hq (pySplitCh_ne_nil _ _)
          | cons a b => exact ⟨a, b, rfl⟩
        rw [split_cons_nonsep ',' ' ' _ (by decide) h0 r0 hsp]
        rw [hsp] at hih
        rw [List.map_cons] at hih ⊢
        rw [pyStrip_cons_space _ _ (by decide)]
        exact hih

theorem configVal_keyline (K V : Str) (hKne : K ≠ [])
    (hKh : ∀ x ∈ K.head?, isPySpace x = false) (hKc : ':' ∉ K) :
    configValOf (K ++ ':' :: V) = pyStrip V := by
  unfold configValOf
  rw [pyStrip_keyline K V hKne hKh, splitFirst_app ':' K _ hKc]
  exact pyStrip_stripRight V

theorem configKey_keyline (K V : Str) (hKne : K ≠ [])
    (hKh : ∀ x ∈ K.head?, isPySpace x = false) (hKc : ':' ∉ K) :
    configKeyOf (K ++ ':' :: V)
      = ((pyStrip K).map Char.toLower).map (fun c => if c = ' ' then '_' else c) := by
  unfold configKeyOf
  rw [pyStrip_keyline K V hKne hKh, splitFirst_app ':' K _ hKc]

theorem contains_colon_keyline (K V : Str) (hKne : K ≠ [])
    (hKh : ∀ x ∈ K.head?, isPySpace x = false) :
    (pyStrip (K ++ ':' :: V)).contains ':' = true := by
  rw [pyStrip_keyline K V hKne hKh]
  simp

theorem acl_expected (cfg : Config) (f : PyFloat) (hc : f.canonical) :
    applyConfigLine cfg (str "Expected Hours per Week: " ++ pyFloatStr f)
      = .ok { cfg with expected_hours_per_week := .float f } := by
  have hline : str "Expected Hours per Week: " ++ pyFloatStr f
      = str "Expected Hours per Week" ++ ':' :: (' ' :: pyFloatStr f) := by
    rw [show str "Expected Hours per Week: "
      = str "Expected Hours per Week" ++ [':', ' '] from rfl, List.append_assoc]
    rfl
  rw [hline]
  unfold applyConfigLine
  rw [contains_colon_keyline _ _ (by decide) (by decide)]
  rw [if_pos rfl]
  rw [configKey_keyline _ _ (by decide) (by decide) (by decide)]
  rw [configVal_keyline _ _ (by decide) (by decide) (by decide)]
  rw [if_pos (by decide : (((pyStrip (str "Expected Hours per Week")).map
    Char.toLower).map (fun c => if c = ' ' then '_' else c)) = str "expected_hours_per_week")]
  rw [pyStrip_cons_space _ _ (by decide), pyStrip_pyFloatStr, floatParse_pyFloatStr f hc]

theorem acl_workdays (cfg : Config) (wds : List Str) (hw : ∀ d ∈ wds, wdOK d)
    (hne : wds ≠ []) :
    applyConfigLine cfg (str "Workdays: " ++ pyJoin (str ", ") wds)
      = .ok { cfg with workdays := wds } := by
  have hline : str "Workdays: " ++ pyJoin (str ", ") wds
      = str "Workdays" ++ ':' :: (' ' :: pyJoin (str ", ") wds) := by
    rw [show str "Workdays: " = str "Workdays" ++ [':', ' '] from rfl, List.append_assoc]
    rfl
  rw [hline]
  unfold applyConfigLine
  rw [contains_colon_keyline _ _ (by decide) (by decide)]
  rw [if_pos rfl]
  rw [configKey_keyline _ _ (by decide) (by decide) (by decide)]
  rw [configVal_keyline _ _ (by decide) (by decide) (by decide)]
  rw [if_neg (by decide : ¬ ((((pyStrip (str "Workdays")).map
    Char.toLower).map (fun c => if c = ' ' then '_' else c)) = str "expected_hours_per_week"))]
  rw [if_pos (by decide : (((pyStrip (str "Workdays")).map
    Char.toLower).map (fun c => if c = ' ' then '_' else c)) = str "workdays")]
  rw [pyStrip_cons_space _ _ (by decide)]
  rw [show pyStrip (pyJoin (str ", ") wds) = stripRight (pyJoin (str ", ") wds) from
    pyStrip_eq_stripRight _ (join_wds_head wds hw)]
  rw [split_strip_join wds hw hne]

theorem acl_vacation (cfg : Config) (n : Int) :
    applyConfigLine cfg (str "Vacation Days per Year: " ++ intStr n)
      = .ok { cfg with vacation_days_per_year := n } := by
  have hline : str "Vacation Days per Year: " ++ intStr n
      = str "Vacation Days per Year" ++ ':' :: (' ' :: intStr n) := by
    rw [show str "Vacation Days per Year: "
      = str "Vacation Days per Year" ++ [':', ' '] from rfl, List.append_assoc]
    rfl
  rw [hline]
  unfold applyConfigLine
  rw [contains_colon_keyline _ _ (by decide) (by decide)]
  rw [if_pos rfl]
  rw [configKey_keyline _ _ (by decide) (by decide) (by decide)]
  rw [configVal_keyline _ _ (by decide) (by decide) (by decide)]
  rw [if_neg (by decide : ¬ ((((pyStrip (str "Vacation Days per Year")).map
    Char.toLower).map (fun c => if c = ' ' then '_' else c)) = str "expected_hours_per_week"))]
  rw [if_neg (by decide : ¬ ((((pyStrip (str "Vacation Days per Year")).map
    Char.toLower).map (fun c => if c = ' ' then '_' else c)) = str "workdays"))]
  rw [if_pos (by decide : (((pyStrip (str "Vacation Days per Year")).map
    Char.toLower).map (fun c => if c = ' ' then '_' else c)) = str "vacation_days_per_year")]
  rw [pyStrip_cons_space _ _ (by decide), pyStrip_intStr, intParse_intStr n]

theorem pyFloatStr_chars (f : PyFloat) :
    ∀ ch ∈ pyFloatStr f, ch.isDigit = true ∨ ch = '.' ∨ ch = '-' := by
  intro ch hch
  rw [pyFloatStr_eq] at hch
  have hsign : ch ∈ (if f.m < 0 then (['-'] : Str) else []) → ch = '-' := by
    intro hx
    split at hx
    · exact List.mem_singleton.mp hx
    · cases hx
  have hpd : ch ∈ padDigits f.m.natAbs f.e → ch.isDigit = true :=
    fun hx => padDigits_all _ _ ch hx
  split at hch
  · rcases List.mem_append.mp hch with h | h
    · rcases List.mem_append.mp h with h2 | h2
      · exact Or.inr (Or.inr (hsign h2))
      · exact Or.inl (hpd h2)
    · rw [show str ".0" = ['.', '0'] from rfl] at h
      rcases List.mem_cons.mp h with rfl | h2
      · exact Or.inr (Or.inl rfl)
      · rcases List.mem_singleton.mp h2 with rfl
        exact Or.inl (by decide)
  · rcases List.mem_append.mp hch with h | h
    · rcases List.mem_append.mp h with h2 | h2
      · exact Or.inr (Or.inr (hsign h2))
      · exact Or.inl (hpd (List.take_subset _ _ h2))
    · rcases List.mem_cons.mp h with rfl | h2
      · exact Or.inr (Or.inl rfl)
      · exact Or.inl (hpd (List.drop_subset _ _ h2))

theorem intStr_chars (i : Int) :
    ∀ ch ∈ intStr i, ch.isDigit = true ∨ ch = '-' := by
  intro ch hch
  unfold intStr at hch
  split at hch
  · rcases List.mem_cons.mp hch with rfl | h
    · exact Or.inr rfl
    · exact Or.inl (natStr_digits _ _ h)
  · exact Or.inl (natStr_digits _ _ hch)

theorem pyFloatStr_no_nl (f : PyFloat) : '\n' ∉ pyFloatStr f := by
  intro h
  rcases pyFloatStr_chars f '\n' h with hd | hd | hd
  · exact absurd hd (by decide)
  · exact absurd hd (by decide)
  · exact absurd hd (by decide)

theorem intStr_no_nl (i : Int) : '\n' ∉ intStr i := by
  intro h
  rcases intStr_chars i '\n' h with hd | hd
  · exact absurd hd (by decide)
  · exact absurd hd (by decide)

theorem intStr_last_digit (i : Int) :
    ∀ x ∈ (intStr i).getLast?, x.isDigit = true := by
  intro x hx
  unfold intStr at hx
  have hnat : ∀ x ∈ (natStr i.natAbs).getLast?, x.isDigit = true := by
    intro y hy
    exact natStr_digits _ y (List.mem_of_mem_getLast? hy)
  split at hx
  · rw [List.getLast?_cons] at hx
    obtain ⟨a, t, hat⟩ := List.exists_cons_of_ne_nil (natStr_ne_nil i.natAbs)
    rw [hat] at hx
    rw [show ((a :: t).getLast?).getD '-' = (a :: t).getLast (by simp) from by
      rw [List.getLast?_eq_getLast _ (by simp)]; rfl] at hx
    rw [Option.mem_some_iff] at hx
    subst hx
    apply hnat
    rw [hat, List.getLast?_eq_getLast _ (by simp)]
    exact Option.mem_some_iff.mpr rfl
  · exact hnat x hx

theorem sw_nil (s : Str) : startsWith [] s = true := by
  cases s <;> rfl

theorem go_skip (hs : Bool) (A R : List Str)
    (hA : ∀ l ∈ A, startsWith (str "## Time Entries") l = false) :
    parseEntriesGo false hs (A ++ R) = parseEntriesGo false hs R := by
  induction A with
  | nil => rfl
  | cons l t ih =>
    rw [List.cons_append]
    unfold parseEntriesGo
    rw [hA l (List.mem_cons_self _ _)]
    rw [if_neg (by decide)]
    rw [show (false && startsWith (str "|") l) = false from Bool.false_and _]
    rw [if_neg (by decide)]
    rw [ih (fun x hx => hA x (List.mem_cons_of_mem _ hx))]
    cases R <;> rfl

theorem go_marker (ie hs : Bool) (R : List Str) :
    parseEntriesGo ie hs (str "## Time Entries" :: R) = parseEntriesGo true hs R := by
  unfold parseEntriesGo
  rw [if_pos (by decide)]
  cases R <;> rfl

theorem go_header (R : List Str) :
    parseEntriesGo true false (str "| Date | Type | Work Times | Break Times | Notes |" :: R)
      = parseEntriesGo true true R := by
  unfold parseEntriesGo
  rw [if_neg (by decide), if_pos (by decide), if_pos (by decide)]
  cases R <;> rfl

theorem go_sep (R : List Str) :
    parseEntriesGo true true (str "|------|------|------------|-------------|--------|" :: R)
      = parseEntriesGo true true R := by
  unfold parseEntriesGo
  rw [if_neg (by decide), if_pos (by decide), if_neg (by decide), if_pos (by decide)]
  cases R <;> rfl

theorem go_comment :
    parseEntriesGo true true
      [str "<!-- Format: Work Times: 09:00-12:00,13:00-17:00 | Break Times: 12:00-13:00 -->"]
      = .ok [] := by
  unfold parseEntriesGo
  rw [if_neg (by decide), if_neg (by decide)]
  rfl

theorem renderRow_two (e : TimeEntry) :
    renderRow e = '|' :: ' ' :: (e.date ++ [' '] ++ '|' :: ((' ' :: (e.type ++ [' '])) ++
      '|' :: ((' ' :: (renderCell e.work_times ++ [' '])) ++
      '|' :: ((' ' :: (renderCell e.break_times ++ [' '])) ++
      '|' :: ((' ' :: (e.notes ++ [' '])) ++ ['|']))))) := by
  rw [renderRow_shape]
  simp

theorem row_not_marker (e : TimeEntry) :
    startsWith (str "## Time Entries") (renderRow e) = false := by
  rw [renderRow_shape]
  rw [show '|' :: ((' ' :: (e.date ++ [' '])) ++ '|' :: ((' ' :: (e.type ++ [' '])) ++
      '|' :: ((' ' :: (renderCell e.work_times ++ [' '])) ++
      '|' :: ((' ' :: (renderCell e.break_times ++ [' '])) ++
      '|' :: ((' ' :: (e.notes ++ [' '])) ++ ['|'])))))
    = ['|'] ++ ((' ' :: (e.date ++ [' '])) ++ '|' :: ((' ' :: (e.type ++ [' '])) ++
      '|' :: ((' ' :: (renderCell e.work_times ++ [' '])) ++
      '|' :: ((' ' :: (renderCell e.break_times ++ [' '])) ++
      '|' :: ((' ' :: (e.notes ++ [' '])) ++ ['|']))))) from rfl]
  exact misMatch_startsWith _ _ _ (by decide)

theorem row_pipe (e : TimeEntry) : startsWith (str "|") (renderRow e) = true := by
  rw [renderRow_two, show (str "|") = ['|'] from rfl, sw_cons_eq]
  exact sw_nil _

theorem row_not_dashes (e : TimeEntry) :
    startsWith (str "|--") (renderRow e) = false := by
  rw [renderRow_two, show (str "|--") = ['|', '-', '-'] from rfl, sw_cons_eq]
  exact sw_cons_ne _ _ _ _ (by decide)

theorem row_contains_pipe (e : TimeEntry) : (renderRow e).contains '|' = true := by
  rw [renderRow_two]
  simp

theorem go_row (e : TimeEntry) (R : List Str) (hP : EntryParsed e) :
    parseEntriesGo true true (renderRow e :: R) =
      match parseEntriesGo true true R with
      | .error u => .error u
      | .ok es => .ok (normalizeEntry e :: es) := by
  unfold parseEntriesGo
  rw [row_not_marker e, if_neg (by decide)]
  rw [show (true && startsWith (str "|") (renderRow e)) = true from by
    rw [row_pipe e]; rfl]
  rw [if_pos rfl]
  rw [show (!true) = false from rfl, if_neg (by decide)]
  rw [row_not_dashes e, if_neg (by decide)]
  rw [row_contains_pipe e]
  rw [show (!true) = false from rfl, if_neg (by decide)]
  rw [parseEntryRow_render e hP]
  cases R <;> rfl

theorem go_rows (E : List TimeEntry) (R : List Str) (hE : ∀ e ∈ E, EntryParsed e)
    (hbase : parseEntriesGo true true R = .ok []) :
    parseEntriesGo true true (E.map renderRow ++ R) = .ok (E.map normalizeEntry) := by
  induction E with
  | nil => simpa using hbase
  | cons e t ih =>
    rw [List.map_cons, List.cons_append]
    rw [go_row e _ (hE e (List.mem_cons_self _ _))]
    rw [ih (fun x hx => hE x (List.mem_cons_of_mem _ hx))]
    rfl

theorem no_nl_append (A B : Str) (h1 : '\n' ∉ A) (h2 : '\n' ∉ B) : '\n' ∉ A ++ B :=
  fun hm => (List.mem_append.mp hm).elim h1 h2

theorem pad2_digits (n : Nat) : ∀ ch ∈ pad2 n, ch.isDigit = true := by
  intro ch hch
  unfold pad2 at hch
  split at hch
  · rcases List.mem_cons.mp hch with rfl | h
    · decide
    · exact natStr_digits _ _ h
  · exact natStr_digits _ _ hch

theorem pad4_digits (n : Nat) : ∀ ch ∈ pad4 n, ch.isDigit = true := by
  intro ch hch
  unfold pad4 at hch
  rcases List.mem_append.mp hch with h | h
  · rw [List.eq_of_mem_replicate h]; decide
  · exact natStr_digits _ _ h

theorem pad2_no_nl (n : Nat) : '\n' ∉ pad2 n :=
  fun h => absurd (pad2_digits n _ h) (by decide)

theorem pad4_no_nl (n : Nat) : '\n' ∉ pad4 n :=
  fun h => absurd (pad4_digits n _ h) (by decide)

theorem natStr_no_nl (n : Nat) : '\n' ∉ natStr n :=
  fun h => absurd (natStr_digits n _ h) (by decide)

theorem weekKeyOf_no_nl (dt : PyDate) : '\n' ∉ weekKeyOf dt := by
  unfold weekKeyOf
  refine no_nl_append _ _ (pad4_no_nl _) ?_
  intro h
  rcases List.mem_cons.mp h with h2 | h2
  · exact absurd h2 (by decide)
  rcases List.mem_cons.mp h2 with h3 | h3
  · exact absurd h3 (by decide)
  · exact pad2_no_nl _ h3

theorem monthKeyOf_no_nl (dt : PyDate) : '\n' ∉ monthKeyOf dt := by
  unfold monthKeyOf
  refine no_nl_append _ _ (pad4_no_nl _) ?_
  intro h
  rcases List.mem_cons.mp h with h2 | h2
  · exact absurd h2 (by decide)
  · exact pad2_no_nl _ h2

theorem dateStr_no_nl (d : PyDate) : '\n' ∉ dateStr d := by
  unfold dateStr
  refine no_nl_append _ _ (pad4_no_nl _) ?_
  intro h
  rcases List.mem_cons.mp h with h2 | h2
  · exact absurd h2 (by decide)
  rcases List.mem_append.mp h2 with h3 | h3
  · exact pad2_no_nl _ h3
  rcases List.mem_cons.mp h3 with h4 | h4
  · exact absurd h4 (by decide)
  · exact pad2_no_nl _ h4

theorem fmt2f_no_nl (x : DQ) : '\n' ∉ fmt2f x := by
  unfold fmt2f
  dsimp only
  refine no_nl_append _ _ (no_nl_append _ _ ?_ (natStr_no_nl _)) ?_
  · split
    · intro h; exact absurd (List.mem_singleton.mp h) (by decide)
    · intro h; cases h
  · intro h
    rcases List.mem_cons.mp h with h2 | h2
    · exact absurd h2 (by decide)
    · exact pad2_no_nl _ h2

theorem fmtSigned2f_no_nl (x : DQ) : '\n' ∉ fmtSigned2f x := by
  unfold fmtSigned2f
  dsimp only
  refine no_nl_append _ _ (no_nl_append _ _ ?_ (natStr_no_nl _)) ?_
  · split
    · intro h; exact absurd (List.mem_singleton.mp h) (by decide)
    · intro h; exact absurd (List.mem_singleton.mp h) (by decide)
  · intro h
    rcases List.mem_cons.mp h with h2 | h2
    · exact absurd h2 (by decide)
    · exact pad2_no_nl _ h2

theorem weekRow_no_nl (s : WeekStat) (wk : Str) (cum : DQ) (hk : '\n' ∉ wk) :
    '\n' ∉ weekRow s wk cum := by
  unfold weekRow
  refine no_nl_append _ _ ?_ (by decide)
  refine no_nl_append _ _ ?_ (fmtSigned2f_no_nl _)
  refine no_nl_append _ _ ?_ (by decide)
  refine no_nl_append _ _ ?_ (fmtSigned2f_no_nl _)
  refine no_nl_append _ _ ?_ (by decide)
  refine no_nl_append _ _ ?_ (fmt2f_no_nl _)
  refine no_nl_append _ _ ?_ (by decide)
  refine no_nl_append _ _ ?_ (fmt2f_no_nl _)
  refine no_nl_append _ _ ?_ (by decide)
  refine no_nl_append _ _ ?_ (dateStr_no_nl _)
  refine no_nl_append _ _ ?_ (by decide)
  refine no_nl_append _ _ ?_ (dateStr_no_nl _)
  refine no_nl_append _ _ ?_ (by decide)
  refine no_nl_append _ _ (by decide) hk

theorem balanceFold_keys_nl (E : List TimeEntry) (cfg : Config) :
    (∀ k ∈ (balanceFold E cfg).weekly_stats.map (fun p => p.1), '\n' ∉ k) ∧
    (∀ k ∈ (balanceFold E cfg).monthly_stats.map (fun p => p.1), '\n' ∉ k) := by
  unfold balanceFold
  suffices h : ∀ (l : List TimeEntry) (st : BalState),
      (∀ k ∈ st.weekly_stats.map (fun p => p.1), '\n' ∉ k) →
      (∀ k ∈ st.monthly_stats.map (fun p => p.1), '\n' ∉ k) →
      (∀ k ∈ (l.foldl (balStep cfg.expected_hours_per_week.dq) st).weekly_stats.map
        (fun p => p.1), '\n' ∉ k) ∧
      (∀ k ∈ (l.foldl (balStep cfg.expected_hours_per_week.dq) st).monthly_stats.map
        (fun p => p.1), '\n' ∉ k) by
    exact h E _ (by intro k hk; cases hk) (by intro k hk; cases hk)
  intro l
  induction l with
  | nil => intro st h1 h2; exact ⟨h1, h2⟩
  | cons e t ih =>
    intro st h1 h2
    rw [List.foldl_cons]
    refine ih _ ?_ ?_
    · intro k hk
      rw [balStep_week_char] at hk
      rcases List.mem_append.mp hk with h | h
      · exact h1 k h
      · split at h
        · cases h
        · split at h
          · cases h
          · rcases List.mem_singleton.mp h with rfl
            exact weekKeyOf_no_nl _
    · intro k hk
      rw [(balStep_month_char _ _ _).1] at hk
      rcases List.mem_append.mp hk with h | h
      · exact h2 k h
      · split at h
        · cases h
        · split at h
          · cases h
          · rcases List.mem_singleton.mp h with rfl
            exact monthKeyOf_no_nl _

theorem lines_of_single (p : Str) (h : '\n' ∉ p) :
    ∀ l ∈ pySplitCh '\n' p, l = p := by
  intro l hl
  rw [split_sep_free '\n' p h] at hl
  exact List.mem_singleton.mp hl

theorem lines_of_shape2 (q : Str) (h : '\n' ∉ q) :
    ∀ l ∈ pySplitCh '\n' (q ++ str "\n"), l = q ∨ l = [] := by
  intro l hl
  rw [show (str "\n") = ['\n'] from rfl,
    show (q ++ ['\n'] : Str) = q ++ '\n' :: [] from rfl,
    split_append_sep, split_sep_free '\n' q h] at hl
  rcases List.mem_append.mp hl with h2 | h2
  · exact Or.inl (List.mem_singleton.mp h2)
  · exact Or.inr (List.mem_singleton.mp h2)

theorem weekRow_not_marker (s : WeekStat) (wk : Str) (cum : DQ) :
    startsWith (str "## Time Entries") (weekRow s wk cum) = false := by
  have hshape : weekRow s wk cum = str "| " ++ (wk ++ (str " | " ++ (dateStr s.start_date
      ++ (str " to " ++ (dateStr (addDays 6 s.start_date) ++ (str " | "
      ++ (fmt2f s.worked ++ (str "h | " ++ (fmt2f s.expected ++ (str "h | "
      ++ (fmtSigned2f (s.worked.sub s.expected) ++ (str "h | "
      ++ (fmtSigned2f cum ++ str "h |"))))))))))))) := by
    unfold weekRow
    simp [List.append_assoc]
  rw [hshape]
  exact misMatch_startsWith _ _ _ (by decide)

theorem weeklyRowsLoop_safe (stats : List (Str × WeekStat)) (ks : List Str)
    (hk : ∀ k ∈ ks, '\n' ∉ k) :
    ∀ (cum : DQ), ∀ p ∈ weeklyRowsLoop stats ks cum,
      '\n' ∉ p ∧ startsWith (str "## Time Entries") p = false := by
  induction ks with
  | nil => intro cum p hp; cases hp
  | cons k ks ih =>
    intro cum p hp
    unfold weeklyRowsLoop at hp
    dsimp only at hp
    rcases List.mem_cons.mp hp with rfl | hp2
    · exact ⟨weekRow_no_nl _ _ _ (hk k (List.mem_cons_self _ _)), weekRow_not_marker _ _ _⟩
    · exact ih (fun x hx => hk x (List.mem_cons_of_mem _ hx)) _ p hp2

theorem monthBlock_safe (stats : List (Str × MonthStat)) (k : Str) (hk : '\n' ∉ k) :
    ∀ p ∈ monthBlock stats k, ∀ l ∈ pySplitCh '\n' p,
      startsWith (str "## Time Entries") l = false := by
  intro p hp l hl
  unfold monthBlock at hp
  dsimp only at hp
  simp only [List.mem_cons, List.not_mem_nil, or_false] at hp
  rcases hp with rfl | rfl | rfl | rfl | rfl | rfl
  · rcases lines_of_single _ (no_nl_append _ _ (by decide) hk) l hl with rfl
    exact misMatch_startsWith _ _ _ (by decide)
  · rcases lines_of_single _ (no_nl_append _ _ (no_nl_append _ _ (by decide)
      (fmt2f_no_nl _)) (by decide)) l hl with rfl
    rw [List.append_assoc]
    exact misMatch_startsWith _ _ _ (by decide)
  · rcases lines_of_single _ (no_nl_append _ _ (no_nl_append _ _ (by decide)
      (fmt2f_no_nl _)) (by decide)) l hl with rfl
    rw [List.append_assoc]
    exact misMatch_startsWith _ _ _ (by decide)
  · rcases lines_of_single _ (no_nl_append _ _ (no_nl_append _ _ (by decide)
      (fmtSigned2f_no_nl _)) (by decide)) l hl with rfl
    rw [List.append_assoc]
    exact misMatch_startsWith _ _ _ (by decide)
  · rcases lines_of_single _ (no_nl_append _ _ (by decide) (intStr_no_nl _)) l hl with rfl
    exact misMatch_startsWith _ _ _ (by decide)
  · rcases lines_of_shape2 _ (no_nl_append _ _ (by decide) (intStr_no_nl _)) l hl with rfl | rfl
    · exact misMatch_startsWith _ _ _ (by decide)
    · decide

theorem summary_lines_safe (E : List TimeEntry) (cfg : Config) :
    ∀ l ∈ pySplitCh '\n' ((calculate_balance E cfg).2),
      startsWith (str "## Time Entries") l = false := by
  intro l hl
  unfold calculate_balance at hl
  dsimp only at hl
  rw [splitNl_join_flat _ (by simp)] at hl
  rw [List.mem_flatMap] at hl
  obtain ⟨p, hp, hlp⟩ := hl
  rcases List.mem_append.mp hp with hp1 | hpMB
  · rcases List.mem_append.mp hp1 with hp2 | hpmid
    · rcases List.mem_append.mp hp2 with hp3 | hpW
      · simp only [List.mem_cons, List.not_mem_nil, or_false] at hp3
        rcases hp3 with rfl | rfl | rfl | rfl | rfl | rfl | rfl | rfl
        · exact (by decide : ∀ x ∈ pySplitCh '\n' (str "### Overall Summary"),
            startsWith (str "## Time Entries") x = false) l hlp
        · rcases lines_of_single _ (no_nl_append _ _ (no_nl_append _ _ (by decide)
            (fmt2f_no_nl _)) (by decide)) l hlp with rfl
          rw [List.append_assoc]
          exact misMatch_startsWith _ _ _ (by decide)
        · rcases lines_of_single _ (no_nl_append _ _ (no_nl_append _ _ (by decide)
            (fmt2f_no_nl _)) (by decide)) l hlp with rfl
          rw [List.append_assoc]
          exact misMatch_startsWith _ _ _ (by decide)
        · rcases lines_of_shape2 _ (no_nl_append _ _ (no_nl_append _ _ (by decide)
            (fmtSigned2f_no_nl _)) (by decide)) l hlp with rfl | rfl
          · rw [List.append_assoc]
            exact misMatch_startsWith _ _ _ (by decide)
          · decide
        · rcases lines_of_shape2 _ (no_nl_append _ _ (by decide) (by
            split
            · decide
            · decide)) l hlp with rfl | rfl
          · exact misMatch_startsWith _ _ _ (by decide)
          · decide
        · exact (by decide : ∀ x ∈ pySplitCh '\n' (str "### Weekly Summary" ++ str "\n"),
            startsWith (str "## Time Entries") x = false) l hlp
        · exact (by decide : ∀ x ∈ pySplitCh '\n'
            (str "| Week | Dates | Hours Worked | Expected Hours | Balance | Cumulative Balance |"),
            startsWith (str "## Time Entries") x = false) l hlp
        · exact (by decide : ∀ x ∈ pySplitCh '\n'
            (str "|------|-------|--------------|----------------|---------|-------------------|"),
            startsWith (str "## Time Entries") x = false) l hlp
      · have hperm := pySortedBy_perm (fun a b => strLtB b a)
          ((balanceFold E cfg).weekly_stats.map (fun p => p.1))
        obtain ⟨hnl, hsw⟩ := weeklyRowsLoop_safe _ _ (fun k hk =>
          (balanceFold_keys_nl E cfg).1 k (hperm.mem_iff.mp hk)) _ p hpW
        rcases lines_of_single _ hnl l hlp with rfl
        exact hsw
    · rcases List.mem_singleton.mp hpmid with rfl
      exact (by decide : ∀ x ∈ pySplitCh '\n'
        (str "\n" ++ str "### Monthly Summary" ++ str "\n"),
        startsWith (str "## Time Entries") x = false) l hlp
  · rw [List.mem_flatMap] at hpMB
    obtain ⟨k, hkm, hpk⟩ := hpMB
    have hperm := pySortedBy_perm strLtB
      ((balanceFold E cfg).monthly_stats.map (fun p => p.1))
    refine monthBlock_safe _ k ?_ p hpk l hlp
    exact (balanceFold_keys_nl E cfg).2 k (hperm.mem_iff.mp hkm)

theorem renderCell_no_nl (bs : List TimeBlock) (h : ∀ b ∈ bs, BlockParsed b) :
    '\n' ∉ renderCell bs := by
  unfold renderCell
  dsimp only
  split
  · decide
  · intro hm
    rcases pyJoin_mem _ _ _ hm with hs | ⟨p, hp, hx⟩
    · exact absurd hs (by decide)
    · obtain ⟨b, hb, rfl⟩ := List.mem_map.mp hp
      obtain ⟨⟨_, _, _, _, hsn⟩, ⟨_, _, _, _, hen⟩⟩ := h b hb
      rcases List.mem_append.mp hx with h3 | h3
      · exact hsn h3
      · rcases List.mem_cons.mp h3 with h4 | h4
        · exact absurd h4 (by decide)
        · exact hen h4

theorem renderRow_no_nl (e : TimeEntry) (hP : EntryParsed e) : '\n' ∉ renderRow e := by
  obtain ⟨⟨_, _, hd3, _⟩, ⟨_, _, ht3⟩, hwb, hbb, ⟨_, _, hn3⟩⟩ := hP
  unfold renderRow
  refine no_nl_append _ _ ?_ (by decide)
  refine no_nl_append _ _ ?_ hn3
  refine no_nl_append _ _ ?_ (by decide)
  refine no_nl_append _ _ ?_ (renderCell_no_nl _ hbb)
  refine no_nl_append _ _ ?_ (by decide)
  refine no_nl_append _ _ ?_ (renderCell_no_nl _ hwb)
  refine no_nl_append _ _ ?_ (by decide)
  refine no_nl_append _ _ ?_ ht3
  refine no_nl_append _ _ ?_ (by decide)
  refine no_nl_append _ _ (by decide) hd3

theorem strRepr_no_nl (n : PyNum) : '\n' ∉ n.strRepr := by
  cases n with
  | int i => exact intStr_no_nl i
  | float f => exact pyFloatStr_no_nl f

theorem parse_entries_render (cfg : Config) (E : List TimeEntry)
    (hE : ∀ e ∈ E, EntryParsed e)
    (hwd : ∀ d ∈ cfg.workdays, '\n' ∉ d) :
    parse_entries (renderDoc cfg E) = .ok (E.map normalizeEntry) := by
  have hc1 : '\n' ∉ str "Expected Hours per Week: " ++ cfg.expected_hours_per_week.strRepr :=
    no_nl_append _ _ (by decide) (strRepr_no_nl _)
  have hc2 : '\n' ∉ str "Workdays: " ++ pyJoin (str ", ") cfg.workdays := by
    refine no_nl_append _ _ (by decide) ?_
    intro hm
    rcases pyJoin_mem _ _ _ hm with hs | ⟨p, hp, hx⟩
    · exact absurd hs (by decide)
    · exact hwd p hp hx
  have hc3 : '\n' ∉ str "Vacation Days per Year: " ++ intStr cfg.vacation_days_per_year :=
    no_nl_append _ _ (by decide) (intStr_no_nl _)
  unfold parse_entries renderDoc
  rw [splitNl_join_flat _ (by unfold contentLines; simp)]
  have hLines : (contentLines cfg E).flatMap (pySplitCh '\n')
      = ([str "---", str "time_tracker: true", str "---", str "", str "# ⏱️ Time Tracker",
          str "", str "## Configuration",
          str "Expected Hours per Week: " ++ cfg.expected_hours_per_week.strRepr,
          str "Workdays: " ++ pyJoin (str ", ") cfg.workdays,
          str "Vacation Days per Year: " ++ intStr cfg.vacation_days_per_year,
          str ""]
        ++ pySplitCh '\n' ((calculate_balance E cfg).2)
        ++ [str ""])
      ++ (str "## Time Entries" ::
          str "| Date | Type | Work Times | Break Times | Notes |" ::
          str "|------|------|------------|-------------|--------|" ::
          (E.map renderRow ++
            [str "<!-- Format: Work Times: 09:00-12:00,13:00-17:00 | Break Times: 12:00-13:00 -->"])) := by
    unfold contentLines configLines
    simp only [List.flatMap_append, List.flatMap_cons, List.flatMap_nil]
    rw [split_sep_free _ _ hc1, split_sep_free _ _ hc2, split_sep_free _ _ hc3]
    rw [flatMap_split_sepfree '\n' (E.map renderRow) (by
      intro p hp
      obtain ⟨e, he, rfl⟩ := List.mem_map.mp hp
      exact renderRow_no_nl e (hE e he))]
    rw [show pySplitCh '\n' (str "---") = [str "---"] from by decide]
    rw [show pySplitCh '\n' (str "time_tracker: true") = [str "time_tracker: true"] from by decide]
    rw [show pySplitCh '\n' (str "") = [str ""] from by decide]
    rw [show pySplitCh '\n' (str "# ⏱️ Time Tracker") = [str "# ⏱️ Time Tracker"] from by decide]
    rw [show pySplitCh '\n' (str "## Configuration") = [str "## Configuration"] from by decide]
    rw [show pySplitCh '\n' (str "## Time Entries") = [str "## Time Entries"] from by decide]
    rw [show pySplitCh '\n' (str "| Date | Type | Work Times | Break Times | Notes |")
      = [str "| Date | Type | Work Times | Break Times | Notes |"] from by decide]
    rw [show pySplitCh '\n' (str "|------|------|------------|-------------|--------|")
      = [str "|------|------|------------|-------------|--------|"] from by decide]
    rw [show pySplitCh '\n'
        (str "<!-- Format: Work Times: 09:00-12:00,13:00-17:00 | Break Times: 12:00-13:00 -->")
      = [str "<!-- Format: Work Times: 09:00-12:00,13:00-17:00 | Break Times: 12:00-13:00 -->"]
      from by decide]
    simp [List.append_assoc]
  rw [hLines]
  rw [go_skip false _ _ (by
    intro l hl
    rcases List.mem_append.mp hl with hl1 | hl2
    · rcases List.mem_append.mp hl1 with hl3 | hl4
      · simp only [List.mem_cons, List.not_mem_nil, or_false] at hl3
        rcases hl3 with rfl | rfl | rfl | rfl | rfl | rfl | rfl | rfl | rfl | rfl | rfl
        · decide
        · decide
        · decide
        · decide
        · decide
        · decide
        · decide
        · exact misMatch_startsWith _ _ _ (by decide)
        · exact misMatch_startsWith _ _ _ (by decide)
        · exact misMatch_startsWith _ _ _ (by decide)
        · decide
      · exact summary_lines_safe E cfg l hl4
    · rcases List.mem_singleton.mp hl2 with rfl
      decide)]
  rw [go_marker, go_header, go_sep]
  exact go_rows E _ hE go_comment

theorem intStr_ne_nil (i : Int) : intStr i ≠ [] := by
  unfold intStr
  split
  · simp
  · exact natStr_ne_nil _

theorem splitlines_capture (c1 c2 c3 : Str) (h1 : '\n' ∉ c1) (h2 : '\n' ∉ c2)
    (h3 : '\n' ∉ c3) (hne : c1 ≠ [])
    (hlast : ¬ (c1 ++ '\n' :: (c2 ++ '\n' :: c3)).getLast? = some '\n') :
    pySplitlines (c1 ++ '\n' :: (c2 ++ '\n' :: c3)) = [c1, c2, c3] := by
  unfold pySplitlines
  rw [if_neg (by
    intro h
    exact hne (List.append_eq_nil.mp h).1)]
  dsimp only
  rw [if_neg hlast]
  rw [split_append_sep, split_sep_free _ _ h1, split_append_sep, split_sep_free _ _ h2,
    split_sep_free _ _ h3]
  rfl

theorem getLast_c123 (c1 c2 c3 : Str) (h3 : c3 ≠ []) :
    (c1 ++ '\n' :: (c2 ++ '\n' :: c3)).getLast? = c3.getLast? := by
  rw [getLast_append_right _ _ (by simp)]
  rw [show ('\n' :: (c2 ++ '\n' :: c3) : Str) = ['\n'] ++ (c2 ++ '\n' :: c3) from rfl]
  rw [getLast_append_right _ _ (by simp)]
  rw [getLast_append_right _ _ (by simp)]
  rw [show ('\n' :: c3 : Str) = ['\n'] ++ c3 from rfl]
  rw [getLast_append_right _ _ h3]

theorem parse_config_render (cfg : Config) (E : List TimeEntry) (f : PyFloat)
    (hf : cfg.expected_hours_per_week = .float f) (hcan : f.canonical)
    (hw : ∀ d ∈ cfg.workdays, wdOK d) (hwne : cfg.workdays ≠ []) :
    parse_config (renderDoc cfg E) = .ok cfg := by
  obtain ⟨exp0, wds, vac⟩ := cfg
  dsimp only at hf hw hwne
  subst hf
  have hC1 : '\n' ∉ str "Expected Hours per Week: " ++ pyFloatStr f :=
    no_nl_append _ _ (by decide) (pyFloatStr_no_nl f)
  have hC2 : '\n' ∉ str "Workdays: " ++ pyJoin (str ", ") wds := by
    refine no_nl_append _ _ (by decide) ?_
    intro hm
    rcases pyJoin_mem _ _ _ hm with hs | ⟨p, hp, hx⟩
    · exact absurd hs (by decide)
    · exact (hw p hp).2.2 hx
  have hC3 : '\n' ∉ str "Vacation Days per Year: " ++ intStr vac :=
    no_nl_append _ _ (by decide) (intStr_no_nl _)
  have hCL : contentLines ⟨.float f, wds, vac⟩ E
      = [str "---", str "time_tracker: true", str "---", str "",
         str "# ⏱️ Time Tracker", str "", str "## Configuration"]
        ++ ([str "Expected Hours per Week: " ++ pyFloatStr f,
             str "Workdays: " ++ pyJoin (str ", ") wds,
             str "Vacation Days per Year: " ++ intStr vac]
        ++ (str "" :: (calculate_balance E ⟨.float f, wds, vac⟩).2
            :: str "" :: str "## Time Entries"
            :: str "| Date | Type | Work Times | Break Times | Notes |"
            :: str "|------|------|------------|-------------|--------|"
            :: (E.map renderRow ++
              [str "<!-- Format: Work Times: 09:00-12:00,13:00-17:00 | Break Times: 12:00-13:00 -->"]))) := by
    unfold contentLines configLines
    simp [List.append_assoc, PyNum.strRepr]
  have hD : renderDoc ⟨.float f, wds, vac⟩ E
      = str "---\ntime_tracker: true\n---\n\n# ⏱️ Time Tracker\n\n"
        ++ (str "## Configuration\n"
          ++ ((str "Expected Hours per Week: " ++ pyFloatStr f)
            ++ '\n' :: ((str "Workdays: " ++ pyJoin (str ", ") wds)
            ++ '\n' :: ((str "Vacation Days per Year: " ++ intStr vac)
            ++ '\n' :: ('\n' :: pyJoin (str "\n")
              ((calculate_balance E ⟨.float f, wds, vac⟩).2
                :: str "" :: str "## Time Entries"
                :: str "| Date | Type | Work Times | Break Times | Notes |"
                :: str "|------|------|------------|-------------|--------|"
                :: (E.map renderRow ++
                  [str "<!-- Format: Work Times: 09:00-12:00,13:00-17:00 | Break Times: 12:00-13:00 -->"]))))))) := by
    unfold renderDoc
    rw [hCL]
    rw [pyJoin_append _ _ _ (by simp) (by simp)]
    rw [pyJoin_append _ _ _ (by simp) (by simp)]
    rw [show pyJoin (str "\n") [str "---", str "time_tracker: true", str "---", str "",
        str "# ⏱️ Time Tracker", str "", str "## Configuration"] ++ str "\n"
      = str "---\ntime_tracker: true\n---\n\n# ⏱️ Time Tracker\n\n"
        ++ str "## Configuration\n" from by decide]
    rw [show pyJoin (str "\n") (str "" :: (calculate_balance E ⟨.float f, wds, vac⟩).2
        :: str "" :: str "## Time Entries"
        :: str "| Date | Type | Work Times | Break Times | Notes |"
        :: str "|------|------|------------|-------------|--------|"
        :: (E.map renderRow ++
          [str "<!-- Format: Work Times: 09:00-12:00,13:00-17:00 | Break Times: 12:00-13:00 -->"]))
      = '\n' :: pyJoin (str "\n") ((calculate_balance E ⟨.float f, wds, vac⟩).2
          :: str "" :: str "## Time Entries"
          :: str "| Date | Type | Work Times | Break Times | Notes |"
          :: str "|------|------|------------|-------------|--------|"
          :: (E.map renderRow ++
            [str "<!-- Format: Work Times: 09:00-12:00,13:00-17:00 | Break Times: 12:00-13:00 -->"]))
      from rfl]
    rw [show (str "\n" : Str) = ['\n'] from rfl]
    simp [List.append_assoc, pyJoin]
  rw [hD]
  unfold parse_config
  rw [scg_skip _ _ (by decide)]
  generalize pyJoin (str "\n")
      ((calculate_balance E ⟨.float f, wds, vac⟩).2
        :: str "" :: str "## Time Entries"
        :: str "| Date | Type | Work Times | Break Times | Notes |"
        :: str "|------|------|------------|-------------|--------|"
        :: (E.map renderRow ++
          [str "<!-- Format: Work Times: 09:00-12:00,13:00-17:00 | Break Times: 12:00-13:00 -->"]))
    = T
  have t1 : takeUntilNlNl ((str "Vacation Days per Year: " ++ intStr vac)
      ++ '\n' :: ('\n' :: T)) = some (str "Vacation Days per Year: " ++ intStr vac) := by
    have := takeUntil_glue _ ('\n' :: ('\n' :: T)) [] hC3 (takeUntil_nlnl T)
    simpa using this
  have t2 : takeUntilNlNl ('\n' :: ((str "Vacation Days per Year: " ++ intStr vac)
      ++ '\n' :: ('\n' :: T)))
      = some ('\n' :: (str "Vacation Days per Year: " ++ intStr vac)) := by
    rw [takeUntil_nl _ (by
      rw [show ((str "Vacation Days per Year: " ++ intStr vac)
        ++ '\n' :: ('\n' :: T)).head? = some 'V' from rfl]
      decide)]
    rw [t1]
    rfl
  have t3 : takeUntilNlNl ((str "Workdays: " ++ pyJoin (str ", ") wds)
      ++ '\n' :: ((str "Vacation Days per Year: " ++ intStr vac) ++ '\n' :: ('\n' :: T)))
      = some ((str "Workdays: " ++ pyJoin (str ", ") wds)
        ++ '\n' :: (str "Vacation Days per Year: " ++ intStr vac)) :=
    takeUntil_glue _ _ _ hC2 t2
  have t4 : takeUntilNlNl ('\n' :: ((str "Workdays: " ++ pyJoin (str ", ") wds)
      ++ '\n' :: ((str "Vacation Days per Year: " ++ intStr vac) ++ '\n' :: ('\n' :: T))))
      = some ('\n' :: ((str "Workdays: " ++ pyJoin (str ", ") wds)
        ++ '\n' :: (str "Vacation Days per Year: " ++ intStr vac))) := by
    rw [takeUntil_nl _ (by
      rw [show ((str "Workdays: " ++ pyJoin (str ", ") wds)
        ++ '\n' :: ((str "Vacation Days per Year: " ++ intStr vac)
          ++ '\n' :: ('\n' :: T))).head? = some 'W' from rfl]
      decide)]
    rw [t3]
    rfl
  have t5 : takeUntilNlNl ((str "Expected Hours per Week: " ++ pyFloatStr f)
      ++ '\n' :: ((str "Workdays: " ++ pyJoin (str ", ") wds)
        ++ '\n' :: ((str "Vacation Days per Year: " ++ intStr vac) ++ '\n' :: ('\n' :: T))))
      = some ((str "Expected Hours per Week: " ++ pyFloatStr f)
        ++ '\n' :: ((str "Workdays: " ++ pyJoin (str ", ") wds)
          ++ '\n' :: (str "Vacation Days per Year: " ++ intStr vac))) :=
    takeUntil_glue _ _ _ hC1 t4
  rw [scg_found _ _ t5]
  dsimp only
  rw [splitlines_capture _ _ _ hC1 hC2 hC3
    (by
      intro h
      exact absurd ((List.append_eq_nil.mp h).1) (by decide))
    (by
      rw [getLast_c123 _ _ _ (by
        intro h
        exact intStr_ne_nil vac (List.append_eq_nil.mp h).2)]
      rw [getLast_append_right _ _ (intStr_ne_nil vac)]
      intro h
      exact absurd (intStr_last_digit vac '\n' (Option.mem_def.mpr h)) (by decide))]
  unfold applyConfigLines
  rw [acl_expected _ f hcan]
  unfold applyConfigLines
  rw [acl_workdays _ wds hw hwne]
  unfold applyConfigLines
  rw [acl_vacation _ vac]
  rfl

theorem mergeFold_self_aux (l acc : List TimeEntry)
    (h : ∀ e ∈ l, acc.any (fun x => x.date = e.date) = true) :
    l.foldl (fun acc ne => if acc.any (fun e => e.date = ne.date) then acc else acc ++ [ne]) acc
      = acc := by
  induction l with
  | nil => rfl
  | cons e t ih =>
    rw [List.foldl_cons, if_pos (h e (List.mem_cons_self _ _))]
    exact ih (fun x hx => h x (List.mem_cons_of_mem _ hx))

theorem mergeFold_self (X : List TimeEntry) : mergeFold X X = X := by
  unfold mergeFold
  exact mergeFold_self_aux X X (fun e he => List.any_eq_true.mpr ⟨e, he, by simp⟩)

theorem renderCell_norm (bs : List TimeBlock) : renderCell (normBlocks bs) = renderCell bs := by
  unfold normBlocks
  split
  · next h => rw [h]; decide
  · rfl

theorem renderRow_norm (e : TimeEntry) : renderRow (normalizeEntry e) = renderRow e := by
  unfold renderRow normalizeEntry
  dsimp only
  rw [renderCell_norm, renderCell_norm]

theorem sumDur_norm (bs : List TimeBlock) : sumDur (normBlocks bs) = sumDur bs := by
  unfold normBlocks
  split
  · next h => rw [h]; decide
  · rfl

theorem dayHours_norm (w b : List TimeBlock) :
    calculate_day_hours (normBlocks w) (normBlocks b) = calculate_day_hours w b := by
  unfold calculate_day_hours
  rw [sumDur_norm, sumDur_norm]

theorem balStep_norm (Ex : DQ) (st : BalState) (e : TimeEntry) :
    balStep Ex st (normalizeEntry e) = balStep Ex st e := by
  unfold balStep normalizeEntry
  dsimp only
  rw [dayHours_norm]

theorem balanceFold_norm (l : List TimeEntry) (cfg : Config) :
    balanceFold (l.map normalizeEntry) cfg = balanceFold l cfg := by
  unfold balanceFold
  suffices h : ∀ (l : List TimeEntry) (st : BalState),
      (l.map normalizeEntry).foldl (balStep cfg.expected_hours_per_week.dq) st
        = l.foldl (balStep cfg.expected_hours_per_week.dq) st by
    exact h l _
  intro l
  induction l with
  | nil => intro st; rfl
  | cons e t ih =>
    intro st
    rw [List.map_cons, List.foldl_cons, List.foldl_cons, balStep_norm]
    exact ih _

theorem calculate_balance_norm (l : List TimeEntry) (cfg : Config) :
    calculate_balance (l.map normalizeEntry) cfg = calculate_balance l cfg := by
  unfold calculate_balance
  rw [balanceFold_norm]

theorem renderDoc_norm (cfg : Config) (l : List TimeEntry) :
    renderDoc cfg (l.map normalizeEntry) = renderDoc cfg l := by
  unfold renderDoc contentLines
  rw [calculate_balance_norm]
  have hmap : (l.map normalizeEntry).map renderRow = l.map renderRow := by
    induction l with
    | nil => rfl
    | cons e t ih => rw [List.map_cons, List.map_cons, List.map_cons, renderRow_norm, ih]
  rw [hmap]

theorem ins_append_of_all {α : Type} (ltb : α → α → Bool) (x : α) (acc : List α)
    (h : ∀ y ∈ acc, ltb x y = false) : insSortedBy ltb x acc = acc ++ [x] := by
  induction acc with
  | nil => rfl
  | cons y ys ih =>
    unfold insSortedBy
    rw [h y (List.mem_cons_self _ _)]
    rw [if_neg (by decide)]
    rw [ih (fun z hz => h z (List.mem_cons_of_mem _ hz))]
    rfl

theorem pySortedBy_fix {α : Type} (ltb : α → α → Bool) (l : List α)
    (h : List.Pairwise (fun a b => ltb b a = false) l) : pySortedBy ltb l = l := by
  unfold pySortedBy
  suffices hgen : ∀ (l : List α), List.Pairwise (fun a b => ltb b a = false) l →
      ∀ acc : List α, (∀ x ∈ l, ∀ y ∈ acc, ltb x y = false) →
      l.foldl (fun acc x => insSortedBy ltb x acc) acc = acc ++ l by
    have := hgen l h [] (fun x _ y hy => absurd hy (List.not_mem_nil _))
    simpa using this
  intro l hl
  induction hl with
  | nil => intro acc _; simp
  | cons hx ht ih =>
    intro acc hacc
    rename_i x t
    rw [List.foldl_cons]
    rw [ins_append_of_all ltb x acc (fun y hy => hacc x (List.mem_cons_self _ _) y hy)]
    rw [ih (acc ++ [x]) (by
      intro z hz y hy
      rcases List.mem_append.mp hy with hy1 | hy2
      · exact hacc z (List.mem_cons_of_mem _ hz) y hy1
      · rcases List.mem_singleton.mp hy2 with rfl
        exact hx z hz)]
    simp

theorem pySortedBy_map {α β : Type} (ltb : α → α → Bool) (ltb2 : β → β → Bool)
    (g : α → β) (hg : ∀ a b, ltb2 (g a) (g b) = ltb a b) (l : List α) :
    pySortedBy ltb2 (l.map g) = (pySortedBy ltb l).map g := by
  unfold pySortedBy
  suffices hgen : ∀ (l acc : List α),
      (l.map g).foldl (fun acc x => insSortedBy ltb2 x acc) (acc.map g)
        = (l.foldl (fun acc x => insSortedBy ltb x acc) acc).map g by
    have := hgen l []
    simpa using this
  have hins : ∀ (x : α) (acc : List α),
      insSortedBy ltb2 (g x) (acc.map g) = (insSortedBy ltb x acc).map g := by
    intro x acc
    induction acc with
    | nil => rfl
    | cons y ys ih =>
      rw [List.map_cons]
      unfold insSortedBy
      rw [hg x y]
      by_cases hxy : ltb x y = true
      · rw [hxy, if_pos rfl, if_pos rfl]
        rfl
      · rw [Bool.not_eq_true] at hxy
        rw [hxy, if_neg (by decide), if_neg (by decide), ih]
        rfl
  intro l
  induction l with
  | nil => intro acc; rfl
  | cons x t ih =>
    intro acc
    rw [List.map_cons, List.foldl_cons, List.foldl_cons, hins]
    exact ih _

theorem pyStrip_subset (s : Str) : ∀ x ∈ pyStrip s, x ∈ s := by
  intro x hx
  unfold pyStrip at hx
  rw [List.mem_reverse] at hx
  have h1 : x ∈ (s.dropWhile isPySpace).reverse := (List.dropWhile_sublist _).subset hx
  rw [List.mem_reverse] at h1
  exact (List.dropWhile_sublist _).subset h1

theorem parseBlockParts_invariant (parts : List Str) (bs : List TimeBlock)
    (hp : ∀ p ∈ parts, ',' ∉ p ∧ '|' ∉ p ∧ '\n' ∉ p)
    (hok : parseBlockParts parts = .ok bs) :
    ∀ b ∈ bs, BlockParsed b := by
  induction parts generalizing bs with
  | nil =>
    rw [show parseBlockParts [] = .ok [] from rfl] at hok
    cases hok
    intro b hb
    cases hb
  | cons part rest ih =>
    unfold parseBlockParts at hok
    obtain ⟨hpc, hpp, hpn⟩ := hp part (List.mem_cons_self _ _)
    split at hok
    · split at hok
      next s e hsp =>
        split at hok
        next u heq => cases hok
        next bs' heq =>
          cases hok
          intro b hb
          rcases List.mem_cons.mp hb with rfl | hb2
          · have hs : s ∈ pySplitCh '-' (pyStrip part) := by rw [hsp]; simp
            have he : e ∈ pySplitCh '-' (pyStrip part) := by rw [hsp]; simp
            have hsub : ∀ x ∈ pyStrip part, x ∈ part := pyStrip_subset part
            have hfield : ∀ z, z ∈ pySplitCh '-' (pyStrip part) →
                stripStable (pyStrip z) ∧ '-' ∉ pyStrip z ∧ ',' ∉ pyStrip z
                  ∧ '|' ∉ pyStrip z ∧ '\n' ∉ pyStrip z := by
              intro z hz
              have hzsub : ∀ x ∈ pyStrip z, x ∈ part := fun x hx =>
                hsub _ (split_pieces_subset '-' (pyStrip part) z hz x (pyStrip_subset z x hx))
              exact ⟨pyStrip_idem z,
                fun hm => split_pieces_sep_free '-' (pyStrip part) z hz (pyStrip_subset z _ hm),
                fun hm => hpc (hzsub _ hm),
                fun hm => hpp (hzsub _ hm),
                fun hm => hpn (hzsub _ hm)⟩
            exact ⟨hfield s hs, hfield e he⟩
          · exact ih bs' (fun q hq => hp q (List.mem_cons_of_mem _ hq)) heq b hb2
      next hne => cases hok
    · exact ih bs (fun q hq => hp q (List.mem_cons_of_mem _ hq)) hok

theorem timeBlockParse_invariant (s : Str) (bs : List TimeBlock)
    (hpp : '|' ∉ s) (hpn : '\n' ∉ s)
    (hok : TimeBlock.parse s = .ok bs) :
    ∀ b ∈ bs, BlockParsed b := by
  unfold TimeBlock.parse at hok
  split at hok
  · cases hok
    intro b hb
    cases hb
  · refine parseBlockParts_invariant _ _ ?_ hok
    intro p hp
    exact ⟨split_pieces_sep_free ',' s p hp,
      fun hm => hpp (split_pieces_subset ',' s p hp _ hm),
      fun hm => hpn (split_pieces_subset ',' s p hp _ hm)⟩

theorem parts_props (line : Str) (hnl : '\n' ∉ line) :
    ∀ q ∈ (pySplitCh '|' line).map pyStrip,
      stripStable q ∧ '|' ∉ q ∧ '\n' ∉ q := by
  intro q hq
  obtain ⟨p, hp, rfl⟩ := List.mem_map.mp hq
  exact ⟨pyStrip_idem p,
    fun hm => split_pieces_sep_free '|' line p hp (pyStrip_subset p _ hm),
    fun hm => hnl (split_pieces_subset '|' line p hp _ (pyStrip_subset p _ hm))⟩

theorem parseEntryRow_invariant (line : Str) (e : TimeEntry) (hnl : '\n' ∉ line)
    (hok : parseEntryRow line = .ok (some e)) : EntryParsed e := by
  unfold parseEntryRow at hok
  dsimp only at hok
  split at hok
  · next hcond =>
    rw [Bool.and_eq_true] at hcond
    obtain ⟨hlen, hne⟩ := hcond
    rw [decide_eq_true_eq] at hlen hne
    split at hok
    · cases hok
    next wt hwt =>
      split at hok
      · cases hok
      next bt hbt =>
        rw [Except.ok.injEq, Option.some.injEq] at hok
        subst hok
        have hmem : ∀ i : Nat, i < ((pySplitCh '|' line).map pyStrip).length →
            ((pySplitCh '|' line).map pyStrip)[i]! ∈ (pySplitCh '|' line).map pyStrip := by
          intro i hi
          rw [getElem!_pos ((pySplitCh '|' line).map pyStrip) i hi]
          exact List.getElem_mem _
        have hprops := parts_props line hnl
        have h1 := hprops _ (hmem 1 (by omega))
        have h2 := hprops _ (hmem 2 (by omega))
        have h3 := hprops _ (hmem 3 (by omega))
        have h4 := hprops _ (hmem 4 (by omega))
        have h5 := hprops _ (hmem 5 (by omega))
        exact ⟨⟨h1.1, h1.2.1, h1.2.2, hne⟩, ⟨h2.1, h2.2.1, h2.2.2⟩,
          timeBlockParse_invariant _ _ h3.2.1 h3.2.2 hwt,
          timeBlockParse_invariant _ _ h4.2.1 h4.2.2 hbt,
          ⟨h5.1, h5.2.1, h5.2.2⟩⟩
  · simp at hok

theorem go_invariant (lines : List Str) :
    ∀ (ie hs : Bool) (E : List TimeEntry),
      (∀ l ∈ lines, '\n' ∉ l) → parseEntriesGo ie hs lines = .ok E →
      ∀ e ∈ E, EntryParsed e := by
  induction lines with
  | nil =>
    intro ie hs E _ hok e he
    rw [show parseEntriesGo ie hs [] = .ok [] from rfl, Except.ok.injEq] at hok
    subst hok
    cases he
  | cons l t ih =>
    intro ie hs E hnl hok
    have htail : ∀ x ∈ t, '\n' ∉ x := fun x hx => hnl x (List.mem_cons_of_mem _ hx)
    unfold parseEntriesGo at hok
    split at hok
    · exact ih _ _ _ htail hok
    · split at hok
      · split at hok
        · exact ih _ _ _ htail hok
        · split at hok
          · exact ih _ _ _ htail hok
          · split at hok
            · exact ih _ _ _ htail hok
            · split at hok
              · cases hok
              next e? hrow =>
                split at hok
                · cases hok
                next es hes =>
                  rw [Except.ok.injEq] at hok
                  subst hok
                  intro x hx
                  cases e? with
                  | none => exact ih _ _ _ htail hes x hx
                  | some e0 =>
                    rcases List.mem_cons.mp hx with rfl | hx2
                    · exact parseEntryRow_invariant l _ (hnl l (List.mem_cons_self _ _)) hrow
                    · exact ih _ _ _ htail hes x hx2
      · exact ih _ _ _ htail hok

theorem parse_entries_invariant (x : Str) (E : List TimeEntry)
    (hok : parse_entries x = .ok E) : ∀ e ∈ E, EntryParsed e := by
  unfold parse_entries at hok
  exact go_invariant _ _ _ _ (fun l hl => split_pieces_sep_free '\n' x l hl) hok

theorem canonF_canonical (e : Nat) : ∀ m : Int, (canonF m e).canonical := by
  induction e with
  | zero => intro m; exact Or.inl rfl
  | succ n ih =>
    intro m
    unfold canonF
    split
    · exact ih _
    · next h =>
      refine Or.inr ?_
      intro hd
      apply h
      have hd' : (10 : Int) ∣ m := by simpa using hd
      omega

theorem floatParseCore_canonical (t : Str) (f : PyFloat)
    (h : floatParseCore t = some f) : f.canonical := by
  unfold floatParseCore at h
  split at h
  · split at h
    · rw [Option.some.injEq] at h
      subst h
      exact canonF_canonical _ _
    · cases h
  · split at h
    · rw [Option.some.injEq] at h
      subst h
      exact canonF_canonical _ _
    · cases h
  · cases h

theorem floatParse_canonical (s : Str) (f : PyFloat)
    (h : floatParse s = some f) : f.canonical := by
  unfold floatParse at h
  split at h
  · rw [Option.map_eq_some'] at h
    obtain ⟨g, hg, rfl⟩ := h
    rcases floatParseCore_canonical _ _ hg with h0 | hd
    · exact Or.inl h0
    · refine Or.inr ?_
      intro hdd
      exact hd (by
        have : (10 : Int) ∣ -g.m := hdd
        simpa using this.neg_right)
  · exact floatParseCore_canonical _ _ h
  · exact floatParseCore_canonical _ _ h

theorem splitFirst_fst_subset (c : Char) (s : Str) : ∀ x ∈ (splitFirst c s).1, x ∈ s := by
  induction s with
  | nil => intro x hx; cases hx
  | cons a t ih =>
    intro x hx
    unfold splitFirst at hx
    split at hx
    · cases hx
    · dsimp only at hx
      rcases List.mem_cons.mp hx with rfl | hx2
      · exact List.mem_cons_self _ _
      · exact List.mem_cons_of_mem _ (ih x hx2)

theorem splitFirst_snd_subset (c : Char) (s : Str) : ∀ x ∈ (splitFirst c s).2, x ∈ s := by
  induction s with
  | nil => intro x hx; cases hx
  | cons a t ih =>
    intro x hx
    unfold splitFirst at hx
    split at hx
    · exact List.mem_cons_of_mem _ hx
    · dsimp only at hx
      exact List.mem_cons_of_mem _ (ih x hx)

theorem configValOf_subset (line : Str) : ∀ x ∈ configValOf line, x ∈ line := by
  intro x hx
  unfold configValOf at hx
  exact pyStrip_subset _ _ (splitFirst_snd_subset ':' _ _ (pyStrip_subset _ _ hx))

theorem splitlines_no_nl (s : Str) : ∀ l ∈ pySplitlines s, '\n' ∉ l := by
  intro l hl
  unfold pySplitlines at hl
  split at hl
  · cases hl
  · dsimp only at hl
    split at hl
    · exact split_pieces_sep_free '\n' s l (List.dropLast_subset _ hl)
    · exact split_pieces_sep_free '\n' s l hl

theorem applyConfigLine_invariant (cfg cfg' : Config) (line : Str)
    (hnl : '\n' ∉ line)
    (hok : applyConfigLine cfg line = .ok cfg')
    (hP : ConfigShape cfg ∧ ∀ f, cfg.expected_hours_per_week = .float f → f.canonical) :
    ConfigShape cfg' ∧ ∀ f, cfg'.expected_hours_per_week = .float f → f.canonical := by
  unfold applyConfigLine at hok
  split at hok
  · dsimp only at hok
    split at hok
    · split at hok
      next f hf =>
        rw [Except.ok.injEq] at hok
        subst hok
        refine ⟨⟨hP.1.1, hP.1.2⟩, ?_⟩
        intro g hg
        rw [show ({ cfg with expected_hours_per_week := PyNum.float f} :
          Config).expected_hours_per_week = PyNum.float f from rfl] at hg
        rw [PyNum.float.injEq] at hg
        subst hg
        exact floatParse_canonical _ _ hf
      next hf => cases hok
    · split at hok
      · rw [Except.ok.injEq] at hok
        subst hok
        refine ⟨⟨?_, ?_⟩, hP.2⟩
        · intro h
          exact pySplitCh_ne_nil ',' (configValOf line) (List.map_eq_nil.mp h)
        · intro d hd
          obtain ⟨p, hp, rfl⟩ := List.mem_map.mp hd
          exact ⟨pyStrip_idem p,
            fun hm => split_pieces_sep_free ',' _ p hp (pyStrip_subset p _ hm),
            fun hm => hnl (configValOf_subset line _
              (split_pieces_subset ',' _ p hp _ (pyStrip_subset p _ hm)))⟩
      · split at hok
        · split at hok
          next n hn =>
            rw [Except.ok.injEq] at hok
            subst hok
            exact ⟨⟨hP.1.1, hP.1.2⟩, hP.2⟩
          next hn => cases hok
        · rw [Except.ok.injEq] at hok
          subst hok
          exact hP
  · rw [Except.ok.injEq] at hok
    subst hok
    exact hP

theorem applyConfigLines_invariant (lines : List Str) :
    ∀ (cfg cfg' : Config),
      (∀ l ∈ lines, '\n' ∉ l) →
      applyConfigLines cfg lines = .ok cfg' →
      (ConfigShape cfg ∧ ∀ f, cfg.expected_hours_per_week = .float f → f.canonical) →
      ConfigShape cfg' ∧ ∀ f, cfg'.expected_hours_per_week = .float f → f.canonical := by
  induction lines with
  | nil =>
    intro cfg cfg' _ hok hP
    rw [show applyConfigLines cfg [] = .ok cfg from rfl, Except.ok.injEq] at hok
    subst hok
    exact hP
  | cons l t ih =>
    intro cfg cfg' hnl hok hP
    unfold applyConfigLines at hok
    split at hok
    · cases hok
    next cfg1 h1 =>
      exact ih _ _ (fun x hx => hnl x (List.mem_cons_of_mem _ hx)) hok
        (applyConfigLine_invariant _ _ _ (hnl l (List.mem_cons_self _ _)) h1 hP)

theorem default_config_shape : ConfigShape DEFAULT_CONFIG := by
  refine ⟨by decide, ?_⟩
  intro d hd
  rw [show DEFAULT_CONFIG.workdays = [str "Monday", str "Tuesday", str "Wednesday",
    str "Thursday", str "Friday"] from rfl] at hd
  simp only [List.mem_cons, List.not_mem_nil, or_false] at hd
  rcases hd with rfl | rfl | rfl | rfl | rfl <;>
    exact ⟨show pyStrip _ = _ by decide, by decide, by decide⟩

theorem parse_config_invariant (x : Str) (c : Config)
    (hok : parse_config x = .ok c) :
    ConfigShape c ∧ ∀ f, c.expected_hours_per_week = .float f → f.canonical := by
  unfold parse_config at hok
  split at hok
  · rw [Except.ok.injEq] at hok
    subst hok
    refine ⟨default_config_shape, ?_⟩
    intro f hf
    cases hf
  next sect hs =>
    exact applyConfigLines_invariant _ _ _ (splitlines_no_nl sect) hok
      ⟨default_config_shape, fun f hf => by cases hf⟩

theorem existingOf_of_parse (x : Str) (E : List TimeEntry)
    (h : parse_entries x = .ok E) : existingOf x = .ok E := by
  unfold existingOf
  split
  · next hx =>
    subst hx
    rw [show parse_entries [] = .ok [] from rfl] at h
    rw [h]
  · exact h

theorem entrySortDesc_fix (l : List TimeEntry) :
    entrySortDesc (entrySortDesc l) = entrySortDesc l := by
  unfold entrySortDesc
  refine pySortedBy_fix _ _ ?_
  exact pySortedBy_sorted (fun a b : TimeEntry => strLtB b.date a.date)
    (fun a b h => strLtB_asymm _ _ h)
    (fun a b c h1 h2 => strLtB_trans _ _ _ h2 h1) l

theorem entrySortDesc_map_norm (l : List TimeEntry) :
    entrySortDesc (l.map normalizeEntry) = (entrySortDesc l).map normalizeEntry := by
  unfold entrySortDesc
  exact pySortedBy_map _ _ normalizeEntry (fun a b => rfl) l

/-- **C1** (counterexample to the claim as stated).  The pipeline is not
idempotent on every document it produces: starting from the empty document the
Synthesizer renders the default int `40` as `Expected Hours per Week: 40`, but
re-parsing that line turns the value into the float `40.0`, so the second pass
rewrites the configuration line and the output differs textually. -/
theorem c1_counterexample :
    pipelineOnce (str "") = .ok c1D0 ∧ pipelineOnce c1D0 ≠ .ok c1D0 := by
  constructor
  · decide
  · decide

/-- **C1** (amended).  If the document's configuration parses with a float
`expected_hours_per_week` (the case after any document has once passed through
a parse of a parsed value, since `float(value)` is the only constructor of
that field from text), then one pipeline pass reaches a fixed point: for the
output `D` of `generate_tracker_content` on such a document, re-running
`parse_entries`, `parse_config` and `generate_tracker_content` on `D`
reproduces `D` textually. -/
theorem c1_float_config_fixed_point (x D : Str) (c : Config) (f : PyFloat)
    (hpipe : pipelineOnce x = .ok D)
    (hcfg : parse_config x = .ok c)
    (hf : c.expected_hours_per_week = .float f) :
    pipelineOnce D = .ok D := by
  unfold pipelineOnce at hpipe
  split at hpipe
  · cases hpipe
  next E hE =>
    split at hpipe
    · cases hpipe
    next c' hc' =>
      rw [hcfg, Except.ok.injEq] at hc'
      subst hc'
      rw [Except.ok.injEq] at hpipe
      subst hpipe
      obtain ⟨hshape, hcanon⟩ := parse_config_invariant x c hcfg
      have hentries := parse_entries_invariant x E hE
      have hgen : generate_tracker_content x c E = renderDoc c (entrySortDesc E) := by
        unfold generate_tracker_content
        rw [existingOf_of_parse x E hE]
        dsimp only
        rw [mergeFold_self]
      rw [hgen]
      have hS : ∀ e ∈ entrySortDesc E, EntryParsed e := by
        intro e he
        exact hentries e ((pySortedBy_perm _ _).mem_iff.mp he)
      have hwd : ∀ d ∈ c.workdays, '\n' ∉ d := fun d hd => (hshape.2 d hd).2.2
      have hPE := parse_entries_render c (entrySortDesc E) hS hwd
      have hPC := parse_config_render c (entrySortDesc E) f hf (hcanon f hf) hshape.2 hshape.1
      unfold pipelineOnce
      rw [hPE]
      dsimp only
      rw [hPC]
      dsimp only
      rw [Except.ok.injEq]
      unfold generate_tracker_content
      rw [existingOf_of_parse _ _ hPE]
      dsimp only
      rw [mergeFold_self, entrySortDesc_map_norm, entrySortDesc_fix, renderDoc_norm]

/-- Witness: a concrete document with a float configuration whose pipeline
output is a fixed point. -/
theorem c1_witness : pipelineOnce c1D = .ok c1D :=
  c1_float_config_fixed_point c1X c1D
    ⟨.float ⟨40, 0⟩,
     [str "Monday", str "Tuesday", str "Wednesday", str "Thursday", str "Friday"], 30⟩
    ⟨40, 0⟩ (by decide) (by decide) rfl
